import Mathlib

/-!
# The thor kernel: memory views, eviction queues, fetch nodes and user queues

Shallow embedding of `kernel/thor/generic/thor-internal/memory-view.hpp` and of
`thor/kernel/src/generic/futex.cpp`.

* Machine words (`uintptr_t`, `size_t`, `PhysicalAddr`) are natural numbers below `2 ^ 64`;
  every arithmetic operation of the source is followed by an explicit reduction modulo `2 ^ 64`.
* A `MemoryView` is an abstract class.  The virtual verbs that the copy helpers call are taken
  as functions of the whole history of events, so a view may answer differently every time.
  Physical memory is changed by the `memcpy` calls of the helpers only; what an implementation
  of a verb does to memory (such as filling a page that it allocates) is not part of the model.
* Execution is sequential: no other thread runs between two steps of a helper.
* The coroutine built by `async::sequence` / `async::repeat_while` is run to completion as a
  state-passing function; a failing `assert` stops the run with status `assertFailed`.
-/

namespace thor

/-! ## Machine words -/

/-- Number of values of a 64-bit machine word (`uintptr_t`, `size_t`, `PhysicalAddr`). -/
def wordLimit : Nat := 2 ^ 64

/-- Unsigned 64-bit addition. -/
def add64 (a b : Nat) : Nat := (a + b) % wordLimit

/-- Unsigned 64-bit subtraction. -/
def sub64 (a b : Nat) : Nat := (a + wordLimit - b % wordLimit) % wordLimit

/-- Bitwise complement of a 64-bit word. -/
def not64 (a : Nat) : Nat := wordLimit - 1 - a % wordLimit

/-- Modelled from the spec: the constant `kPageSize` of `thor-internal/arch/paging.hpp`, which is
not among the sources; the scenarios of the specification use pages of 4096 bytes. -/
def kPageSize : Nat := 0x1000

/-- The value `PhysicalAddr(-1)`, which stands for "no physical page". -/
def physicalNone : Nat := wordLimit - 1

/-! ## Results of the view verbs -/

/-- Modelled from the spec: the enumeration `Error` of `thor-internal/error.hpp`, which is not
among the sources; the kinds are those of the error taxonomy of the specification. -/
inductive Error where
  | success
  | fault
  | illegalObject
  | outOfMemory
  | bufferTooSmall
  | noSuchResource
  deriving DecidableEq, Repr

/-- Modelled from the spec: the enumeration `CachingMode` of `thor-internal/arch/paging.hpp`,
which is not among the sources. -/
inductive CachingMode where
  | null
  | uncached
  | writeCombine
  | writeThrough
  | writeBack
  deriving DecidableEq, Repr

/-- The tuple `PhysicalRange = frg::tuple<PhysicalAddr, size_t, CachingMode>`. -/
structure PhysicalRange where
  physical : Nat
  size : Nat
  cachingMode : CachingMode
  deriving DecidableEq, Repr

/-- The value `frg::tuple<Error, PhysicalRange, uint32_t>` produced by the `fetchRange` sender. -/
structure FetchResult where
  error : Error
  range : PhysicalRange
  flags : Nat
  deriving DecidableEq, Repr

/-! ## Events and the world of the copy helpers -/

/-- What a copy helper does to the outside: the calls of view verbs (with the value they
completed with) and the `memcpy` calls, in the order in which they happen. -/
inductive Event where
  | asyncLockRange (offset size : Nat) (e : Error)
  | fetchRange (offset : Nat) (result : FetchResult)
  | memcpy (physical misalign progress chunk : Nat)
  | markDirty (offset size : Nat)
  | unlockRange (offset size : Nat)
  deriving DecidableEq, Repr

/-- The verbs of `MemoryView` that the copy helpers call and that complete with a value.  They are
virtual; the implementations are in translation units that are not among the sources, so they are
parameters here.  Every answer may depend on the history of all events so far. -/
structure MemoryViewVerbs where
  asyncLockRange : List Event → Nat → Nat → Error
  fetchRange : List Event → Nat → FetchResult

/-- Modelled from the spec: `PageAccessor`, which is declared in the paging code that is not
among the sources, is the transient access window that maps the page at a physical address.
Physical memory is the byte at each index of the window of each page. -/
abbrev PhysicalMemory := Nat → Nat → UInt8

/-- The part of the machine that a copy helper reads and changes, apart from the caller's buffer:
physical memory and the history of events. -/
structure World where
  memory : PhysicalMemory
  trace : List Event

/-- Appends an event to the history. -/
def World.record (w : World) (e : Event) : World :=
  { w with trace := w.trace ++ [e] }

/-- How a run of a copy helper ends.  `outOfFuel` marks a loop that was cut off by the iteration
bound of the model; with the bound that the helpers pass, the size of the
transfer, it is never reached (see `copyToView_trace` and `copyFromView_trace`). -/
inductive Status where
  | done
  | assertFailed
  | outOfFuel
  deriving DecidableEq, Repr

/-! ## copyToView -/

/-- The call `memcpy(accessor.get() + misalign, pointer + progress, chunk)` of `copyToView`. -/
def memcpyToPage (memory : PhysicalMemory) (physical misalign : Nat)
    (pointer : Nat → UInt8) (progress chunk : Nat) : PhysicalMemory :=
  fun page index =>
    if page = physical ∧ misalign ≤ index ∧ index < misalign + chunk then
      pointer (progress + (index - misalign))
    else memory page index

/-- State at the end of the `repeat_while` loop of a copy helper. -/
structure LoopResult where
  status : Status
  progress : Nat
  buffer : Nat → UInt8
  world : World

/-- The loop `async::repeat_while([&nd] { return nd.progress < nd.size; }, ...)` of `copyToView`.
The first argument bounds the number of iterations. -/
def copyToViewLoop (view : MemoryViewVerbs) (offset : Nat) (pointer : Nat → UInt8) (size : Nat) :
    Nat → Nat → World → LoopResult
  | 0, progress, w =>
    if progress < size then ⟨.outOfFuel, progress, pointer, w⟩ else ⟨.done, progress, pointer, w⟩
  | fuel + 1, progress, w =>
    if progress < size then
      let fetchOffset := add64 offset progress &&& not64 (kPageSize - 1)
      let result := view.fetchRange w.trace fetchOffset
      let w1 := w.record (.fetchRange fetchOffset result)
      if result.error ≠ Error.success then ⟨.assertFailed, progress, pointer, w1⟩
      else if result.range.size < kPageSize then ⟨.assertFailed, progress, pointer, w1⟩
      else
        let misalign := add64 offset progress &&& (kPageSize - 1)
        let chunk := min (sub64 kPageSize misalign) (sub64 size progress)
        let physical := result.range.physical
        if physical = physicalNone then ⟨.assertFailed, progress, pointer, w1⟩
        else
          let w2 : World :=
            { memory := memcpyToPage w1.memory physical misalign pointer progress chunk
              trace := w1.trace ++ [.memcpy physical misalign progress chunk] }
          copyToViewLoop view offset pointer size fuel (add64 progress chunk) w2
    else ⟨.done, progress, pointer, w⟩

/-- First argument of the `markDirty` call of `copyToView`: `nd.offset & ~(kPageSize - 1)`. -/
def markDirtyOffset (offset : Nat) : Nat :=
  offset &&& not64 (kPageSize - 1)

/-- Second argument of the `markDirty` call of `copyToView`:
`(nd.size + misalign + kPageSize - 1) & ~(kPageSize - 1)` with
`misalign = nd.offset & (kPageSize - 1)`. -/
def markDirtySize (offset size : Nat) : Nat :=
  let misalign := offset &&& (kPageSize - 1)
  sub64 (add64 (add64 size misalign) kPageSize) 1 &&& not64 (kPageSize - 1)

/-- The function `copyToView(view, offset, pointer, size)`: lock the range, copy page by page,
mark the range dirty and unlock it.  At most `size` iterations are needed. -/
def copyToView (view : MemoryViewVerbs) (offset : Nat) (pointer : Nat → UInt8) (size : Nat)
    (w : World) : LoopResult :=
  let e := view.asyncLockRange w.trace offset size
  let w1 := w.record (.asyncLockRange offset size e)
  if e ≠ Error.success then ⟨.assertFailed, 0, pointer, w1⟩
  else
    let r := copyToViewLoop view offset pointer size size 0 w1
    match r.status with
    | .done =>
      let w2 := r.world.record (.markDirty (markDirtyOffset offset) (markDirtySize offset size))
      let w3 := w2.record (.unlockRange offset size)
      { r with world := w3 }
    | _ => r

/-! ## copyFromView -/

/-- The call `memcpy(pointer + progress, accessor.get() + misalign, chunk)` of `copyFromView`. -/
def memcpyFromPage (pointer : Nat → UInt8) (progress : Nat)
    (memory : PhysicalMemory) (physical misalign chunk : Nat) : Nat → UInt8 :=
  fun index =>
    if progress ≤ index ∧ index < progress + chunk then
      memory physical (misalign + (index - progress))
    else pointer index

/-- The loop `async::repeat_while([&nd] { return nd.progress < nd.size; }, ...)` of
`copyFromView`.  The first argument bounds the number of iterations. -/
def copyFromViewLoop (view : MemoryViewVerbs) (offset size : Nat) :
    Nat → Nat → (Nat → UInt8) → World → LoopResult
  | 0, progress, pointer, w =>
    if progress < size then ⟨.outOfFuel, progress, pointer, w⟩ else ⟨.done, progress, pointer, w⟩
  | fuel + 1, progress, pointer, w =>
    if progress < size then
      let fetchOffset := add64 offset progress &&& not64 (kPageSize - 1)
      let result := view.fetchRange w.trace fetchOffset
      let w1 := w.record (.fetchRange fetchOffset result)
      if result.error ≠ Error.success then ⟨.assertFailed, progress, pointer, w1⟩
      else if result.range.size < kPageSize then ⟨.assertFailed, progress, pointer, w1⟩
      else
        let misalign := add64 offset progress &&& (kPageSize - 1)
        let chunk := min (sub64 kPageSize misalign) (sub64 size progress)
        let physical := result.range.physical
        if physical = physicalNone then ⟨.assertFailed, progress, pointer, w1⟩
        else
          let w2 : World := w1.record (.memcpy physical misalign progress chunk)
          copyFromViewLoop view offset size fuel (add64 progress chunk)
            (memcpyFromPage pointer progress w1.memory physical misalign chunk) w2
    else ⟨.done, progress, pointer, w⟩

/-- The function `copyFromView(view, offset, pointer, size)`: lock the range, copy page by page
and unlock it.  At most `size` iterations are needed. -/
def copyFromView (view : MemoryViewVerbs) (offset : Nat) (pointer : Nat → UInt8) (size : Nat)
    (w : World) : LoopResult :=
  let e := view.asyncLockRange w.trace offset size
  let w1 := w.record (.asyncLockRange offset size e)
  if e ≠ Error.success then ⟨.assertFailed, 0, pointer, w1⟩
  else
    let r := copyFromViewLoop view offset size size 0 pointer w1
    match r.status with
    | .done => { r with world := r.world.record (.unlockRange offset size) }
    | _ => r

/-! ## Vocabulary of the statements about the copy helpers -/

/-- The view address of the byte number `i` of a transfer that starts at `offset`. -/
def viewAddr (offset i : Nat) : Nat := (offset + i) % wordLimit

/-- The page-aligned offset of the page that contains a view address. -/
def pageBase (a : Nat) : Nat := a / kPageSize * kPageSize

/-- A fetch result that passes the three assertions of the copy loops. -/
def FetchResult.valid (r : FetchResult) : Prop :=
  r.error = Error.success ∧ kPageSize ≤ r.range.size ∧ r.range.physical ≠ physicalNone

instance (r : FetchResult) : Decidable r.valid := by
  unfold FetchResult.valid; infer_instance

/-- The number of bytes that the loop iteration starting at `progress` copies. -/
def chunkAt (offset size progress : Nat) : Nat :=
  min (kPageSize - viewAddr offset progress % kPageSize) (size - progress)

/-- The fetch of the loop iteration that starts at `progress`, asked with history `h`. -/
def fetchAt (view : MemoryViewVerbs) (offset : Nat) (h : List Event) (progress : Nat) :
    FetchResult :=
  view.fetchRange h (pageBase (viewAddr offset progress))

/-- The events of a successful iteration of a copy loop. -/
def stepEvents (view : MemoryViewVerbs) (offset size : Nat) (h : List Event) (progress : Nat) :
    List Event :=
  [Event.fetchRange (pageBase (viewAddr offset progress)) (fetchAt view offset h progress),
   Event.memcpy (fetchAt view offset h progress).range.physical
    (viewAddr offset progress % kPageSize) progress (chunkAt offset size progress)]

/-- The world after a successful iteration of the loop of `copyToView`. -/
def toStepWorld (view : MemoryViewVerbs) (offset : Nat) (pointer : Nat → UInt8) (size : Nat)
    (progress : Nat) (w : World) : World :=
  { memory := memcpyToPage w.memory (fetchAt view offset w.trace progress).range.physical
      (viewAddr offset progress % kPageSize) pointer progress (chunkAt offset size progress)
    trace := w.trace ++ stepEvents view offset size w.trace progress }

/-- What the loops of the copy helpers may add to the history: fetches of pages of the range,
answered by the view, and `memcpy` calls that stay inside the page and inside the buffer. -/
def CopyEvent (view : MemoryViewVerbs) (offset size : Nat) : Event → Prop
  | .fetchRange o res =>
    ∃ h k, k < size ∧ o = pageBase (viewAddr offset k) ∧ res = view.fetchRange h o
  | .memcpy _ misalign progress chunk =>
    misalign + chunk ≤ kPageSize ∧ progress + chunk ≤ size
  | _ => False

/-- Pages that the view hands out for different page-aligned offsets are different. -/
def DistinctPages (view : MemoryViewVerbs) : Prop :=
  ∀ h₁ h₂ o₁ o₂, kPageSize ∣ o₁ → o₁ < wordLimit → kPageSize ∣ o₂ → o₂ < wordLimit →
    (view.fetchRange h₁ o₁).range.physical = (view.fetchRange h₂ o₂).range.physical → o₁ = o₂

/-- Every fetch at a page-aligned offset passes the assertions of the copy loops. -/
def FetchesValid (view : MemoryViewVerbs) : Prop :=
  ∀ h o, kPageSize ∣ o → o < wordLimit → (view.fetchRange h o).valid

/-- The world after a successful iteration of the loop of `copyFromView`. -/
def fromStepWorld (view : MemoryViewVerbs) (offset size : Nat) (progress : Nat) (w : World) :
    World :=
  { memory := w.memory
    trace := w.trace ++ stepEvents view offset size w.trace progress }

/-- The caller's buffer after a successful iteration of the loop of `copyFromView`. -/
def fromStepBuffer (view : MemoryViewVerbs) (offset size : Nat) (progress : Nat)
    (pointer : Nat → UInt8) (w : World) : Nat → UInt8 :=
  memcpyFromPage pointer progress w.memory (fetchAt view offset w.trace progress).range.physical
    (viewAddr offset progress % kPageSize) (chunkAt offset size progress)

/-- The event of the range lock with which a copy helper starts. -/
def lockEvent (view : MemoryViewVerbs) (offset size : Nat) (w : World) : Event :=
  Event.asyncLockRange offset size (view.asyncLockRange w.trace offset size)

/-- The events of the loop of a copy helper: fetches and `memcpy` calls. -/
def Event.isCopyStep : Event → Bool
  | .fetchRange _ _ => true
  | .memcpy _ _ _ _ => true
  | _ => false

/-- The calls of `asyncLockRange`. -/
def Event.isLock : Event → Bool
  | .asyncLockRange _ _ _ => true
  | _ => false

/-- The events that end a completed `copyToView`. -/
def toViewTail (offset size : Nat) : List Event :=
  [Event.markDirty (markDirtyOffset offset) (markDirtySize offset size),
   Event.unlockRange offset size]

/-! ## Eviction queues -/

/-- The structure `RangeToEvict`. -/
structure RangeToEvict where
  offset : Nat
  size : Nat
  deriving DecidableEq, Repr

/-- Modelled from the spec: one range posted to `async::post_ack_mechanism<RangeToEvict>`
(`async/post-ack.hpp`, which is not among the sources), with the agents that were attached when
it was posted and have not acknowledged it so far. -/
structure PostedRange where
  object : RangeToEvict
  pending : List Nat
  deriving DecidableEq, Repr

/-- Modelled from the spec: the state of `async::post_ack_mechanism<RangeToEvict>`
(`async/post-ack.hpp`, which is not among the sources): the attached agents, named by the address
of their observer, and the posted ranges in the order of posting. -/
structure PostAckMechanism where
  agents : List Nat := []
  posted : List PostedRange := []
  deriving DecidableEq, Repr

/-- Modelled from the spec: `post_ack_agent::attach`, which is not among the sources: the agent
takes part in every later post. -/
def PostAckMechanism.attach (m : PostAckMechanism) (agent : Nat) : PostAckMechanism :=
  { m with agents := m.agents ++ [agent] }

/-- Modelled from the spec: `post_ack_agent::detach`, which is not among the sources: the agent
takes part in no later post; what it has not acknowledged stays pending. -/
def PostAckMechanism.detach (m : PostAckMechanism) (agent : Nat) : PostAckMechanism :=
  { m with agents := m.agents.erase agent }

/-- Modelled from the spec: `post_ack_mechanism::post`, which is not among the sources: "the post
completes once every observer that was attached at the time of posting has acked". -/
def PostAckMechanism.post (m : PostAckMechanism) (object : RangeToEvict) : PostAckMechanism :=
  { m with posted := m.posted ++ [{ object := object, pending := m.agents }] }

/-- Modelled from the spec: `post_ack_handle::ack`, which is not among the sources, called by an
agent on its handle for the posted range number `index`. -/
def PostAckMechanism.ack (m : PostAckMechanism) (agent index : Nat) : PostAckMechanism :=
  match m.posted[index]? with
  | some item =>
    { m with posted := m.posted.set index { item with pending := item.pending.erase agent } }
  | none => m

/-- Modelled from the spec: whether the completion of the post number `index` has fired, that is
whether no agent that has to acknowledge it is left (`async/post-ack.hpp` is not among the
sources). -/
def PostAckMechanism.completed (m : PostAckMechanism) (index : Nat) : Bool :=
  match m.posted[index]? with
  | some item => item.pending.isEmpty
  | none => false

/-- The structure `EvictionQueue`; observers are named by their address. -/
structure EvictionQueue where
  observers_ : List Nat := []
  numObservers_ : Nat := 0
  mechanism_ : PostAckMechanism := {}
  deriving DecidableEq, Repr

/-- The method `EvictionQueue::addObserver`. -/
def EvictionQueue.addObserver (q : EvictionQueue) (observer : Nat) : EvictionQueue :=
  { observers_ := q.observers_ ++ [observer]
    numObservers_ := add64 q.numObservers_ 1
    mechanism_ := q.mechanism_.attach observer }

/-- The method `EvictionQueue::removeObserver`. -/
def EvictionQueue.removeObserver (q : EvictionQueue) (observer : Nat) : EvictionQueue :=
  { observers_ := q.observers_.erase observer
    numObservers_ := sub64 q.numObservers_ 1
    mechanism_ := q.mechanism_.detach observer }

/-- The method `EvictionQueue::evictRange`, which posts `RangeToEvict{offset, size}`. -/
def EvictionQueue.evictRange (q : EvictionQueue) (offset size : Nat) : EvictionQueue :=
  { q with mechanism_ := q.mechanism_.post { offset := offset, size := size } }

/-- The class `Eviction`: the handle that an observer obtained by polling, for the posted range
number `index`. -/
structure Eviction where
  observer : Nat
  index : Nat
  deriving DecidableEq, Repr

/-- The method `Eviction::done`, which acknowledges the handle. -/
def Eviction.done (e : Eviction) (q : EvictionQueue) : EvictionQueue :=
  { q with mechanism_ := q.mechanism_.ack e.observer e.index }

/-- The memory in which the `EvictionQueue` objects live, by address. -/
abbrev QueueHeap := Nat → EvictionQueue

/-- The data member of `MemoryView`: the pointer `associatedEvictionQueue_`, where `none` is
`nullptr`.  The constructor argument defaults to `nullptr`. -/
structure MemoryView where
  associatedEvictionQueue_ : Option Nat := none
  deriving DecidableEq, Repr

/-- The method `MemoryView::addObserver`. -/
def MemoryView.addObserver (v : MemoryView) (heap : QueueHeap) (observer : Nat) : QueueHeap :=
  match v.associatedEvictionQueue_ with
  | some q => Function.update heap q ((heap q).addObserver observer)
  | none => heap

/-- The method `MemoryView::removeObserver`. -/
def MemoryView.removeObserver (v : MemoryView) (heap : QueueHeap) (observer : Nat) : QueueHeap :=
  match v.associatedEvictionQueue_ with
  | some q => Function.update heap q ((heap q).removeObserver observer)
  | none => heap

/-- The method `MemoryView::canEvictMemory`. -/
def MemoryView.canEvictMemory (v : MemoryView) : Bool :=
  v.associatedEvictionQueue_.isSome

/-- The part of `ManagedSpace` that the views use: the member `_evictQueue`, given by its
address in the heap of queues. -/
structure ManagedSpace where
  numPages : Nat
  _evictQueue : Nat
  deriving DecidableEq, Repr

/-- The constructor `BackingMemory::BackingMemory`, which passes `&managed->_evictQueue` to
`MemoryView`. -/
def BackingMemory (managed : ManagedSpace) : MemoryView :=
  { associatedEvictionQueue_ := some managed._evictQueue }

/-- The constructor `FrontalMemory::FrontalMemory`, which passes `&managed->_evictQueue` to
`MemoryView`. -/
def FrontalMemory (managed : ManagedSpace) : MemoryView :=
  { associatedEvictionQueue_ := some managed._evictQueue }

/-- What can happen to an eviction queue. -/
inductive QueueOp where
  | addObserver (observer : Nat)
  | removeObserver (observer : Nat)
  | evictRange (offset size : Nat)
  | done (e : Eviction)
  deriving DecidableEq, Repr

/-- Applies one operation to an eviction queue. -/
def EvictionQueue.step (q : EvictionQueue) : QueueOp → EvictionQueue
  | .addObserver observer => q.addObserver observer
  | .removeObserver observer => q.removeObserver observer
  | .evictRange offset size => q.evictRange offset size
  | .done e => e.done q

/-- Applies a sequence of operations to an eviction queue, first to last. -/
def EvictionQueue.run (q : EvictionQueue) (ops : List QueueOp) : EvictionQueue :=
  ops.foldl EvictionQueue.step q

/-! ## Inputs of the examples -/

/-- A view over a window of physical memory that starts at address zero: every lock succeeds
and the page at a view offset is the physical page at the same address. -/
def identityView : MemoryViewVerbs where
  asyncLockRange := fun _ _ _ => Error.success
  fetchRange := fun _ o => ⟨Error.success, ⟨o, kPageSize, CachingMode.writeBack⟩, 0⟩

/-- A view in which different offsets share one physical page, as happens behind an indirection
whose slots are bound to the same range of one child view. -/
def aliasView : MemoryViewVerbs where
  asyncLockRange := fun _ _ _ => Error.success
  fetchRange := fun _ _ => ⟨Error.success, ⟨0x100000, kPageSize, CachingMode.writeBack⟩, 0⟩

/-- A view whose range lock completes with `Error::fault`, as for a range that exceeds the
length of the view. -/
def faultView : MemoryViewVerbs where
  asyncLockRange := fun _ _ _ => Error.fault
  fetchRange := fun _ o => ⟨Error.success, ⟨o, kPageSize, CachingMode.writeBack⟩, 0⟩

/-- A view whose lock succeeds and whose fetch completes with `Error::fault`. -/
def fetchFaultView : MemoryViewVerbs where
  asyncLockRange := fun _ _ _ => Error.success
  fetchRange := fun _ _ => ⟨Error.fault, ⟨physicalNone, 0, CachingMode.null⟩, 0⟩

/-- A world whose memory is all zero and whose history is empty. -/
def zeroWorld : World := ⟨fun _ _ => 0, []⟩

/-- A buffer of zero bytes. -/
def zeroBytes : Nat → UInt8 := fun _ => 0

/-- The five bytes of the string "hello", followed by zero bytes. -/
def helloBytes : Nat → UInt8 := fun i => [104, 101, 108, 108, 111].getD i 0

/-- A buffer whose first page holds the byte 1 and whose other bytes are 2. -/
def twoPageBytes : Nat → UInt8 := fun i => if i < kPageSize then 1 else 2

/-! ## Managed pages and the pager interface -/

/-- The enumeration `ManageRequest { null, initialize, writeback }`.  The enumerator
`initialize` is written `initialize_`, since the plain word is a keyword of Lean. -/
inductive ManageRequest where
  | null
  | initialize_
  | writeback
  deriving DecidableEq, Repr

/-- The constant `CachePage::reclaimStateMask`. -/
def CachePage.reclaimStateMask : Nat := 0x03

/-- The constant `CachePage::reclaimCached`: the page is clean and evictable. -/
def CachePage.reclaimCached : Nat := 0x01

/-- The constant `CachePage::reclaimUncaching`: the page is being evicted. -/
def CachePage.reclaimUncaching : Nat := 0x02

/-- The structure `CachePage` with its default member initialisers; the bundle is given by its
address and `none` is `nullptr`.  The list hook carries no data of its own. -/
structure CachePage where
  bundle : Option Nat := none
  identity : Nat := 0
  refcount : Nat := 0
  flags : Nat := 0
  deriving DecidableEq, Repr

/-- The reclaim state of a page: `flags & reclaimStateMask`. -/
def CachePage.reclaimState (page : CachePage) : Nat :=
  page.flags &&& CachePage.reclaimStateMask

/-- The enumeration `ManagedSpace::LoadState`. -/
inductive ManagedSpace.LoadState where
  | kStateMissing
  | kStatePresent
  | kStateWantInitialization
  | kStateInitialization
  | kStateWantWriteback
  | kStateWriteback
  | kStateAnotherWriteback
  | kStateEvicting
  deriving DecidableEq, Repr

/-- The structure `ManagedSpace::ManagedPage` with its default member initialisers. -/
structure ManagedSpace.ManagedPage where
  physical : Nat := physicalNone
  loadState : ManagedSpace.LoadState := ManagedSpace.LoadState.kStateMissing
  lockCount : Nat := 0
  cachePage : CachePage := {}
  deriving DecidableEq, Repr

/-- The constructor `ManagedPage(ManagedSpace *bundle, uint64_t identity)`, which sets the bundle
and the identity of the embedded cache page. -/
def ManagedSpace.ManagedPage.construct (bundle identity : Nat) : ManagedSpace.ManagedPage :=
  let page : ManagedSpace.ManagedPage := {}
  { page with cachePage := { page.cachePage with bundle := some bundle, identity := identity } }

/-! ## Vocabulary of the statements about the walk of the copy loops -/

/-- The offsets of the `fetchRange` calls in a list of events, in the order of the calls. -/
def fetchOffsets : List Event → List Nat
  | [] => []
  | .fetchRange o _ :: rest => o :: fetchOffsets rest
  | _ :: rest => fetchOffsets rest

/-- The number of pages that contain a byte of `[offset, offset + size)`. -/
def pageCount (offset size : Nat) : Nat :=
  if size = 0 then 0 else (offset + size - 1) / kPageSize - offset / kPageSize + 1

/-- The page-aligned offsets of the pages that contain a byte of `[offset, offset + size)`, in
increasing order. -/
def pagesOf (offset size : Nat) : List Nat :=
  (List.range (pageCount offset size)).map (fun k => pageBase offset + k * kPageSize)

/-- The events of a loop that walks from `progress` to `size`: every step fetches the page of
`offset + progress`, copies `min(kPageSize - misalign, size - progress)` bytes, at least one, to
or from the fetched page, and goes on from `progress` advanced by that number; the walk ends
when `progress` is `size`. -/
def PageWalk (offset size : Nat) : Nat → List Event → Prop
  | progress, [] => progress = size
  | progress, .fetchRange o res :: .memcpy physical misalign p chunk :: rest =>
    progress < size ∧ o = pageBase (viewAddr offset progress) ∧ kPageSize ∣ o ∧
    physical = res.range.physical ∧
    misalign = viewAddr offset progress % kPageSize ∧ p = progress ∧
    chunk = min (kPageSize - misalign) (size - progress) ∧ 1 ≤ chunk ∧
    PageWalk offset size (progress + chunk) rest
  | _, _ => False

/-! ## User queues (`thor/kernel/src/generic/futex.cpp`)
The queue structures live in user memory; the model is sequential, so user space does not change
them while a kernel function runs.  The accessors of foreign memory, the futex space and the
declarations of `kernel.hpp` are not among the sources: the writes of elements to user memory,
the wake-ups and the completions are recorded as effects, which leave the queue structures as
they are, and what the missing functions return is a parameter.  The sizes and offsets of the
structures are those of a target with `unsigned int` of 4 bytes and pointers of 8 bytes. -/

/-- Number of values of an `unsigned int`. -/
def uintLimit : Nat := 2 ^ 32

/-- The constant `kQueueWaiters`. -/
def kQueueWaiters : Nat := 1 <<< 31

/-- The constant `kQueueWantNext`. -/
def kQueueWantNext : Nat := 1 <<< 30

/-- The constant `kQueueTail`. -/
def kQueueTail : Nat := (1 <<< 30) - 1

/-- The constant `kQueueHasNext`. -/
def kQueueHasNext : Nat := 1 <<< 31

/-- The structure `QueueStruct` without its buffer, whose contents are not read. -/
structure QueueStruct where
  elementLimit : Nat
  queueLength : Nat
  kernelState : Nat
  userState : Nat
  nextQueue : Nat
  deriving DecidableEq, Repr

/-- The value `sizeof(QueueStruct)`: four `unsigned int` and a pointer of eight bytes. -/
def sizeofQueueStruct : Nat := 24

/-- The value `sizeof(ElementStruct)`: two `unsigned int` and a pointer of eight bytes. -/
def sizeofElementStruct : Nat := 16

/-- The value `offsetof(QueueStruct, kernelState)`. -/
def offsetofKernelState : Nat := 8

/-- The value `offsetof(QueueStruct, userState)`. -/
def offsetofUserState : Nat := 12

/-- The value `offsetof(ElementStruct, length)`. -/
def offsetofLength : Nat := 0

/-- The value `offsetof(ElementStruct, context)`. -/
def offsetofContext : Nat := 8

/-- The fields of a chunk that `futex.cpp` reads (the structure is declared in `kernel.hpp`,
which is not among the sources); the chain of `link` pointers is a list of chunks. -/
structure QueueChunk where
  pointer : Nat
  size : Nat
  deriving DecidableEq, Repr

/-- The fields of `QueueNode` that `futex.cpp` reads (the structure is declared in
`kernel.hpp`, which is not among the sources), together with the address of the node. -/
structure QueueNode where
  self : Nat
  _context : Nat
  _chunk : List QueueChunk
  deriving DecidableEq, Repr

/-- What `UserQueue` does to the outside: the writes of the length and of the context of an
element header, the write of a chunk into the payload, the completion of a node and the wake-up
of a futex. -/
inductive QueueEffect where
  | writeLength (element length : Nat)
  | writeContext (element context : Nat)
  | writeChunk (payload disp pointer size : Nat)
  | complete (node : QueueNode)
  | wake (address : Nat)
  deriving DecidableEq, Repr

/-- What the functions that are not among the sources return: `checkSubmitWait` of the futex
space, given the address and the value of its condition, and whether a `write` of a
`ForeignSpaceAccessor`, given the address of the accessor and the offset, returns an error.
Every answer may depend on the effects so far. -/
structure QueueEnv where
  checkSubmitWait : List QueueEffect → Nat → Bool → Bool
  writeFails : List QueueEffect → Nat → Nat → Bool

/-- User memory, as the queue structure at each address, and the effects so far. -/
structure QueueWorld where
  memory : Nat → QueueStruct
  effects : List QueueEffect

/-- Appends an effect. -/
def QueueWorld.log (w : QueueWorld) (e : QueueEffect) : QueueWorld :=
  { w with effects := w.effects ++ [e] }

/-- Stores the kernel state word of the queue at an address. -/
def QueueWorld.storeKernelState (w : QueueWorld) (address value : Nat) : QueueWorld :=
  let queue := w.memory address
  { w with memory := Function.update w.memory address { queue with kernelState := value } }

/-- The data members of `UserQueue` that `futex.cpp` uses. -/
structure UserQueue where
  _head : Nat
  _waitInFutex : Bool
  _nodeQueue : List QueueNode
  deriving DecidableEq, Repr

/-- The size of a chunk rounded up to a multiple of eight: `(chunk->size + 7) & ~size_t(7)`. -/
def paddedSize (chunk : QueueChunk) : Nat :=
  add64 chunk.size 7 &&& not64 7

/-- The loop `for(...) length += (chunk->size + 7) & ~size_t(7)` of `_progressFront`, from the
value of `length` so far. -/
def sumPadded : Nat → List QueueChunk → Nat
  | length, [] => length
  | length, chunk :: link => sumPadded (add64 length (paddedSize chunk)) link

/-- The loop of `_progressFront` that writes the chunks: each pair is the displacement `disp`
of a call `accessor.write(disp, chunk->pointer, chunk->size)` and its chunk. -/
def chunkWrites : Nat → List QueueChunk → List (Nat × QueueChunk)
  | _, [] => []
  | disp, chunk :: link => (disp, chunk) :: chunkWrites (add64 disp (paddedSize chunk)) link

/-- How the first loop of `_progressFront` ends: the element fits into the queue, the function
returns, or the iteration bound of the model is reached. -/
inductive ScanResult where
  | found (ke : Nat) (w : QueueWorld)
  | returned (value : Bool) (successor : Nat) (waitInFutex : Bool) (w : QueueWorld)
  | outOfFuel (w : QueueWorld)

/-- The first loop of `_progressFront`, which looks for a queue with enough space.  The first
argument bounds the number of iterations. -/
def UserQueue.scan (env : QueueEnv) (address length successor : Nat) (waitInFutex : Bool) :
    Nat → Nat → QueueWorld → ScanResult
  | 0, ke, w =>
    if ke &&& kQueueWantNext ≠ 0 ∨
        add64 (add64 (ke &&& kQueueTail) sizeofElementStruct) length
          > (w.memory address).queueLength then
      ScanResult.outOfFuel w
    else ScanResult.found ke w
  | fuel + 1, ke, w =>
    if ke &&& kQueueWantNext ≠ 0 ∨
        add64 (add64 (ke &&& kQueueTail) sizeofElementStruct) length
          > (w.memory address).queueLength then
      if ke &&& kQueueWantNext ≠ 0 then
        let ue := (w.memory address).userState
        if ue &&& kQueueHasNext = 0 then
          let v := (w.memory address).userState
          let wait := env.checkSubmitWait w.effects (add64 address offsetofUserState) (ue == v)
          ScanResult.returned (!wait) successor wait w
        else ScanResult.returned true (w.memory address).nextQueue waitInFutex w
      else
        let d := ke ||| kQueueWantNext
        if (w.memory address).kernelState = ke then
          let w1 := w.storeKernelState address d
          let w2 := if ke &&& kQueueWaiters ≠ 0
            then w1.log (QueueEffect.wake (add64 address offsetofKernelState)) else w1
          UserQueue.scan env address length successor waitInFutex fuel ke w2
        else
          UserQueue.scan env address length successor waitInFutex fuel
            (w.memory address).kernelState w
    else ScanResult.found ke w

/-- The last loop of `_progressFront`, which publishes the new tail in the kernel state word.
The first argument bounds the number of iterations. -/
def UserQueue.publish (address offset length : Nat) : Nat → Nat → QueueWorld → Status × QueueWorld
  | 0, _, w => (Status.outOfFuel, w)
  | fuel + 1, ke, w =>
    if ke &&& kQueueWantNext ≠ 0 then (Status.assertFailed, w)
    else if ke &&& kQueueTail ≠ offset then (Status.assertFailed, w)
    else
      let d := add64 (add64 offset length) sizeofElementStruct % uintLimit
      if (w.memory address).kernelState = ke then
        let w1 := w.storeKernelState address d
        let w2 := if ke &&& kQueueWaiters ≠ 0
          then w1.log (QueueEffect.wake (add64 address offsetofKernelState)) else w1
        (Status.done, w2)
      else UserQueue.publish address offset length fuel (w.memory address).kernelState w

/-- What `_progressFront` leaves behind: how it ended, the value it returned, the reference
argument `successor`, the queue object and the world. -/
structure FrontResult where
  status : Status
  value : Bool
  successor : Nat
  queue : UserQueue
  world : QueueWorld

/-- The method `UserQueue::_progressFront`.  In the sequential model the first loop takes at
most three iterations and the last loop one. -/
def UserQueue._progressFront (env : QueueEnv) (q : UserQueue) (successor : Nat)
    (w : QueueWorld) : FrontResult :=
  match q._nodeQueue with
  | [] => ⟨Status.assertFailed, false, successor, q, w⟩
  | front :: rest =>
    let address := q._head
    let length := sumPadded 0 front._chunk
    if length % 8 ≠ 0 then ⟨Status.assertFailed, false, successor, q, w⟩
    else
      let context := front._context
      let ke := (w.memory address).kernelState
      if q._waitInFutex then ⟨Status.done, false, successor, q, w⟩
      else
        match UserQueue.scan env address length successor q._waitInFutex 3 ke w with
        | ScanResult.outOfFuel w1 => ⟨Status.outOfFuel, false, successor, q, w1⟩
        | ScanResult.returned value successor1 wait w1 =>
          ⟨Status.done, value, successor1, { q with _waitInFutex := wait }, w1⟩
        | ScanResult.found ke1 w1 =>
          let offset := ke1 &&& kQueueTail
          let element := add64 (add64 address sizeofQueueStruct) offset
          if env.writeFails w1.effects element offsetofLength then
            ⟨Status.assertFailed, false, successor, q, w1⟩
          else
            let w2 := w1.log (QueueEffect.writeLength element (length % uintLimit))
            if env.writeFails w2.effects element offsetofContext then
              ⟨Status.assertFailed, false, successor, q, w2⟩
            else
              let w3 := w2.log (QueueEffect.writeContext element context)
              let q1 : UserQueue := { q with _nodeQueue := rest }
              let payload := add64 (add64 (add64 address sizeofQueueStruct) offset)
                sizeofElementStruct
              let writes := List.map
                (fun dc => QueueEffect.writeChunk payload dc.1 dc.2.pointer dc.2.size)
                (chunkWrites 0 front._chunk)
              let w4 : QueueWorld := { w3 with effects := w3.effects ++ writes }
              let w5 := w4.log (QueueEffect.complete front)
              match UserQueue.publish address offset length 2 ke1 w5 with
              | (Status.done, w6) => ⟨Status.done, !rest.isEmpty, successor, q1, w6⟩
              | (s, w6) => ⟨s, false, successor, q1, w6⟩

/-- The state of a user queue between calls: whether the kernel is still running, the queue
object and the world. -/
structure QueueMachine where
  status : Status
  queue : UserQueue
  world : QueueWorld

/-- The method `UserQueue::_progress`.  The first argument bounds the number of iterations of
its loop, which user space can keep running for ever by linking queues into a cycle. -/
def UserQueue._progress (env : QueueEnv) : Nat → UserQueue → QueueWorld → QueueMachine
  | 0, q, w => if q._nodeQueue.isEmpty then ⟨Status.done, q, w⟩ else ⟨Status.outOfFuel, q, w⟩
  | fuel + 1, q, w =>
    if q._nodeQueue.isEmpty then ⟨Status.done, q, w⟩
    else
      let r := q._progressFront env 0 w
      match r.status with
      | Status.done =>
        if r.value then
          UserQueue._progress env fuel
            (if r.successor ≠ 0 then { r.queue with _head := r.successor } else r.queue) r.world
        else ⟨Status.done, r.queue, r.world⟩
      | s => ⟨s, r.queue, r.world⟩

/-- The method `UserQueue::submit`; a node is in a list when it is in the list of this queue. -/
def UserQueue.submit (env : QueueEnv) (fuel : Nat) (q : UserQueue) (node : QueueNode)
    (w : QueueWorld) : QueueMachine :=
  if node ∈ q._nodeQueue then ⟨Status.assertFailed, q, w⟩
  else UserQueue._progress env fuel { q with _nodeQueue := q._nodeQueue ++ [node] } w

/-- The method `UserQueue::onWake`. -/
def UserQueue.onWake (env : QueueEnv) (fuel : Nat) (q : UserQueue) (w : QueueWorld) :
    QueueMachine :=
  UserQueue._progress env fuel { q with _waitInFutex := false } w

/-- The calls that the kernel makes on a user queue. -/
inductive QueueCall where
  | submit (node : QueueNode)
  | onWake
  deriving DecidableEq, Repr

/-- One call on a user queue; nothing happens any more once an assertion has failed or a loop
was cut off. -/
def QueueMachine.call (env : QueueEnv) (fuel : Nat) (m : QueueMachine) : QueueCall → QueueMachine
  | QueueCall.submit node =>
    match m.status with
    | Status.done => m.queue.submit env fuel node m.world
    | _ => m
  | QueueCall.onWake =>
    match m.status with
    | Status.done => m.queue.onWake env fuel m.world
    | _ => m

/-- A sequence of calls on a user queue, first to last. -/
def QueueMachine.run (env : QueueEnv) (fuel : Nat) (m : QueueMachine) (calls : List QueueCall) :
    QueueMachine :=
  calls.foldl (QueueMachine.call env fuel) m

/-- The nodes of the `submit` calls of a sequence of calls, in order. -/
def submittedNodes : List QueueCall → List QueueNode
  | [] => []
  | QueueCall.submit node :: rest => node :: submittedNodes rest
  | QueueCall.onWake :: rest => submittedNodes rest

/-- The writes to user memory among the effects. -/
def QueueEffect.isWrite : QueueEffect → Bool
  | .writeLength _ _ => true
  | .writeContext _ _ => true
  | .writeChunk _ _ _ _ => true
  | _ => false

/-- The wake-ups among the effects. -/
def QueueEffect.isWake : QueueEffect → Bool
  | .wake _ => true
  | _ => false

/-- The negation of the condition of the first loop of `_progressFront`: `kQueueWantNext` is
clear in `ke` and `(ke & kQueueTail) + sizeof(ElementStruct) + length`, computed as a `size_t`,
is at most the length of the queue. -/
def fitsQueue (ke length queueLength : Nat) : Prop :=
  ke &&& kQueueWantNext = 0 ∧
  add64 (add64 (ke &&& kQueueTail) sizeofElementStruct) length ≤ queueLength

instance (ke length queueLength : Nat) : Decidable (fitsQueue ke length queueLength) := by
  unfold fitsQueue; infer_instance

/-- The size of a chunk rounded up to a multiple of eight, without regard to the word size. -/
def roundUp8 (chunk : QueueChunk) : Nat :=
  (chunk.size + 7) / 8 * 8

/-- No addition of the loop that sums the padded sizes wraps, from the value of `length` so
far: neither `chunk->size + 7` nor the addition to `length`. -/
def NoWrap : Nat → List QueueChunk → Prop
  | _, [] => True
  | length, chunk :: link =>
    chunk.size + 7 < wordLimit ∧ length + roundUp8 chunk < wordLimit ∧
    NoWrap (length + roundUp8 chunk) link

/-- The world in which the first loop of `_progressFront` ends. -/
def ScanResult.world : ScanResult → QueueWorld
  | .found _ w => w
  | .returned _ _ _ w => w
  | .outOfFuel w => w

/-- The nodes whose completion a list of effects holds, in order. -/
def completedNodes : List QueueEffect → List QueueNode
  | [] => []
  | QueueEffect.complete node :: rest => node :: completedNodes rest
  | _ :: rest => completedNodes rest

/-- The world after the first loop of `_progressFront` has set `kQueueWantNext`. -/
def markedWorld (address ke : Nat) (w : QueueWorld) : QueueWorld :=
  if ke &&& kQueueWaiters ≠ 0 then
    (w.storeKernelState address (ke ||| kQueueWantNext)).log
      (QueueEffect.wake (add64 address offsetofKernelState))
  else w.storeKernelState address (ke ||| kQueueWantNext)

/-- The effects of a call of `_progressFront` that writes an element: the two writes of the
header, the writes of the chunks, the completion of the node and, when the kernel state word had
`kQueueWaiters` set, a wake-up. -/
def elementEffects (address ke : Nat) (front : QueueNode) : List QueueEffect :=
  [QueueEffect.writeLength (add64 (add64 address sizeofQueueStruct) (ke &&& kQueueTail))
      (sumPadded 0 front._chunk % uintLimit),
    QueueEffect.writeContext (add64 (add64 address sizeofQueueStruct) (ke &&& kQueueTail))
      front._context] ++
  List.map (fun dc => QueueEffect.writeChunk
      (add64 (add64 (add64 address sizeofQueueStruct) (ke &&& kQueueTail)) sizeofElementStruct)
      dc.1 dc.2.pointer dc.2.size) (chunkWrites 0 front._chunk) ++
  [QueueEffect.complete front] ++
  if ke &&& kQueueWaiters ≠ 0 then [QueueEffect.wake (add64 address offsetofKernelState)]
  else []

/-! ## Inputs of the examples for user queues -/

/-- An environment in which no write fails and every wait is queued. -/
def calmEnv : QueueEnv where
  checkSubmitWait := fun _ _ condition => condition
  writeFails := fun _ _ _ => false

/-- User memory with a queue of 256 bytes at every address, all words zero. -/
def emptyQueues : QueueWorld :=
  ⟨fun _ => ⟨0, 256, 0, 0, 0⟩, []⟩

/-- A node with two chunks of 5 and 8 bytes. -/
def nodeA : QueueNode := ⟨1, 100, [⟨1000, 5⟩, ⟨2000, 8⟩]⟩

/-- A node with one chunk of 300 bytes, which does not fit into a queue of 256 bytes. -/
def nodeB : QueueNode := ⟨2, 200, [⟨3000, 300⟩]⟩

/-- A node without chunks. -/
def nodeC : QueueNode := ⟨3, 300, []⟩

/-! ## Vocabulary of the statements about the observers of an eviction queue -/

/-- Every `removeObserver` of a sequence of operations is applied to an observer that is in the
list of the queue at that moment. -/
def RemovesAttached : EvictionQueue → List QueueOp → Prop
  | _, [] => True
  | q, QueueOp.removeObserver observer :: ops =>
    observer ∈ q.observers_ ∧ RemovesAttached (q.removeObserver observer) ops
  | q, op :: ops => RemovesAttached (q.step op) ops

/-- Every `addObserver` of a sequence of operations is applied to an observer object, whose
address is a machine word other than null, that is not in the list of the queue at that moment:
the list is intrusive, so it links an observer at most once. -/
def AddsDetached : EvictionQueue → List QueueOp → Prop
  | _, [] => True
  | q, QueueOp.addObserver observer :: ops =>
    (0 < observer ∧ observer < wordLimit ∧ observer ∉ q.observers_) ∧
    AddsDetached (q.addObserver observer) ops
  | q, op :: ops => AddsDetached (q.step op) ops

/-- The invariant of the counter: it is the length of the list as a `size_t`. -/
def EvictionQueue.Counted (q : EvictionQueue) : Prop :=
  q.numObservers_ = q.observers_.length % wordLimit

/-- The list holds different observer objects. -/
def EvictionQueue.Distinct (q : EvictionQueue) : Prop :=
  q.observers_.Nodup ∧ ∀ o ∈ q.observers_, 0 < o ∧ o < wordLimit

/-! ## Fetch nodes and the `fetchRange` sender -/

/-- The structure `FetchNode`; the worklet is given by its address. -/
structure FetchNode where
  _fetched : Nat
  _flags : Nat
  _error : Error
  _range : PhysicalRange
  deriving DecidableEq, Repr

/-- The constant `FetchNode::disallowBacking`. -/
def FetchNode.disallowBacking : Nat := 1

/-- The method `FetchNode::setup(fetched, flags)`. -/
def FetchNode.setup (node : FetchNode) (fetched flags : Nat) : FetchNode :=
  { node with _fetched := fetched, _flags := flags }

/-- The method `FetchNode::flags`. -/
def FetchNode.flags (node : FetchNode) : Nat := node._flags

/-- The method `FetchNode::error`. -/
def FetchNode.error (node : FetchNode) : Error := node._error

/-- The method `FetchNode::range`. -/
def FetchNode.range (node : FetchNode) : PhysicalRange := node._range

/-- The function `MemoryView::completeFetch(node, error)`. -/
def MemoryView.completeFetch (node : FetchNode) (error : Error) : FetchNode :=
  { node with _error := error }

/-- The function `MemoryView::completeFetch(node, error, physical, size, cm)`. -/
def MemoryView.completeFetchRange (node : FetchNode) (error : Error) (physical size : Nat)
    (cm : CachingMode) : FetchNode :=
  { node with _error := error, _range := ⟨physical, size, cm⟩ }

/-- A call of one of the two functions `completeFetch` on a node. -/
inductive FetchCompletion where
  | withError (error : Error)
  | withRange (error : Error) (physical size : Nat) (cm : CachingMode)
  deriving DecidableEq, Repr

/-- Applies a call of `completeFetch` to a node. -/
def FetchCompletion.apply (node : FetchNode) : FetchCompletion → FetchNode
  | .withError error => MemoryView.completeFetch node error
  | .withRange error physical size cm =>
    MemoryView.completeFetchRange node error physical size cm

/-- What a call of the virtual function `MemoryView::fetchRange(offset, node)` does before it
returns: its calls of `completeFetch` on the node, in order, and the value that it returns. -/
structure FetchAnswer where
  completions : List FetchCompletion
  returned : Bool
  deriving DecidableEq, Repr

/-- The virtual function `MemoryView::fetchRange(offset, node)`.  Its implementations are in
translation units that are not among the sources, so it is a parameter: it sees the offset and
the node, and it changes the node, whose members are private, through the protected functions
`completeFetch` only. -/
abbrev FetchRangeVerb := Nat → FetchNode → FetchAnswer

/-- The data members of `FetchRangeOperation`: the offset of the sender `s_`, the node `node_`
and the worklet `worklet_`, given by its address.  The constructor does not initialise the
node. -/
structure FetchRangeOperation where
  offset : Nat
  node_ : FetchNode
  worklet_ : Nat
  deriving DecidableEq, Repr

/-- The node that `start_inline` hands to the view: `node_.setup(&worklet_)`, where the second
argument of `setup` has its default value 0. -/
def FetchRangeOperation.issued (op : FetchRangeOperation) : FetchNode :=
  op.node_.setup op.worklet_ 0

/-- What `start_inline` leaves behind: the value that it returned, the tuple that it passed to
`set_value_inline`, if any, and the operation. -/
structure StartResult where
  returned : Bool
  value : Option FetchResult
  operation : FetchRangeOperation
  deriving DecidableEq, Repr

/-- The method `FetchRangeOperation::start_inline`. -/
def FetchRangeOperation.start_inline (fetchRange : FetchRangeVerb) (op : FetchRangeOperation) :
    StartResult :=
  let node1 := op.issued
  let answer := fetchRange op.offset node1
  let node2 := answer.completions.foldl FetchCompletion.apply node1
  if answer.returned then
    ⟨true, some ⟨node2.error, node2.range, node2.flags⟩, { op with node_ := node2 }⟩
  else ⟨false, none, { op with node_ := node2 }⟩

/-! ## Inputs of the examples for fetch nodes -/

/-- The view of a window of physical memory that starts at `base`: every fetch completes at once
with the rest of the window. -/
def windowFetch (base length : Nat) : FetchRangeVerb :=
  fun offset _ =>
    ⟨[FetchCompletion.withRange Error.success (add64 base offset) (sub64 length offset)
      CachingMode.writeBack], true⟩

/-- A view whose every fetch fails at once. -/
def faultFetch : FetchRangeVerb :=
  fun _ _ => ⟨[FetchCompletion.withError Error.fault], true⟩

/-- An operation whose node holds what was left in its memory. -/
def staleOperation : FetchRangeOperation :=
  ⟨8192, ⟨77, 1, Error.outOfMemory, ⟨5, 6, CachingMode.uncached⟩⟩, 99⟩

/-! ## Lemmas about the copy helpers -/

theorem land_low (x : Nat) : x &&& (kPageSize - 1) = x % kPageSize := by
  have := Nat.and_pow_two_sub_one_eq_mod x 12
  simpa [kPageSize] using this

theorem land_high (x : Nat) (hx : x < wordLimit) :
    x &&& not64 (kPageSize - 1) = x / kPageSize * kPageSize := by
  have hx2 : x < 2 ^ 64 := hx
  have h0 : not64 (kPageSize - 1) = (2 ^ 52 - 1) <<< 12 := by decide
  have h2 : x / kPageSize * kPageSize = (x >>> 12) <<< 12 := by
    rw [Nat.shiftLeft_eq, Nat.shiftRight_eq_div_pow]
    rfl
  rw [h0, h2]
  apply Nat.eq_of_testBit_eq
  intro i
  rw [Nat.testBit_and, Nat.testBit_shiftLeft, Nat.testBit_shiftLeft, Nat.testBit_shiftRight,
    Nat.testBit_two_pow_sub_one]
  by_cases hi : 12 ≤ i
  · have e : 12 + (i - 12) = i := by omega
    simp only [hi, ge_iff_le, decide_True, Bool.true_and, e]
    by_cases h52 : i - 12 < 52
    · simp [h52]
    · simp only [h52, decide_False, Bool.and_false]
      symm
      apply Nat.testBit_lt_two_pow
      calc x < 2 ^ 64 := hx2
        _ ≤ 2 ^ i := Nat.pow_le_pow_right (by norm_num) (by omega)
  · simp [hi]

theorem viewAddr_lt (offset i : Nat) : viewAddr offset i < wordLimit :=
  Nat.mod_lt _ (by decide)

theorem fetchOffset_eq (offset progress : Nat) :
    add64 offset progress &&& not64 (kPageSize - 1) = pageBase (viewAddr offset progress) :=
  land_high _ (viewAddr_lt offset progress)

theorem misalign_eq (offset progress : Nat) :
    add64 offset progress &&& (kPageSize - 1) = viewAddr offset progress % kPageSize :=
  land_low _

theorem chunk_eq (offset size progress : Nat) (hs : size < wordLimit) (hp : progress < size) :
    min (sub64 kPageSize (viewAddr offset progress % kPageSize)) (sub64 size progress)
      = chunkAt offset size progress := by
  unfold chunkAt sub64
  have h1 : viewAddr offset progress % kPageSize < kPageSize := Nat.mod_lt _ (by decide)
  simp only [kPageSize, wordLimit] at *
  omega

theorem chunkAt_pos (offset size progress : Nat) (hp : progress < size) :
    0 < chunkAt offset size progress := by
  unfold chunkAt
  have h1 : viewAddr offset progress % kPageSize < kPageSize := Nat.mod_lt _ (by decide)
  omega

theorem chunkAt_le (offset size progress : Nat) (hp : progress < size) :
    progress + chunkAt offset size progress ≤ size := by
  unfold chunkAt
  omega

theorem chunkAt_page (offset size progress : Nat) :
    viewAddr offset progress % kPageSize + chunkAt offset size progress ≤ kPageSize := by
  unfold chunkAt
  have h1 : viewAddr offset progress % kPageSize < kPageSize := Nat.mod_lt _ (by decide)
  omega

theorem add64_chunk (offset size progress : Nat) (hs : size < wordLimit) (hp : progress < size) :
    add64 progress (chunkAt offset size progress) = progress + chunkAt offset size progress := by
  have := chunkAt_le offset size progress hp
  unfold add64
  exact Nat.mod_eq_of_lt (by omega)

/-- Inside one chunk the view addresses stay on the page of the first byte. -/
theorem viewAddr_chunk (offset size progress k : Nat) (h1 : progress ≤ k)
    (h2 : k < progress + chunkAt offset size progress) :
    pageBase (viewAddr offset k) = pageBase (viewAddr offset progress) ∧
    viewAddr offset k % kPageSize = viewAddr offset progress % kPageSize + (k - progress) := by
  have hc := chunkAt_page offset size progress
  unfold pageBase viewAddr at *
  simp only [kPageSize, wordLimit] at *
  omega

/-- One iteration of the loop of `copyToView` whose fetch passes the assertions. -/
theorem copyToViewLoop_step (view : MemoryViewVerbs) (offset : Nat) (pointer : Nat → UInt8)
    (size fuel progress : Nat) (w : World) (hs : size < wordLimit) (hp : progress < size)
    (hv : (view.fetchRange w.trace (pageBase (viewAddr offset progress))).valid) :
    copyToViewLoop view offset pointer size (fuel + 1) progress w =
      copyToViewLoop view offset pointer size fuel (progress + chunkAt offset size progress)
        { memory := memcpyToPage w.memory
            (view.fetchRange w.trace (pageBase (viewAddr offset progress))).range.physical
            (viewAddr offset progress % kPageSize) pointer progress
            (chunkAt offset size progress)
          trace := w.trace ++
            [Event.fetchRange (pageBase (viewAddr offset progress))
              (view.fetchRange w.trace (pageBase (viewAddr offset progress))),
             Event.memcpy
              (view.fetchRange w.trace (pageBase (viewAddr offset progress))).range.physical
              (viewAddr offset progress % kPageSize) progress (chunkAt offset size progress)] } := by
  obtain ⟨h1, h2, h3⟩ := hv
  rw [copyToViewLoop]
  simp only [fetchOffset_eq, misalign_eq, chunk_eq offset size progress hs hp,
    add64_chunk offset size progress hs hp, World.record, if_pos hp, h1, ne_eq,
    not_true_eq_false, if_false, Nat.not_lt.mpr h2, h3, List.append_assoc, List.singleton_append]

/-- One iteration of the loop of `copyToView` whose fetch fails an assertion. -/
theorem copyToViewLoop_fail (view : MemoryViewVerbs) (offset : Nat) (pointer : Nat → UInt8)
    (size fuel progress : Nat) (w : World) (hp : progress < size)
    (hv : ¬ (view.fetchRange w.trace (pageBase (viewAddr offset progress))).valid) :
    copyToViewLoop view offset pointer size (fuel + 1) progress w =
      ⟨Status.assertFailed, progress, pointer,
        w.record (Event.fetchRange (pageBase (viewAddr offset progress))
          (view.fetchRange w.trace (pageBase (viewAddr offset progress))))⟩ := by
  rw [copyToViewLoop]
  simp only [fetchOffset_eq, if_pos hp]
  unfold FetchResult.valid at hv
  by_cases h1 : (view.fetchRange w.trace (pageBase (viewAddr offset progress))).error
      = Error.success
  · by_cases h2 : kPageSize ≤ (view.fetchRange w.trace (pageBase (viewAddr offset progress))).range.size
    · have h3 : (view.fetchRange w.trace (pageBase (viewAddr offset progress))).range.physical
          = physicalNone := by
        by_contra h3
        exact hv ⟨h1, h2, h3⟩
      simp [h1, h2, h3]
    · simp [h1, h2]
  · simp [h1]

theorem copyToViewLoop_exit (view : MemoryViewVerbs) (offset : Nat) (pointer : Nat → UInt8)
    (size fuel progress : Nat) (w : World) (hp : ¬ progress < size) :
    copyToViewLoop view offset pointer size fuel progress w = ⟨Status.done, progress, pointer, w⟩ := by
  cases fuel <;> simp [copyToViewLoop, hp]

/-- Proof rule for the loop of `copyToView`: a property of runs holds for every run with enough
fuel when it holds at the exit, at a failing assertion, and is carried backwards over a
successful iteration. -/
theorem copyToViewLoop_rule (view : MemoryViewVerbs) (offset : Nat) (pointer : Nat → UInt8)
    (size : Nat) (hs : size < wordLimit) (Q : Nat → World → LoopResult → Prop)
    (hexit : ∀ p w, ¬ p < size → Q p w ⟨Status.done, p, pointer, w⟩)
    (hfail : ∀ p w, p < size → ¬ (fetchAt view offset w.trace p).valid →
      Q p w ⟨Status.assertFailed, p, pointer,
        w.record (Event.fetchRange (pageBase (viewAddr offset p)) (fetchAt view offset w.trace p))⟩)
    (hstep : ∀ p w r, p < size → (fetchAt view offset w.trace p).valid →
      Q (p + chunkAt offset size p) (toStepWorld view offset pointer size p w) r → Q p w r) :
    ∀ fuel p w, size - p ≤ fuel → Q p w (copyToViewLoop view offset pointer size fuel p w) := by
  intro fuel
  induction fuel with
  | zero =>
    intro p w hf
    have hp : ¬ p < size := by omega
    rw [copyToViewLoop_exit _ _ _ _ _ _ _ hp]
    exact hexit p w hp
  | succ fuel ih =>
    intro p w hf
    by_cases hp : p < size
    · by_cases hv : (fetchAt view offset w.trace p).valid
      · rw [copyToViewLoop_step view offset pointer size fuel p w hs hp hv]
        apply hstep p w _ hp hv
        apply ih
        have := chunkAt_pos offset size p hp
        omega
      · rw [copyToViewLoop_fail view offset pointer size fuel p w hp hv]
        exact hfail p w hp hv
    · rw [copyToViewLoop_exit _ _ _ _ _ _ _ hp]
      exact hexit p w hp

theorem pageBase_dvd (a : Nat) : kPageSize ∣ pageBase a :=
  Dvd.intro_left _ rfl

theorem pageBase_lt (offset i : Nat) : pageBase (viewAddr offset i) < wordLimit := by
  have := viewAddr_lt offset i
  unfold pageBase
  simp only [kPageSize, wordLimit] at *
  omega

theorem copyToViewLoop_events (view : MemoryViewVerbs) (offset : Nat) (pointer : Nat → UInt8)
    (size : Nat) (hs : size < wordLimit) (fuel p : Nat) (w : World) (hf : size - p ≤ fuel) :
    (copyToViewLoop view offset pointer size fuel p w).buffer = pointer ∧
    (copyToViewLoop view offset pointer size fuel p w).status ≠ Status.outOfFuel ∧
    (p ≤ size → (copyToViewLoop view offset pointer size fuel p w).status = Status.done →
      (copyToViewLoop view offset pointer size fuel p w).progress = size) ∧
    ∃ evs, (copyToViewLoop view offset pointer size fuel p w).world.trace = w.trace ++ evs ∧
      ∀ e ∈ evs, CopyEvent view offset size e := by
  refine copyToViewLoop_rule view offset pointer size hs
    (fun p w r => r.buffer = pointer ∧ r.status ≠ Status.outOfFuel ∧
      (p ≤ size → r.status = Status.done → r.progress = size) ∧
      ∃ evs, r.world.trace = w.trace ++ evs ∧ ∀ e ∈ evs, CopyEvent view offset size e)
    ?_ ?_ ?_ fuel p w hf
  · intro p w hp
    refine ⟨rfl, by simp, fun h _ => by simp only; omega, [], by simp, by simp⟩
  · intro p w hp _
    refine ⟨rfl, by simp, fun _ h => by simp at h, [_], rfl, ?_⟩
    intro e he
    rw [List.mem_singleton] at he
    subst he
    exact ⟨w.trace, p, hp, rfl, rfl⟩
  · intro p w r hp _ ⟨h1, h2, h3, evs, h4, h5⟩
    have hc := chunkAt_le offset size p hp
    have hm := chunkAt_page offset size p
    refine ⟨h1, h2, fun _ hd => h3 hc hd, stepEvents view offset size w.trace p ++ evs, ?_, ?_⟩
    · rw [h4]; simp [toStepWorld]
    · intro e he
      rw [List.mem_append, stepEvents, List.mem_cons, List.mem_singleton] at he
      rcases he with (he | he) | he
      · subst he
        exact ⟨w.trace, p, hp, rfl, rfl⟩
      · subst he
        exact ⟨hm, hc⟩
      · exact h5 e he

theorem copyToViewLoop_done (view : MemoryViewVerbs) (offset : Nat) (pointer : Nat → UInt8)
    (size : Nat) (hs : size < wordLimit) (hv : FetchesValid view)
    (fuel p : Nat) (w : World) (hf : size - p ≤ fuel) :
    (copyToViewLoop view offset pointer size fuel p w).status = Status.done := by
  refine copyToViewLoop_rule view offset pointer size hs (fun _ _ r => r.status = Status.done)
    ?_ ?_ ?_ fuel p w hf
  · intro p w _
    rfl
  · intro p w _ h
    exact absurd (hv _ _ (pageBase_dvd _) (pageBase_lt _ _)) h
  · intro p w r _ _ h
    exact h

/-- Two bytes of one transfer that share the page and the index in the page are the same. -/
theorem viewAddr_inj (offset i j : Nat) (hi : i < wordLimit) (hj : j < wordLimit)
    (h1 : pageBase (viewAddr offset i) = pageBase (viewAddr offset j))
    (h2 : viewAddr offset i % kPageSize = viewAddr offset j % kPageSize) : i = j := by
  unfold pageBase viewAddr at *
  simp only [kPageSize, wordLimit] at *
  omega

theorem copyToViewLoop_memory (view : MemoryViewVerbs) (offset : Nat) (pointer : Nat → UInt8)
    (size : Nat) (hs : size < wordLimit) (hd : DistinctPages view)
    (fuel p : Nat) (w : World) (hf : size - p ≤ fuel)
    (hdone : (copyToViewLoop view offset pointer size fuel p w).status = Status.done) :
    ∃ evs, (copyToViewLoop view offset pointer size fuel p w).world.trace = w.trace ++ evs ∧
      (∀ i, p ≤ i → i < size → ∃ h,
        Event.fetchRange (pageBase (viewAddr offset i)) (fetchAt view offset h i) ∈ evs ∧
        (copyToViewLoop view offset pointer size fuel p w).world.memory
          (fetchAt view offset h i).range.physical (viewAddr offset i % kPageSize) = pointer i) ∧
      (∀ page index, (∀ i h, p ≤ i → i < size →
          Event.fetchRange (pageBase (viewAddr offset i)) (fetchAt view offset h i) ∈ evs →
          ¬ (page = (fetchAt view offset h i).range.physical ∧
            index = viewAddr offset i % kPageSize)) →
        (copyToViewLoop view offset pointer size fuel p w).world.memory page index
          = w.memory page index) := by
  revert hdone
  refine copyToViewLoop_rule view offset pointer size hs
    (fun p w r => r.status = Status.done →
      ∃ evs, r.world.trace = w.trace ++ evs ∧
      (∀ i, p ≤ i → i < size → ∃ h,
        Event.fetchRange (pageBase (viewAddr offset i)) (fetchAt view offset h i) ∈ evs ∧
        r.world.memory (fetchAt view offset h i).range.physical (viewAddr offset i % kPageSize)
          = pointer i) ∧
      (∀ page index, (∀ i h, p ≤ i → i < size →
          Event.fetchRange (pageBase (viewAddr offset i)) (fetchAt view offset h i) ∈ evs →
          ¬ (page = (fetchAt view offset h i).range.physical ∧
            index = viewAddr offset i % kPageSize)) →
        r.world.memory page index = w.memory page index))
    ?_ ?_ ?_ fuel p w hf
  · intro p w hp _
    exact ⟨[], by simp, fun i h1 h2 => absurd h2 (by omega), fun _ _ _ => rfl⟩
  · intro p w _ _ h
    simp at h
  · intro p w r hp _ ih hdone
    obtain ⟨evs, h1, h2, h3⟩ := ih hdone
    have hc := chunkAt_le offset size p hp
    have hfetch : Event.fetchRange (pageBase (viewAddr offset p)) (fetchAt view offset w.trace p)
        ∈ stepEvents view offset size w.trace p ++ evs := by
      simp [stepEvents]
    refine ⟨stepEvents view offset size w.trace p ++ evs, ?_, ?_, ?_⟩
    · rw [h1]; simp [toStepWorld]
    · intro i hi1 hi2
      by_cases hi : p + chunkAt offset size p ≤ i
      · obtain ⟨h, h4, h5⟩ := h2 i hi hi2
        exact ⟨h, List.mem_append_right _ h4, h5⟩
      · have hin := viewAddr_chunk offset size p i hi1 (by omega)
        refine ⟨w.trace, ?_, ?_⟩
        · unfold fetchAt
          rw [hin.1]
          exact hfetch
        · have hphys : (fetchAt view offset w.trace i).range.physical
              = (fetchAt view offset w.trace p).range.physical := by
            unfold fetchAt; rw [hin.1]
          rw [h3]
          · simp only [toStepWorld, memcpyToPage, hphys]
            rw [if_pos ⟨trivial, by omega, by omega⟩]
            congr 1
            omega
          · intro k h hk1 hk2 _ ⟨e1, e2⟩
            have e3 : pageBase (viewAddr offset p) = pageBase (viewAddr offset k) := by
              apply hd w.trace h _ _ (pageBase_dvd _) (pageBase_lt _ _) (pageBase_dvd _) (pageBase_lt _ _)
              exact hphys.symm.trans e1
            have := viewAddr_inj offset i k (by omega) (by omega) (hin.1.trans e3) e2
            omega
    · intro page index hout
      rw [h3]
      · simp only [toStepWorld, memcpyToPage]
        rw [if_neg]
        rintro ⟨e1, e2, e3⟩
        have hin := viewAddr_chunk offset size p
          (p + (index - viewAddr offset p % kPageSize)) (by omega) (by omega)
        apply hout (p + (index - viewAddr offset p % kPageSize)) w.trace (by omega) (by omega)
        · unfold fetchAt
          rw [hin.1]
          exact hfetch
        · unfold fetchAt
          rw [hin.1, hin.2]
          exact ⟨e1, by omega⟩
      · intro k h hk1 hk2 hk3
        exact hout k h (by omega) hk2 (List.mem_append_right _ hk3)

theorem copyFromViewLoop_step (view : MemoryViewVerbs) (offset size fuel progress : Nat)
    (pointer : Nat → UInt8) (w : World) (hs : size < wordLimit) (hp : progress < size)
    (hv : (fetchAt view offset w.trace progress).valid) :
    copyFromViewLoop view offset size (fuel + 1) progress pointer w =
      copyFromViewLoop view offset size fuel (progress + chunkAt offset size progress)
        (fromStepBuffer view offset size progress pointer w)
        (fromStepWorld view offset size progress w) := by
  obtain ⟨h1, h2, h3⟩ := hv
  unfold fetchAt at h1 h2 h3
  rw [copyFromViewLoop]
  simp only [fetchOffset_eq, misalign_eq, chunk_eq offset size progress hs hp,
    add64_chunk offset size progress hs hp, World.record, if_pos hp, h1, ne_eq,
    not_true_eq_false, if_false, Nat.not_lt.mpr h2, h3, List.append_assoc, List.singleton_append,
    fromStepBuffer, fromStepWorld, stepEvents, fetchAt]

theorem copyFromViewLoop_fail (view : MemoryViewVerbs) (offset size fuel progress : Nat)
    (pointer : Nat → UInt8) (w : World) (hp : progress < size)
    (hv : ¬ (fetchAt view offset w.trace progress).valid) :
    copyFromViewLoop view offset size (fuel + 1) progress pointer w =
      ⟨Status.assertFailed, progress, pointer,
        w.record (Event.fetchRange (pageBase (viewAddr offset progress))
          (fetchAt view offset w.trace progress))⟩ := by
  rw [copyFromViewLoop]
  simp only [fetchOffset_eq, if_pos hp]
  unfold FetchResult.valid fetchAt at hv
  unfold fetchAt
  by_cases h1 : (view.fetchRange w.trace (pageBase (viewAddr offset progress))).error
      = Error.success
  · by_cases h2 : kPageSize ≤ (view.fetchRange w.trace (pageBase (viewAddr offset progress))).range.size
    · have h3 : (view.fetchRange w.trace (pageBase (viewAddr offset progress))).range.physical
          = physicalNone := by
        by_contra h3
        exact hv ⟨h1, h2, h3⟩
      simp [h1, h2, h3]
    · simp [h1, h2]
  · simp [h1]

theorem copyFromViewLoop_exit (view : MemoryViewVerbs) (offset size fuel progress : Nat)
    (pointer : Nat → UInt8) (w : World) (hp : ¬ progress < size) :
    copyFromViewLoop view offset size fuel progress pointer w
      = ⟨Status.done, progress, pointer, w⟩ := by
  cases fuel <;> simp [copyFromViewLoop, hp]

/-- Proof rule for the loop of `copyFromView`, of the same shape as `copyToViewLoop_rule`. -/
theorem copyFromViewLoop_rule (view : MemoryViewVerbs) (offset size : Nat)
    (hs : size < wordLimit) (Q : Nat → (Nat → UInt8) → World → LoopResult → Prop)
    (hexit : ∀ p b w, ¬ p < size → Q p b w ⟨Status.done, p, b, w⟩)
    (hfail : ∀ p b w, p < size → ¬ (fetchAt view offset w.trace p).valid →
      Q p b w ⟨Status.assertFailed, p, b,
        w.record (Event.fetchRange (pageBase (viewAddr offset p)) (fetchAt view offset w.trace p))⟩)
    (hstep : ∀ p b w r, p < size → (fetchAt view offset w.trace p).valid →
      Q (p + chunkAt offset size p) (fromStepBuffer view offset size p b w)
        (fromStepWorld view offset size p w) r → Q p b w r) :
    ∀ fuel p b w, size - p ≤ fuel → Q p b w (copyFromViewLoop view offset size fuel p b w) := by
  intro fuel
  induction fuel with
  | zero =>
    intro p b w hf
    have hp : ¬ p < size := by omega
    rw [copyFromViewLoop_exit _ _ _ _ _ _ _ hp]
    exact hexit p b w hp
  | succ fuel ih =>
    intro p b w hf
    by_cases hp : p < size
    · by_cases hv : (fetchAt view offset w.trace p).valid
      · rw [copyFromViewLoop_step view offset size fuel p b w hs hp hv]
        apply hstep p b w _ hp hv
        apply ih
        have := chunkAt_pos offset size p hp
        omega
      · rw [copyFromViewLoop_fail view offset size fuel p b w hp hv]
        exact hfail p b w hp hv
    · rw [copyFromViewLoop_exit _ _ _ _ _ _ _ hp]
      exact hexit p b w hp

theorem copyFromViewLoop_events (view : MemoryViewVerbs) (offset size : Nat)
    (hs : size < wordLimit) (fuel p : Nat) (b : Nat → UInt8) (w : World) (hf : size - p ≤ fuel) :
    (copyFromViewLoop view offset size fuel p b w).world.memory = w.memory ∧
    (copyFromViewLoop view offset size fuel p b w).status ≠ Status.outOfFuel ∧
    (p ≤ size → (copyFromViewLoop view offset size fuel p b w).status = Status.done →
      (copyFromViewLoop view offset size fuel p b w).progress = size) ∧
    ∃ evs, (copyFromViewLoop view offset size fuel p b w).world.trace = w.trace ++ evs ∧
      ∀ e ∈ evs, CopyEvent view offset size e := by
  refine copyFromViewLoop_rule view offset size hs
    (fun p _ w r => r.world.memory = w.memory ∧ r.status ≠ Status.outOfFuel ∧
      (p ≤ size → r.status = Status.done → r.progress = size) ∧
      ∃ evs, r.world.trace = w.trace ++ evs ∧ ∀ e ∈ evs, CopyEvent view offset size e)
    ?_ ?_ ?_ fuel p b w hf
  · intro p _ w hp
    refine ⟨rfl, by simp, fun h _ => by simp only; omega, [], by simp, by simp⟩
  · intro p _ w hp _
    refine ⟨rfl, by simp, fun _ h => by simp at h, [_], rfl, ?_⟩
    intro e he
    rw [List.mem_singleton] at he
    subst he
    exact ⟨w.trace, p, hp, rfl, rfl⟩
  · intro p _ w r hp _ ⟨h1, h2, h3, evs, h4, h5⟩
    have hc := chunkAt_le offset size p hp
    have hm := chunkAt_page offset size p
    refine ⟨h1, h2, fun _ hd => h3 hc hd, stepEvents view offset size w.trace p ++ evs, ?_, ?_⟩
    · rw [h4]; simp [fromStepWorld]
    · intro e he
      rw [List.mem_append, stepEvents, List.mem_cons, List.mem_singleton] at he
      rcases he with (he | he) | he
      · subst he
        exact ⟨w.trace, p, hp, rfl, rfl⟩
      · subst he
        exact ⟨hm, hc⟩
      · exact h5 e he

theorem copyFromViewLoop_done (view : MemoryViewVerbs) (offset size : Nat)
    (hs : size < wordLimit) (hv : FetchesValid view)
    (fuel p : Nat) (b : Nat → UInt8) (w : World) (hf : size - p ≤ fuel) :
    (copyFromViewLoop view offset size fuel p b w).status = Status.done := by
  refine copyFromViewLoop_rule view offset size hs (fun _ _ _ r => r.status = Status.done)
    ?_ ?_ ?_ fuel p b w hf
  · intro p _ w _
    rfl
  · intro p _ w _ h
    exact absurd (hv _ _ (pageBase_dvd _) (pageBase_lt _ _)) h
  · intro p _ w r _ _ h
    exact h

theorem copyFromViewLoop_buffer (view : MemoryViewVerbs) (offset size : Nat)
    (hs : size < wordLimit) (fuel p : Nat) (b : Nat → UInt8) (w : World) (hf : size - p ≤ fuel)
    (hdone : (copyFromViewLoop view offset size fuel p b w).status = Status.done) :
    ∃ evs, (copyFromViewLoop view offset size fuel p b w).world.trace = w.trace ++ evs ∧
      (∀ i, p ≤ i → i < size → ∃ h,
        Event.fetchRange (pageBase (viewAddr offset i)) (fetchAt view offset h i) ∈ evs ∧
        (copyFromViewLoop view offset size fuel p b w).buffer i =
          w.memory (fetchAt view offset h i).range.physical (viewAddr offset i % kPageSize)) ∧
      (∀ i, i < p ∨ size ≤ i → (copyFromViewLoop view offset size fuel p b w).buffer i = b i) := by
  revert hdone
  refine copyFromViewLoop_rule view offset size hs
    (fun p b w r => r.status = Status.done →
      ∃ evs, r.world.trace = w.trace ++ evs ∧
      (∀ i, p ≤ i → i < size → ∃ h,
        Event.fetchRange (pageBase (viewAddr offset i)) (fetchAt view offset h i) ∈ evs ∧
        r.buffer i =
          w.memory (fetchAt view offset h i).range.physical (viewAddr offset i % kPageSize)) ∧
      (∀ i, i < p ∨ size ≤ i → r.buffer i = b i))
    ?_ ?_ ?_ fuel p b w hf
  · intro p b w hp _
    exact ⟨[], by simp, fun i h1 h2 => absurd h2 (by omega), fun _ _ => rfl⟩
  · intro p b w _ _ h
    simp at h
  · intro p b w r hp _ ih hdone
    obtain ⟨evs, h1, h2, h3⟩ := ih hdone
    have hc := chunkAt_le offset size p hp
    have hpos := chunkAt_pos offset size p hp
    refine ⟨stepEvents view offset size w.trace p ++ evs, ?_, ?_, ?_⟩
    · rw [h1]; simp [fromStepWorld]
    · intro i hi1 hi2
      by_cases hi : p + chunkAt offset size p ≤ i
      · obtain ⟨h, h4, h5⟩ := h2 i hi hi2
        exact ⟨h, List.mem_append_right _ h4, h5⟩
      · have hin := viewAddr_chunk offset size p i hi1 (by omega)
        refine ⟨w.trace, ?_, ?_⟩
        · unfold fetchAt
          rw [hin.1]
          simp [stepEvents, fetchAt]
        · rw [h3 i (Or.inl (by omega))]
          simp only [fromStepBuffer, memcpyFromPage]
          rw [if_pos ⟨hi1, by omega⟩]
          unfold fetchAt
          rw [hin.1, hin.2]
    · intro i hi
      rw [h3 i (by omega)]
      simp only [fromStepBuffer, memcpyFromPage]
      rw [if_neg (by omega)]

/-- Every `memcpy` of the loop of `copyToView` works on a page that a fetch of the loop returned
and that passed the assertions. -/
theorem copyToViewLoop_memcpy (view : MemoryViewVerbs) (offset : Nat) (pointer : Nat → UInt8)
    (size : Nat) (hs : size < wordLimit) (fuel p : Nat) (w : World) (hf : size - p ≤ fuel) :
    ∃ evs, (copyToViewLoop view offset pointer size fuel p w).world.trace = w.trace ++ evs ∧
      ∀ physical misalign progress chunk,
        Event.memcpy physical misalign progress chunk ∈ evs →
        ∃ o res, Event.fetchRange o res ∈ evs ∧ res.valid ∧ res.range.physical = physical := by
  refine copyToViewLoop_rule view offset pointer size hs
    (fun _ w r => ∃ evs, r.world.trace = w.trace ++ evs ∧
      ∀ physical misalign progress chunk,
        Event.memcpy physical misalign progress chunk ∈ evs →
        ∃ o res, Event.fetchRange o res ∈ evs ∧ res.valid ∧ res.range.physical = physical)
    ?_ ?_ ?_ fuel p w hf
  · intro p w _
    exact ⟨[], by simp, by simp⟩
  · intro p w _ _
    exact ⟨[_], rfl, by simp⟩
  · intro p w r _ hv ⟨evs, h1, h2⟩
    refine ⟨stepEvents view offset size w.trace p ++ evs, ?_, ?_⟩
    · rw [h1]; simp [toStepWorld]
    · intro physical misalign progress chunk hm
      rw [List.mem_append] at hm
      rcases hm with hm | hm
      · refine ⟨pageBase (viewAddr offset p), fetchAt view offset w.trace p, ?_, hv, ?_⟩
        · simp [stepEvents]
        · simp only [stepEvents, List.mem_cons, List.mem_singleton, Event.memcpy.injEq,
            List.not_mem_nil, or_false] at hm
          rcases hm with hm | hm
          · exact absurd hm (by simp)
          · exact hm.1.symm
      · obtain ⟨o, res, h3, h4, h5⟩ := h2 physical misalign progress chunk hm
        exact ⟨o, res, List.mem_append_right _ h3, h4, h5⟩

/-- Every `memcpy` of the loop of `copyFromView` works on a page that a fetch of the loop
returned and that passed the assertions. -/
theorem copyFromViewLoop_memcpy (view : MemoryViewVerbs) (offset size : Nat)
    (hs : size < wordLimit) (fuel p : Nat) (b : Nat → UInt8) (w : World) (hf : size - p ≤ fuel) :
    ∃ evs, (copyFromViewLoop view offset size fuel p b w).world.trace = w.trace ++ evs ∧
      ∀ physical misalign progress chunk,
        Event.memcpy physical misalign progress chunk ∈ evs →
        ∃ o res, Event.fetchRange o res ∈ evs ∧ res.valid ∧ res.range.physical = physical := by
  refine copyFromViewLoop_rule view offset size hs
    (fun _ _ w r => ∃ evs, r.world.trace = w.trace ++ evs ∧
      ∀ physical misalign progress chunk,
        Event.memcpy physical misalign progress chunk ∈ evs →
        ∃ o res, Event.fetchRange o res ∈ evs ∧ res.valid ∧ res.range.physical = physical)
    ?_ ?_ ?_ fuel p b w hf
  · intro p _ w _
    exact ⟨[], by simp, by simp⟩
  · intro p _ w _ _
    exact ⟨[_], rfl, by simp⟩
  · intro p _ w r _ hv ⟨evs, h1, h2⟩
    refine ⟨stepEvents view offset size w.trace p ++ evs, ?_, ?_⟩
    · rw [h1]; simp [fromStepWorld]
    · intro physical misalign progress chunk hm
      rw [List.mem_append] at hm
      rcases hm with hm | hm
      · refine ⟨pageBase (viewAddr offset p), fetchAt view offset w.trace p, ?_, hv, ?_⟩
        · simp [stepEvents]
        · simp only [stepEvents, List.mem_cons, List.mem_singleton, Event.memcpy.injEq,
            List.not_mem_nil, or_false] at hm
          rcases hm with hm | hm
          · exact absurd hm (by simp)
          · exact hm.1.symm
      · obtain ⟨o, res, h3, h4, h5⟩ := h2 physical misalign progress chunk hm
        exact ⟨o, res, List.mem_append_right _ h3, h4, h5⟩

theorem CopyEvent.isCopyStep {view : MemoryViewVerbs} {offset size : Nat} {e : Event}
    (h : CopyEvent view offset size e) : e.isCopyStep = true := by
  cases e <;> first | rfl | exact absurd h id

theorem copyToView_lock_failed (view : MemoryViewVerbs) (offset : Nat) (pointer : Nat → UInt8)
    (size : Nat) (w : World) (h : view.asyncLockRange w.trace offset size ≠ Error.success) :
    copyToView view offset pointer size w
      = ⟨Status.assertFailed, 0, pointer, w.record (lockEvent view offset size w)⟩ := by
  simp [copyToView, h, lockEvent]

theorem copyToView_locked (view : MemoryViewVerbs) (offset : Nat) (pointer : Nat → UInt8)
    (size : Nat) (w : World) (h : view.asyncLockRange w.trace offset size = Error.success) :
    ((copyToViewLoop view offset pointer size size 0
        (w.record (lockEvent view offset size w))).status = Status.done ∧
      copyToView view offset pointer size w =
        { copyToViewLoop view offset pointer size size 0
            (w.record (lockEvent view offset size w)) with
          world :=
            { memory := (copyToViewLoop view offset pointer size size 0
                (w.record (lockEvent view offset size w))).world.memory
              trace := (copyToViewLoop view offset pointer size size 0
                (w.record (lockEvent view offset size w))).world.trace ++
                [Event.markDirty (markDirtyOffset offset) (markDirtySize offset size),
                 Event.unlockRange offset size] } }) ∨
    ((copyToViewLoop view offset pointer size size 0
        (w.record (lockEvent view offset size w))).status ≠ Status.done ∧
      copyToView view offset pointer size w =
        copyToViewLoop view offset pointer size size 0
          (w.record (lockEvent view offset size w))) := by
  unfold copyToView
  simp only [h, ne_eq, not_true_eq_false, if_false, lockEvent]
  cases hst : (copyToViewLoop view offset pointer size size 0
      (w.record (Event.asyncLockRange offset size Error.success))).status
  · left
    simp [World.record]
  · right
    simp
  · right
    simp

theorem copyFromView_lock_failed (view : MemoryViewVerbs) (offset : Nat) (pointer : Nat → UInt8)
    (size : Nat) (w : World) (h : view.asyncLockRange w.trace offset size ≠ Error.success) :
    copyFromView view offset pointer size w
      = ⟨Status.assertFailed, 0, pointer, w.record (lockEvent view offset size w)⟩ := by
  simp [copyFromView, h, lockEvent]

theorem copyFromView_locked (view : MemoryViewVerbs) (offset : Nat) (pointer : Nat → UInt8)
    (size : Nat) (w : World) (h : view.asyncLockRange w.trace offset size = Error.success) :
    ((copyFromViewLoop view offset size size 0 pointer
        (w.record (lockEvent view offset size w))).status = Status.done ∧
      copyFromView view offset pointer size w =
        { copyFromViewLoop view offset size size 0 pointer
            (w.record (lockEvent view offset size w)) with
          world :=
            { memory := (copyFromViewLoop view offset size size 0 pointer
                (w.record (lockEvent view offset size w))).world.memory
              trace := (copyFromViewLoop view offset size size 0 pointer
                (w.record (lockEvent view offset size w))).world.trace ++
                [Event.unlockRange offset size] } }) ∨
    ((copyFromViewLoop view offset size size 0 pointer
        (w.record (lockEvent view offset size w))).status ≠ Status.done ∧
      copyFromView view offset pointer size w =
        copyFromViewLoop view offset size size 0 pointer
          (w.record (lockEvent view offset size w))) := by
  unfold copyFromView
  simp only [h, ne_eq, not_true_eq_false, if_false, lockEvent]
  cases hst : (copyFromViewLoop view offset size size 0 pointer
      (w.record (Event.asyncLockRange offset size Error.success))).status
  · left
    simp [World.record]
  · right
    simp
  · right
    simp

theorem copyToView_trace (view : MemoryViewVerbs) (offset : Nat) (pointer : Nat → UInt8)
    (size : Nat) (w : World) (hs : size < wordLimit) :
    (copyToView view offset pointer size w).status ≠ Status.outOfFuel ∧
    (copyToView view offset pointer size w).buffer = pointer ∧
    ((copyToView view offset pointer size w).status = Status.done →
      view.asyncLockRange w.trace offset size = Error.success ∧
      (copyToView view offset pointer size w).progress = size) ∧
    ∃ body, (∀ e ∈ body, CopyEvent view offset size e) ∧
      (copyToView view offset pointer size w).world.trace =
        w.trace ++ lockEvent view offset size w :: (body ++
          if (copyToView view offset pointer size w).status = Status.done
          then toViewTail offset size else []) ∧
      ∀ physical misalign progress chunk,
        Event.memcpy physical misalign progress chunk ∈ body →
        ∃ o res, Event.fetchRange o res ∈ body ∧ res.valid ∧ res.range.physical = physical := by
  by_cases hl : view.asyncLockRange w.trace offset size = Error.success
  · obtain ⟨h1, h2, h3, body, h4, h5⟩ := copyToViewLoop_events view offset pointer size hs size 0
      (w.record (lockEvent view offset size w)) (by omega)
    obtain ⟨body', h6, h7⟩ := copyToViewLoop_memcpy view offset pointer size hs size 0
      (w.record (lockEvent view offset size w)) (by omega)
    obtain rfl : body = body' := List.append_cancel_left (h4.symm.trans h6)
    rcases copyToView_locked view offset pointer size w hl with ⟨hd, he⟩ | ⟨hd, he⟩
    · rw [he]
      refine ⟨by simp [hd], h1, fun _ => ⟨hl, h3 (by omega) hd⟩, body, h5, ?_, h7⟩
      simp only [hd, h4, if_true]
      simp [World.record, toViewTail]
    · rw [he]
      refine ⟨h2, h1, fun h => absurd h hd, body, h5, ?_, h7⟩
      simp only [hd, h4, if_false]
      simp [World.record]
  · rw [copyToView_lock_failed view offset pointer size w hl]
    exact ⟨by simp, rfl, fun h => by simp at h, [], by simp, by simp [World.record], by simp⟩

theorem copyToView_done (view : MemoryViewVerbs) (offset : Nat) (pointer : Nat → UInt8)
    (size : Nat) (w : World) (hs : size < wordLimit)
    (hl : view.asyncLockRange w.trace offset size = Error.success) (hv : FetchesValid view) :
    (copyToView view offset pointer size w).status = Status.done := by
  have hd := copyToViewLoop_done view offset pointer size hs hv size 0
    (w.record (lockEvent view offset size w)) (by omega)
  rcases copyToView_locked view offset pointer size w hl with ⟨_, he⟩ | ⟨hn, _⟩
  · rw [he]; exact hd
  · exact absurd hd hn

theorem copyToView_memory (view : MemoryViewVerbs) (offset : Nat) (pointer : Nat → UInt8)
    (size : Nat) (w : World) (hs : size < wordLimit) (hd : DistinctPages view)
    (hdone : (copyToView view offset pointer size w).status = Status.done) :
    ∃ body, (copyToView view offset pointer size w).world.trace =
        w.trace ++ lockEvent view offset size w :: (body ++ toViewTail offset size) ∧
      (∀ i, i < size → ∃ h,
        Event.fetchRange (pageBase (viewAddr offset i)) (fetchAt view offset h i) ∈ body ∧
        (copyToView view offset pointer size w).world.memory
          (fetchAt view offset h i).range.physical (viewAddr offset i % kPageSize) = pointer i) ∧
      (∀ page index, (∀ i h, i < size →
          Event.fetchRange (pageBase (viewAddr offset i)) (fetchAt view offset h i) ∈ body →
          ¬ (page = (fetchAt view offset h i).range.physical ∧
            index = viewAddr offset i % kPageSize)) →
        (copyToView view offset pointer size w).world.memory page index
          = w.memory page index) := by
  have hl := ((copyToView_trace view offset pointer size w hs).2.2.1 hdone).1
  rcases copyToView_locked view offset pointer size w hl with ⟨hd', he⟩ | ⟨hn, he⟩
  · obtain ⟨body, h1, h2, h3⟩ := copyToViewLoop_memory view offset pointer size hs hd size 0
      (w.record (lockEvent view offset size w)) (by omega) hd'
    rw [he]
    refine ⟨body, by simp only [h1]; simp [World.record, toViewTail],
      fun i hi => h2 i (by omega) hi, ?_⟩
    intro page index hout
    exact h3 page index (fun i h _ hi hm => hout i h hi hm)
  · rw [he] at hdone
    exact absurd hdone hn

theorem copyFromView_trace (view : MemoryViewVerbs) (offset : Nat) (pointer : Nat → UInt8)
    (size : Nat) (w : World) (hs : size < wordLimit) :
    (copyFromView view offset pointer size w).status ≠ Status.outOfFuel ∧
    (copyFromView view offset pointer size w).world.memory = w.memory ∧
    ((copyFromView view offset pointer size w).status = Status.done →
      view.asyncLockRange w.trace offset size = Error.success ∧
      (copyFromView view offset pointer size w).progress = size) ∧
    ∃ body, (∀ e ∈ body, CopyEvent view offset size e) ∧
      (copyFromView view offset pointer size w).world.trace =
        w.trace ++ lockEvent view offset size w :: (body ++
          if (copyFromView view offset pointer size w).status = Status.done
          then [Event.unlockRange offset size] else []) ∧
      ∀ physical misalign progress chunk,
        Event.memcpy physical misalign progress chunk ∈ body →
        ∃ o res, Event.fetchRange o res ∈ body ∧ res.valid ∧ res.range.physical = physical := by
  by_cases hl : view.asyncLockRange w.trace offset size = Error.success
  · obtain ⟨h1, h2, h3, body, h4, h5⟩ := copyFromViewLoop_events view offset size hs size 0
      pointer (w.record (lockEvent view offset size w)) (by omega)
    obtain ⟨body', h6, h7⟩ := copyFromViewLoop_memcpy view offset size hs size 0
      pointer (w.record (lockEvent view offset size w)) (by omega)
    obtain rfl : body = body' := List.append_cancel_left (h4.symm.trans h6)
    rcases copyFromView_locked view offset pointer size w hl with ⟨hd, he⟩ | ⟨hd, he⟩
    · rw [he]
      refine ⟨by simp [hd], h1, fun _ => ⟨hl, h3 (by omega) hd⟩, body, h5, ?_, h7⟩
      simp only [hd, h4, if_true]
      simp [World.record]
    · rw [he]
      refine ⟨h2, h1, fun h => absurd h hd, body, h5, ?_, h7⟩
      simp only [hd, h4, if_false]
      simp [World.record]
  · rw [copyFromView_lock_failed view offset pointer size w hl]
    exact ⟨by simp, rfl, fun h => by simp at h, [], by simp, by simp [World.record], by simp⟩

theorem copyFromView_done (view : MemoryViewVerbs) (offset : Nat) (pointer : Nat → UInt8)
    (size : Nat) (w : World) (hs : size < wordLimit)
    (hl : view.asyncLockRange w.trace offset size = Error.success) (hv : FetchesValid view) :
    (copyFromView view offset pointer size w).status = Status.done := by
  have hd := copyFromViewLoop_done view offset size hs hv size 0 pointer
    (w.record (lockEvent view offset size w)) (by omega)
  rcases copyFromView_locked view offset pointer size w hl with ⟨_, he⟩ | ⟨hn, _⟩
  · rw [he]; exact hd
  · exact absurd hd hn

theorem copyFromView_buffer (view : MemoryViewVerbs) (offset : Nat) (pointer : Nat → UInt8)
    (size : Nat) (w : World) (hs : size < wordLimit)
    (hdone : (copyFromView view offset pointer size w).status = Status.done) :
    ∃ body, (copyFromView view offset pointer size w).world.trace =
        w.trace ++ lockEvent view offset size w :: (body ++ [Event.unlockRange offset size]) ∧
      (∀ i, i < size → ∃ h,
        Event.fetchRange (pageBase (viewAddr offset i)) (fetchAt view offset h i) ∈ body ∧
        (copyFromView view offset pointer size w).buffer i =
          w.memory (fetchAt view offset h i).range.physical (viewAddr offset i % kPageSize)) ∧
      (∀ i, size ≤ i → (copyFromView view offset pointer size w).buffer i = pointer i) := by
  have hl := ((copyFromView_trace view offset pointer size w hs).2.2.1 hdone).1
  rcases copyFromView_locked view offset pointer size w hl with ⟨hd', he⟩ | ⟨hn, he⟩
  · obtain ⟨body, h1, h2, h3⟩ := copyFromViewLoop_buffer view offset size hs size 0 pointer
      (w.record (lockEvent view offset size w)) (by omega) hd'
    rw [he]
    exact ⟨body, by simp only [h1]; simp [World.record], fun i hi => h2 i (by omega) hi,
      fun i hi => h3 i (Or.inr hi)⟩
  · rw [he] at hdone
    exact absurd hdone hn

/-! ## Lemmas about eviction queues -/

theorem run_agents (ops : List QueueOp) (q : EvictionQueue)
    (h : q.mechanism_.agents = q.observers_) :
    (q.run ops).mechanism_.agents = (q.run ops).observers_ := by
  induction ops generalizing q with
  | nil => exact h
  | cons op ops ih =>
    apply ih
    cases op <;>
      simp [EvictionQueue.step, EvictionQueue.addObserver, EvictionQueue.removeObserver,
        EvictionQueue.evictRange, Eviction.done, PostAckMechanism.attach,
        PostAckMechanism.detach, PostAckMechanism.post, PostAckMechanism.ack, h]
    split <;> simp [h]

theorem step_pending (q : EvictionQueue) (op : QueueOp) (index observer : Nat)
    (item : PostedRange) (h1 : q.mechanism_.posted[index]? = some item)
    (h2 : observer ∈ item.pending) (h3 : op ≠ QueueOp.done ⟨observer, index⟩) :
    ∃ item', (q.step op).mechanism_.posted[index]? = some item' ∧ observer ∈ item'.pending := by
  cases op with
  | addObserver o => exact ⟨item, h1, h2⟩
  | removeObserver o => exact ⟨item, h1, h2⟩
  | evictRange offset size =>
    refine ⟨item, ?_, h2⟩
    have hlt : index < q.mechanism_.posted.length := by
      by_contra hn
      rw [List.getElem?_eq_none (by omega)] at h1
      exact absurd h1 (by simp)
    simp only [EvictionQueue.step, EvictionQueue.evictRange, PostAckMechanism.post]
    rw [List.getElem?_append_left hlt]
    exact h1
  | done e =>
    simp only [EvictionQueue.step, Eviction.done, PostAckMechanism.ack]
    cases hk : q.mechanism_.posted[e.index]? with
    | none => exact ⟨item, h1, h2⟩
    | some item₀ =>
      simp only
      by_cases hi : e.index = index
      · have h0 : item₀ = item := by
          rw [hi, h1] at hk
          exact (Option.some.inj hk).symm
        have hne : observer ≠ e.observer := by
          intro hc
          apply h3
          cases e
          simp_all
        have hlt : index < q.mechanism_.posted.length := by
          by_contra hn
          rw [List.getElem?_eq_none (by omega)] at h1
          exact absurd h1 (by simp)
        refine ⟨{ item₀ with pending := item₀.pending.erase e.observer }, ?_, ?_⟩
        · rw [hi, List.getElem?_set_self hlt]
        · rw [h0]
          exact (List.mem_erase_of_ne hne).mpr h2
      · refine ⟨item, ?_, h2⟩
        rw [List.getElem?_set_ne hi]
        exact h1

theorem run_pending (ops : List QueueOp) (q : EvictionQueue) (index observer : Nat)
    (item : PostedRange) (h1 : q.mechanism_.posted[index]? = some item)
    (h2 : observer ∈ item.pending) (h3 : QueueOp.done ⟨observer, index⟩ ∉ ops) :
    ∃ item', (q.run ops).mechanism_.posted[index]? = some item' ∧ observer ∈ item'.pending := by
  induction ops generalizing q item with
  | nil => exact ⟨item, h1, h2⟩
  | cons op ops ih =>
    rw [List.mem_cons, not_or] at h3
    obtain ⟨item', h4, h5⟩ := step_pending q op index observer item h1 h2 (Ne.symm h3.1)
    exact ih (q.step op) item' h4 h5 h3.2

theorem identityView_valid : FetchesValid identityView := by
  intro h o ho hlt
  refine ⟨rfl, le_refl _, ?_⟩
  show o ≠ physicalNone
  obtain ⟨c, rfl⟩ := ho
  simp only [kPageSize, physicalNone, wordLimit] at *
  omega

theorem markDirty_args (offset size : Nat) (ho : offset < wordLimit)
    (hfit : size + offset % kPageSize + kPageSize - 1 < wordLimit) :
    markDirtyOffset offset = offset / kPageSize * kPageSize ∧
    markDirtySize offset size
      = (size + offset % kPageSize + kPageSize - 1) / kPageSize * kPageSize := by
  constructor
  · exact land_high offset ho
  · unfold markDirtySize
    simp only [land_low]
    have e : sub64 (add64 (add64 size (offset % kPageSize)) kPageSize) 1
        = size + offset % kPageSize + kPageSize - 1 := by
      unfold sub64 add64
      simp only [kPageSize, wordLimit] at *
      omega
    rw [e]
    exact land_high _ hfit

/-! ## The claims about the copy helpers -/

/-- C1: for a view whose range lock succeeds and whose fetches return a stable physical page of
at least a page, different for different page-aligned offsets, `copyToView` of `size` bytes
followed by `copyFromView` of the same range runs to completion and reads back every byte that
was written, also when the range straddles page boundaries. -/
theorem copyToView_copyFromView_roundtrip (view : MemoryViewVerbs) (phys : Nat → Nat)
    (offset size : Nat) (b out : Nat → UInt8) (w : World) (hs : size < wordLimit)
    (hlock : ∀ h, view.asyncLockRange h offset size = Error.success)
    (hfetch : ∀ h o, kPageSize ∣ o → o < wordLimit →
      (view.fetchRange h o).error = Error.success ∧
      (view.fetchRange h o).range.physical = phys o ∧
      kPageSize ≤ (view.fetchRange h o).range.size)
    (hnone : ∀ o, kPageSize ∣ o → o < wordLimit → phys o ≠ physicalNone)
    (hinj : ∀ o₁ o₂, kPageSize ∣ o₁ → o₁ < wordLimit → kPageSize ∣ o₂ → o₂ < wordLimit →
      phys o₁ = phys o₂ → o₁ = o₂) :
    (copyToView view offset b size w).status = Status.done ∧
    (copyFromView view offset out size (copyToView view offset b size w).world).status
      = Status.done ∧
    ∀ i, i < size →
      (copyFromView view offset out size (copyToView view offset b size w).world).buffer i
        = b i := by
  have hv : FetchesValid view := fun h o h1 h2 =>
    ⟨(hfetch h o h1 h2).1, (hfetch h o h1 h2).2.2, by
      rw [(hfetch h o h1 h2).2.1]; exact hnone o h1 h2⟩
  have hd : DistinctPages view := by
    intro h₁ h₂ o₁ o₂ a1 a2 a3 a4 e
    rw [(hfetch h₁ o₁ a1 a2).2.1, (hfetch h₂ o₂ a3 a4).2.1] at e
    exact hinj o₁ o₂ a1 a2 a3 a4 e
  have h1 := copyToView_done view offset b size w hs (hlock _) hv
  have h2 := copyFromView_done view offset out size (copyToView view offset b size w).world hs
    (hlock _) hv
  refine ⟨h1, h2, ?_⟩
  intro i hi
  obtain ⟨_, _, hw, _⟩ := copyToView_memory view offset b size w hs hd h1
  obtain ⟨_, _, hr, _⟩ := copyFromView_buffer view offset out size
    (copyToView view offset b size w).world hs h2
  obtain ⟨hw1, _, hw2⟩ := hw i hi
  obtain ⟨hr1, _, hr2⟩ := hr i hi
  have e : (fetchAt view offset hr1 i).range.physical = (fetchAt view offset hw1 i).range.physical := by
    unfold fetchAt
    rw [(hfetch hr1 _ (pageBase_dvd _) (pageBase_lt _ _)).2.1,
      (hfetch hw1 _ (pageBase_dvd _) (pageBase_lt _ _)).2.1]
  rw [hr2, e, hw2]

set_option maxRecDepth 8000 in
/-- C1, witness: the five bytes of "hello" written at offset 8190, across the boundary between
two pages, are read back. -/
theorem copyToView_copyFromView_roundtrip_witness :
    5 < wordLimit ∧
    ((copyToView identityView 8190 helloBytes 5 zeroWorld).status = Status.done ∧
    (copyFromView identityView 8190 zeroBytes 5
      (copyToView identityView 8190 helloBytes 5 zeroWorld).world).status = Status.done ∧
    ∀ i, i < 5 →
      (copyFromView identityView 8190 zeroBytes 5
        (copyToView identityView 8190 helloBytes 5 zeroWorld).world).buffer i = helloBytes i) :=
  ⟨by decide,
    copyToView_copyFromView_roundtrip identityView id 8190 5 helloBytes zeroBytes zeroWorld
      (by decide) (fun _ => rfl) (fun _ _ _ _ => ⟨rfl, rfl, le_refl _⟩)
      (fun o h1 h2 => (identityView_valid [] o h1 h2).2.2)
      (fun _ _ _ _ _ _ e => e)⟩

set_option maxRecDepth 8000 in
/-- C2, counterexample: on a view that hands out one physical page for every offset, a complete
`copyToView` of 4097 bytes leaves in the view byte at offset 0 the source byte number 4096, not
the source byte number 0. -/
theorem copyToView_post_counterexample :
    (copyToView aliasView 0 twoPageBytes 4097 zeroWorld).status = Status.done ∧
    (copyToView aliasView 0 twoPageBytes 4097 zeroWorld).world.memory
      (aliasView.fetchRange [] (pageBase (viewAddr 0 0))).range.physical
      (viewAddr 0 0 % kPageSize) ≠ twoPageBytes 0 := by
  decide

/-- C2, amended: when the pages that the view hands out for different page-aligned offsets are
different, a complete `copyToView` has fetched, for every `i < size`, the page of the view
address `offset + i`, the byte at the position of that address in that page is `pointer[i]`, and
every byte of physical memory that is not such a byte is unchanged. -/
theorem copyToView_post (view : MemoryViewVerbs) (offset size : Nat) (pointer : Nat → UInt8)
    (w : World) (hs : size < wordLimit) (hd : DistinctPages view)
    (hdone : (copyToView view offset pointer size w).status = Status.done) :
    ∃ body, (copyToView view offset pointer size w).world.trace =
        w.trace ++ lockEvent view offset size w :: (body ++ toViewTail offset size) ∧
      (∀ i, i < size → ∃ res,
        Event.fetchRange (pageBase (viewAddr offset i)) res ∈ body ∧
        (copyToView view offset pointer size w).world.memory
          res.range.physical (viewAddr offset i % kPageSize) = pointer i) ∧
      (∀ page index, (∀ i res, i < size →
          Event.fetchRange (pageBase (viewAddr offset i)) res ∈ body →
          ¬ (page = res.range.physical ∧ index = viewAddr offset i % kPageSize)) →
        (copyToView view offset pointer size w).world.memory page index
          = w.memory page index) := by
  obtain ⟨body, h1, h2, h3⟩ := copyToView_memory view offset pointer size w hs hd hdone
  refine ⟨body, h1, ?_, ?_⟩
  · intro i hi
    obtain ⟨h, h4, h5⟩ := h2 i hi
    exact ⟨_, h4, h5⟩
  · intro page index hout
    exact h3 page index (fun i h hi hm => hout i _ hi hm)

set_option maxRecDepth 8000 in
/-- C2, witness of the amended statement: "hello" written at offset 8190 through a view with
distinct pages. -/
theorem copyToView_post_witness :
    5 < wordLimit ∧
    ∃ body, (copyToView identityView 8190 helloBytes 5 zeroWorld).world.trace =
        zeroWorld.trace ++ lockEvent identityView 8190 5 zeroWorld ::
          (body ++ toViewTail 8190 5) ∧
      (∀ i, i < 5 → ∃ res,
        Event.fetchRange (pageBase (viewAddr 8190 i)) res ∈ body ∧
        (copyToView identityView 8190 helloBytes 5 zeroWorld).world.memory
          res.range.physical (viewAddr 8190 i % kPageSize) = helloBytes i) ∧
      (∀ page index, (∀ i res, i < 5 →
          Event.fetchRange (pageBase (viewAddr 8190 i)) res ∈ body →
          ¬ (page = res.range.physical ∧ index = viewAddr 8190 i % kPageSize)) →
        (copyToView identityView 8190 helloBytes 5 zeroWorld).world.memory page index
          = zeroWorld.memory page index) :=
  ⟨by decide,
    copyToView_post identityView 8190 5 helloBytes zeroWorld (by decide)
      (fun _ _ _ _ _ _ _ _ e => e) (by decide)⟩

/-- C3: a complete `copyFromView` has fetched, for every `i < size`, the page of the view address
`offset + i`, `pointer[i]` is the byte at the position of that address in that page, and no byte
of physical memory is modified. -/
theorem copyFromView_post (view : MemoryViewVerbs) (offset size : Nat) (pointer : Nat → UInt8)
    (w : World) (hs : size < wordLimit)
    (hdone : (copyFromView view offset pointer size w).status = Status.done) :
    (∃ body, (copyFromView view offset pointer size w).world.trace =
        w.trace ++ lockEvent view offset size w :: (body ++ [Event.unlockRange offset size]) ∧
      ∀ i, i < size → ∃ res,
        Event.fetchRange (pageBase (viewAddr offset i)) res ∈ body ∧
        (copyFromView view offset pointer size w).buffer i =
          w.memory res.range.physical (viewAddr offset i % kPageSize)) ∧
    (copyFromView view offset pointer size w).world.memory = w.memory := by
  obtain ⟨body, h1, h2, _⟩ := copyFromView_buffer view offset pointer size w hs hdone
  refine ⟨⟨body, h1, ?_⟩, (copyFromView_trace view offset pointer size w hs).2.1⟩
  intro i hi
  obtain ⟨h, h4, h5⟩ := h2 i hi
  exact ⟨_, h4, h5⟩

set_option maxRecDepth 8000 in
/-- C3, witness: reading five bytes at offset 8190 through a view with distinct pages. -/
theorem copyFromView_post_witness :
    5 < wordLimit ∧
    ((∃ body, (copyFromView identityView 8190 zeroBytes 5 zeroWorld).world.trace =
        zeroWorld.trace ++ lockEvent identityView 8190 5 zeroWorld ::
          (body ++ [Event.unlockRange 8190 5]) ∧
      ∀ i, i < 5 → ∃ res,
        Event.fetchRange (pageBase (viewAddr 8190 i)) res ∈ body ∧
        (copyFromView identityView 8190 zeroBytes 5 zeroWorld).buffer i =
          zeroWorld.memory res.range.physical (viewAddr 8190 i % kPageSize)) ∧
    (copyFromView identityView 8190 zeroBytes 5 zeroWorld).world.memory = zeroWorld.memory) :=
  ⟨by decide, copyFromView_post identityView 8190 5 zeroBytes zeroWorld (by decide) (by decide)⟩

/-- C4, counterexample: for offset 0 and size `2 ^ 64 - 1` the sum `offset + size` does not wrap,
the copy through the identity view completes, and its `markDirty` call has length 0, so it does
not cover the written range. -/
theorem copyToView_markDirty_counterexample :
    0 + (2 ^ 64 - 1) < wordLimit ∧
    (copyToView identityView 0 zeroBytes (2 ^ 64 - 1) zeroWorld).status = Status.done ∧
    (∃ body, (∀ e ∈ body, e.isCopyStep = true) ∧
      (copyToView identityView 0 zeroBytes (2 ^ 64 - 1) zeroWorld).world.trace =
        Event.asyncLockRange 0 (2 ^ 64 - 1) Error.success ::
          (body ++ [Event.markDirty 0 0, Event.unlockRange 0 (2 ^ 64 - 1)])) ∧
    ¬ (0 + (2 ^ 64 - 1) ≤ 0 + 0) := by
  have hs : 2 ^ 64 - 1 < wordLimit := by decide
  have hd := copyToView_done identityView 0 zeroBytes (2 ^ 64 - 1) zeroWorld hs rfl
    identityView_valid
  obtain ⟨_, _, _, body, h1, h2, _⟩ := copyToView_trace identityView 0 zeroBytes (2 ^ 64 - 1)
    zeroWorld hs
  refine ⟨by decide, hd, ⟨body, fun e he => (h1 e he).isCopyStep, ?_⟩, by decide⟩
  rw [h2, if_pos hd]
  have e1 : markDirtyOffset 0 = 0 := by decide
  have e2 : markDirtySize 0 (2 ^ 64 - 1) = 0 := by decide
  simp only [toViewTail, e1, e2]
  rfl

/-- C4, amended: when rounding the end of the range up to a page boundary does not wrap, that is
`size + offset % kPageSize + kPageSize - 1 < 2 ^ 64`, a complete `copyToView` makes exactly one
`markDirty(start, len)` call, just before the unlock; `start` and `len` are multiples of
`kPageSize`, `start` is `offset` rounded down to a page boundary, and `[start, start + len)`
contains `[offset, offset + size)`. -/
theorem copyToView_markDirty (view : MemoryViewVerbs) (offset size : Nat)
    (pointer : Nat → UInt8) (w : World) (ho : offset < wordLimit)
    (hfit : size + offset % kPageSize + kPageSize - 1 < wordLimit)
    (hdone : (copyToView view offset pointer size w).status = Status.done) :
    ∃ body start len, (∀ e ∈ body, e.isCopyStep = true) ∧
      (copyToView view offset pointer size w).world.trace =
        w.trace ++ lockEvent view offset size w ::
          (body ++ [Event.markDirty start len, Event.unlockRange offset size]) ∧
      kPageSize ∣ start ∧ kPageSize ∣ len ∧ start = offset / kPageSize * kPageSize ∧
      start ≤ offset ∧ offset + size ≤ start + len := by
  have hs : size < wordLimit := by
    simp only [kPageSize, wordLimit] at *
    omega
  obtain ⟨_, _, _, body, h1, h2, _⟩ := copyToView_trace view offset pointer size w hs
  obtain ⟨e1, e2⟩ := markDirty_args offset size ho hfit
  refine ⟨body, markDirtyOffset offset, markDirtySize offset size,
    fun e he => (h1 e he).isCopyStep, ?_, ?_, ?_, e1, ?_, ?_⟩
  · rw [h2, if_pos hdone]
    rfl
  · rw [e1]; exact Dvd.intro_left _ rfl
  · rw [e2]; exact Dvd.intro_left _ rfl
  · rw [e1]; exact Nat.div_mul_le_self _ _
  · rw [e1, e2]
    simp only [kPageSize, wordLimit] at *
    omega

set_option maxRecDepth 8000 in
/-- C4, witness: the `markDirty` call of the copy of "hello" at offset 8190. -/
theorem copyToView_markDirty_witness :
    8190 < wordLimit ∧
    ∃ body start len, (∀ e ∈ body, e.isCopyStep = true) ∧
      (copyToView identityView 8190 helloBytes 5 zeroWorld).world.trace =
        zeroWorld.trace ++ lockEvent identityView 8190 5 zeroWorld ::
          (body ++ [Event.markDirty start len, Event.unlockRange 8190 5]) ∧
      kPageSize ∣ start ∧ kPageSize ∣ len ∧ start = 8190 / kPageSize * kPageSize ∧
      start ≤ 8190 ∧ 8190 + 5 ≤ start + len :=
  ⟨by decide,
    copyToView_markDirty identityView 8190 5 helloBytes zeroWorld (by decide) (by decide)
      (by decide)⟩

/-- C5: the code stops at a failed assertion where the claim wants the error returned: with a
range lock that completes with `Error::fault`, and with a fetch that completes with
`Error::fault`, both helpers end in `assertFailed`, and their result carries no error. -/
theorem copy_error_asserts :
    (copyToView faultView 0 zeroBytes 1 zeroWorld).status = Status.assertFailed ∧
    (copyFromView faultView 0 zeroBytes 1 zeroWorld).status = Status.assertFailed ∧
    (copyToView fetchFaultView 0 zeroBytes 1 zeroWorld).status = Status.assertFailed ∧
    (copyFromView fetchFaultView 0 zeroBytes 1 zeroWorld).status = Status.assertFailed := by
  decide

/-- C6, counterexample: when the range lock completes with `Error::fault` the only call of
either helper is the lock, so `unlockRange` is not called. -/
theorem copy_lock_protocol_counterexample :
    ((copyToView faultView 0 zeroBytes 1 zeroWorld).world.trace
        = [Event.asyncLockRange 0 1 Error.fault] ∧
      Event.unlockRange 0 1 ∉ (copyToView faultView 0 zeroBytes 1 zeroWorld).world.trace) ∧
    ((copyFromView faultView 0 zeroBytes 1 zeroWorld).world.trace
        = [Event.asyncLockRange 0 1 Error.fault] ∧
      Event.unlockRange 0 1 ∉ (copyFromView faultView 0 zeroBytes 1 zeroWorld).world.trace) := by
  decide

/-- C6, amended: both helpers call `asyncLockRange(offset, size)` first and never again; when
the run completes, what follows the lock is a sequence of fetches and copies and then, for
`copyToView`, one `markDirty` call and one `unlockRange(offset, size)`, and for `copyFromView`
one `unlockRange(offset, size)` and no `markDirty`. -/
theorem copy_lock_protocol (view : MemoryViewVerbs) (offset size : Nat) (pointer : Nat → UInt8)
    (w : World) (hs : size < wordLimit) :
    (∃ rest, (copyToView view offset pointer size w).world.trace =
        w.trace ++
          Event.asyncLockRange offset size (view.asyncLockRange w.trace offset size) :: rest ∧
      (∀ e ∈ rest, e.isLock = false) ∧
      ((copyToView view offset pointer size w).status = Status.done →
        ∃ body, (∀ e ∈ body, e.isCopyStep = true) ∧
          rest = body ++
            [Event.markDirty (markDirtyOffset offset) (markDirtySize offset size),
              Event.unlockRange offset size])) ∧
    (∃ rest, (copyFromView view offset pointer size w).world.trace =
        w.trace ++
          Event.asyncLockRange offset size (view.asyncLockRange w.trace offset size) :: rest ∧
      (∀ e ∈ rest, e.isLock = false) ∧
      ((copyFromView view offset pointer size w).status = Status.done →
        ∃ body, (∀ e ∈ body, e.isCopyStep = true) ∧
          rest = body ++ [Event.unlockRange offset size])) := by
  have hstep : ∀ e : Event, e.isCopyStep = true → e.isLock = false := by
    intro e he
    cases e <;> first | rfl | exact absurd he (by simp [Event.isCopyStep])
  obtain ⟨_, _, _, body₁, h1, h2, _⟩ := copyToView_trace view offset pointer size w hs
  obtain ⟨_, _, _, body₂, h3, h4, _⟩ := copyFromView_trace view offset pointer size w hs
  refine ⟨⟨_, h2, ?_, ?_⟩, ⟨_, h4, ?_, ?_⟩⟩
  · intro e he
    rw [List.mem_append] at he
    rcases he with he | he
    · exact hstep e (h1 e he).isCopyStep
    · split at he
      · simp only [toViewTail, List.mem_cons, List.mem_singleton, List.not_mem_nil,
          or_false] at he
        rcases he with rfl | rfl <;> rfl
      · exact absurd he (List.not_mem_nil _)
  · intro hd
    exact ⟨body₁, fun e he => (h1 e he).isCopyStep, by rw [if_pos hd]; rfl⟩
  · intro e he
    rw [List.mem_append] at he
    rcases he with he | he
    · exact hstep e (h3 e he).isCopyStep
    · split at he
      · rw [List.mem_singleton] at he
        subst he
        rfl
      · exact absurd he (List.not_mem_nil _)
  · intro hd
    exact ⟨body₂, fun e he => (h3 e he).isCopyStep, by rw [if_pos hd]⟩

set_option maxRecDepth 8000 in
/-- C6, witness of the amended statement: the calls of the two helpers for five bytes at offset
8190. -/
theorem copy_lock_protocol_witness :
    5 < wordLimit ∧
    ((∃ rest, (copyToView identityView 8190 helloBytes 5 zeroWorld).world.trace =
        zeroWorld.trace ++
          Event.asyncLockRange 8190 5 (identityView.asyncLockRange zeroWorld.trace 8190 5)
            :: rest ∧
      (∀ e ∈ rest, e.isLock = false) ∧
      ((copyToView identityView 8190 helloBytes 5 zeroWorld).status = Status.done →
        ∃ body, (∀ e ∈ body, e.isCopyStep = true) ∧
          rest = body ++
            [Event.markDirty (markDirtyOffset 8190) (markDirtySize 8190 5),
              Event.unlockRange 8190 5])) ∧
    (∃ rest, (copyFromView identityView 8190 helloBytes 5 zeroWorld).world.trace =
        zeroWorld.trace ++
          Event.asyncLockRange 8190 5 (identityView.asyncLockRange zeroWorld.trace 8190 5)
            :: rest ∧
      (∀ e ∈ rest, e.isLock = false) ∧
      ((copyFromView identityView 8190 helloBytes 5 zeroWorld).status = Status.done →
        ∃ body, (∀ e ∈ body, e.isCopyStep = true) ∧
          rest = body ++ [Event.unlockRange 8190 5]))) :=
  ⟨by decide, copy_lock_protocol identityView 8190 5 helloBytes zeroWorld (by decide)⟩

/-- C7: when the range lock succeeds and every fetch succeeds with a physical address other
than `PhysicalAddr(-1)` and a length of at least `kPageSize`, both helpers run to completion
without a failed assertion, and every `memcpy` works on a page that a fetch returned, stays
inside that page (`misalign + chunk ≤ kPageSize`) and inside the caller's buffer
(`progress + chunk ≤ size`). -/
theorem copy_safety (view : MemoryViewVerbs) (offset size : Nat) (pointer : Nat → UInt8)
    (w : World) (hs : size < wordLimit)
    (hlock : ∀ h, view.asyncLockRange h offset size = Error.success)
    (hfetch : ∀ h o, kPageSize ∣ o → o < wordLimit →
      (view.fetchRange h o).error = Error.success ∧
      (view.fetchRange h o).range.physical ≠ physicalNone ∧
      kPageSize ≤ (view.fetchRange h o).range.size) :
    ((copyToView view offset pointer size w).status = Status.done ∧
      ∃ body, (copyToView view offset pointer size w).world.trace =
          w.trace ++ Event.asyncLockRange offset size Error.success ::
            (body ++ [Event.markDirty (markDirtyOffset offset) (markDirtySize offset size),
              Event.unlockRange offset size]) ∧
        ∀ physical misalign progress chunk,
          Event.memcpy physical misalign progress chunk ∈ body →
          misalign + chunk ≤ kPageSize ∧ progress + chunk ≤ size ∧
          ∃ o res, Event.fetchRange o res ∈ body ∧ res.range.physical = physical ∧
            kPageSize ≤ res.range.size) ∧
    ((copyFromView view offset pointer size w).status = Status.done ∧
      ∃ body, (copyFromView view offset pointer size w).world.trace =
          w.trace ++ Event.asyncLockRange offset size Error.success ::
            (body ++ [Event.unlockRange offset size]) ∧
        ∀ physical misalign progress chunk,
          Event.memcpy physical misalign progress chunk ∈ body →
          misalign + chunk ≤ kPageSize ∧ progress + chunk ≤ size ∧
          ∃ o res, Event.fetchRange o res ∈ body ∧ res.range.physical = physical ∧
            kPageSize ≤ res.range.size) := by
  have hv : FetchesValid view := fun h o h1 h2 =>
    ⟨(hfetch h o h1 h2).1, (hfetch h o h1 h2).2.2, (hfetch h o h1 h2).2.1⟩
  have h1 := copyToView_done view offset pointer size w hs (hlock _) hv
  have h2 := copyFromView_done view offset pointer size w hs (hlock _) hv
  obtain ⟨_, _, _, body₁, h3, h4, h5⟩ := copyToView_trace view offset pointer size w hs
  obtain ⟨_, _, _, body₂, h6, h7, h8⟩ := copyFromView_trace view offset pointer size w hs
  refine ⟨⟨h1, body₁, ?_, ?_⟩, ⟨h2, body₂, ?_, ?_⟩⟩
  · rw [h4, if_pos h1, lockEvent, hlock]
    rfl
  · intro physical misalign progress chunk hm
    obtain ⟨o, res, a1, a2, a3⟩ := h5 physical misalign progress chunk hm
    have hc := h3 _ hm
    exact ⟨hc.1, hc.2, o, res, a1, a3, a2.2.1⟩
  · rw [h7, if_pos h2, lockEvent, hlock]
  · intro physical misalign progress chunk hm
    obtain ⟨o, res, a1, a2, a3⟩ := h8 physical misalign progress chunk hm
    have hc := h6 _ hm
    exact ⟨hc.1, hc.2, o, res, a1, a3, a2.2.1⟩

/-- C7, witness: the copy of five bytes at offset 8190 through the identity view. -/
theorem copy_safety_witness :
    5 < wordLimit ∧
    (((copyToView identityView 8190 helloBytes 5 zeroWorld).status = Status.done ∧
      ∃ body, (copyToView identityView 8190 helloBytes 5 zeroWorld).world.trace =
          zeroWorld.trace ++ Event.asyncLockRange 8190 5 Error.success ::
            (body ++ [Event.markDirty (markDirtyOffset 8190) (markDirtySize 8190 5),
              Event.unlockRange 8190 5]) ∧
        ∀ physical misalign progress chunk,
          Event.memcpy physical misalign progress chunk ∈ body →
          misalign + chunk ≤ kPageSize ∧ progress + chunk ≤ 5 ∧
          ∃ o res, Event.fetchRange o res ∈ body ∧ res.range.physical = physical ∧
            kPageSize ≤ res.range.size) ∧
    ((copyFromView identityView 8190 helloBytes 5 zeroWorld).status = Status.done ∧
      ∃ body, (copyFromView identityView 8190 helloBytes 5 zeroWorld).world.trace =
          zeroWorld.trace ++ Event.asyncLockRange 8190 5 Error.success ::
            (body ++ [Event.unlockRange 8190 5]) ∧
        ∀ physical misalign progress chunk,
          Event.memcpy physical misalign progress chunk ∈ body →
          misalign + chunk ≤ kPageSize ∧ progress + chunk ≤ 5 ∧
          ∃ o res, Event.fetchRange o res ∈ body ∧ res.range.physical = physical ∧
            kPageSize ≤ res.range.size)) :=
  ⟨by decide,
    copy_safety identityView 8190 5 helloBytes zeroWorld (by decide) (fun _ => rfl)
      (fun _ o h1 h2 => ⟨rfl, (identityView_valid [] o h1 h2).2.2, le_refl _⟩)⟩

/-! ## The claims about eviction -/

/-- C8: a view can evict memory exactly when it was constructed with a non-null queue pointer,
and the default is null; when it cannot, `addObserver` and `removeObserver` leave every queue as
it is; when it can, they are the `addObserver` and `removeObserver` of that queue. -/
theorem canEvictMemory_iff (queue : Option Nat) (heap : QueueHeap) (observer : Nat) :
    ((MemoryView.mk queue).canEvictMemory = true ↔ queue ≠ none) ∧
    ({} : MemoryView).canEvictMemory = false ∧
    ((MemoryView.mk queue).canEvictMemory = false →
      (MemoryView.mk queue).addObserver heap observer = heap ∧
      (MemoryView.mk queue).removeObserver heap observer = heap) ∧
    (∀ q, queue = some q →
      (MemoryView.mk queue).addObserver heap observer
        = Function.update heap q ((heap q).addObserver observer) ∧
      (MemoryView.mk queue).removeObserver heap observer
        = Function.update heap q ((heap q).removeObserver observer)) := by
  cases queue with
  | none =>
    refine ⟨by simp [MemoryView.canEvictMemory], rfl, fun _ => ⟨rfl, rfl⟩, ?_⟩
    intro q hq
    exact absurd hq (by simp)
  | some p =>
    refine ⟨by simp [MemoryView.canEvictMemory], rfl, ?_, ?_⟩
    · intro h
      simp [MemoryView.canEvictMemory] at h
    · intro q hq
      cases hq
      exact ⟨rfl, rfl⟩

/-- C9: the backing and the frontal view of a managed space can both evict memory and both
point to the `_evictQueue` of that space, so an observer added through either view is appended
to the same list of observers and counted in the same `numObservers_`. -/
theorem managed_views_share_queue (managed : ManagedSpace) (heap : QueueHeap) (observer : Nat) :
    (BackingMemory managed).canEvictMemory = true ∧
    (FrontalMemory managed).canEvictMemory = true ∧
    (BackingMemory managed).associatedEvictionQueue_ = some managed._evictQueue ∧
    (FrontalMemory managed).associatedEvictionQueue_ = some managed._evictQueue ∧
    (BackingMemory managed).addObserver heap observer
      = (FrontalMemory managed).addObserver heap observer ∧
    ((BackingMemory managed).addObserver heap observer managed._evictQueue).observers_
      = (heap managed._evictQueue).observers_ ++ [observer] ∧
    ((BackingMemory managed).addObserver heap observer managed._evictQueue).numObservers_
      = add64 (heap managed._evictQueue).numObservers_ 1 ∧
    ∀ q, q ≠ managed._evictQueue →
      (BackingMemory managed).addObserver heap observer q = heap q := by
  refine ⟨rfl, rfl, rfl, rfl, rfl, ?_, ?_, ?_⟩
  · simp [BackingMemory, MemoryView.addObserver, EvictionQueue.addObserver]
  · simp [BackingMemory, MemoryView.addObserver, EvictionQueue.addObserver]
  · intro q hq
    simp [BackingMemory, MemoryView.addObserver, Function.update_noteq hq]

/-- C10: in every history of a queue, if the completion of an `evictRange` has fired, then every
observer that was attached when `evictRange` was called has called `done()` on its handle for
that range after the call. -/
theorem evictRange_completion_needs_acks (before after : List QueueOp)
    (offset size observer : Nat)
    (hattached : observer ∈ (({} : EvictionQueue).run before).observers_)
    (hfired : (((({} : EvictionQueue).run before).evictRange offset size).run
      after).mechanism_.completed
        (({} : EvictionQueue).run before).mechanism_.posted.length = true) :
    QueueOp.done ⟨observer, (({} : EvictionQueue).run before).mechanism_.posted.length⟩
      ∈ after := by
  by_contra hno
  have hag : (({} : EvictionQueue).run before).mechanism_.agents
      = (({} : EvictionQueue).run before).observers_ := run_agents before {} rfl
  have hget : ((({} : EvictionQueue).run before).evictRange offset size).mechanism_.posted[
      (({} : EvictionQueue).run before).mechanism_.posted.length]?
      = some ⟨⟨offset, size⟩, (({} : EvictionQueue).run before).mechanism_.agents⟩ := by
    simp [EvictionQueue.evictRange, PostAckMechanism.post]
  obtain ⟨item, h1, h2⟩ := run_pending after _ _ observer _ hget (by rw [hag]; exact hattached) hno
  unfold PostAckMechanism.completed at hfired
  rw [h1] at hfired
  have hempty : item.pending = [] := List.isEmpty_iff.mp hfired
  rw [hempty] at h2
  exact absurd h2 (List.not_mem_nil _)

/-- C10, witness: two observers are attached, a range is posted, and both acknowledge it. -/
theorem evictRange_completion_needs_acks_witness :
    2 ∈ (({} : EvictionQueue).run [QueueOp.addObserver 1, QueueOp.addObserver 2]).observers_ ∧
    QueueOp.done ⟨2, (({} : EvictionQueue).run
        [QueueOp.addObserver 1, QueueOp.addObserver 2]).mechanism_.posted.length⟩
      ∈ [QueueOp.done ⟨1, 0⟩, QueueOp.done ⟨2, 0⟩] :=
  ⟨by decide,
    evictRange_completion_needs_acks [QueueOp.addObserver 1, QueueOp.addObserver 2]
      [QueueOp.done ⟨1, 0⟩, QueueOp.done ⟨2, 0⟩] 4096 4096 2 (by decide) (by decide)⟩

/-! ## The claims about managed pages and the pager interface -/

/-- C11: a freshly constructed managed page is missing, has no physical page and no lock, and its
cache page belongs to the given bundle with the given identity, reference count zero and no
reclaim state; so in this state the page is present exactly when it has a physical page. -/
theorem managedPage_construct (bundle identity : Nat) :
    (ManagedSpace.ManagedPage.construct bundle identity).loadState
      = ManagedSpace.LoadState.kStateMissing ∧
    (ManagedSpace.ManagedPage.construct bundle identity).physical = physicalNone ∧
    (ManagedSpace.ManagedPage.construct bundle identity).lockCount = 0 ∧
    (ManagedSpace.ManagedPage.construct bundle identity).cachePage.bundle = some bundle ∧
    (ManagedSpace.ManagedPage.construct bundle identity).cachePage.identity = identity ∧
    (ManagedSpace.ManagedPage.construct bundle identity).cachePage.refcount = 0 ∧
    (ManagedSpace.ManagedPage.construct bundle identity).cachePage.flags = 0 ∧
    (ManagedSpace.ManagedPage.construct bundle identity).cachePage.reclaimState = 0 ∧
    ((ManagedSpace.ManagedPage.construct bundle identity).loadState
        = ManagedSpace.LoadState.kStatePresent ↔
      (ManagedSpace.ManagedPage.construct bundle identity).physical ≠ physicalNone) := by
  refine ⟨rfl, rfl, rfl, rfl, rfl, rfl, rfl, Nat.zero_and _, ?_⟩
  constructor
  · intro h
    exact ManagedSpace.LoadState.noConfusion h
  · intro h
    exact absurd rfl h

/-- C12: the encodings of the three reclaim states are pairwise different and lie inside the
mask, so a flags word reports at most one of the states. -/
theorem reclaimState_exclusive (page : CachePage) :
    (0 ≠ CachePage.reclaimCached ∧ 0 ≠ CachePage.reclaimUncaching ∧
      CachePage.reclaimCached ≠ CachePage.reclaimUncaching) ∧
    (0 &&& CachePage.reclaimStateMask = 0 ∧
      CachePage.reclaimCached &&& CachePage.reclaimStateMask = CachePage.reclaimCached ∧
      CachePage.reclaimUncaching &&& CachePage.reclaimStateMask = CachePage.reclaimUncaching) ∧
    ¬ (page.reclaimState = 0 ∧ page.reclaimState = CachePage.reclaimCached) ∧
    ¬ (page.reclaimState = 0 ∧ page.reclaimState = CachePage.reclaimUncaching) ∧
    ¬ (page.reclaimState = CachePage.reclaimCached ∧
      page.reclaimState = CachePage.reclaimUncaching) := by
  refine ⟨by decide, by decide, ?_, ?_, ?_⟩
  · rintro ⟨h1, h2⟩
    rw [h1] at h2
    exact absurd h2 (by decide)
  · rintro ⟨h1, h2⟩
    rw [h1] at h2
    exact absurd h2 (by decide)
  · rintro ⟨h1, h2⟩
    rw [h1] at h2
    exact absurd h2 (by decide)

/-- C13, counterexample: `null` is a value of `ManageRequest` that is neither `initialize` nor
`writeback`. -/
theorem manageRequest_counterexample :
    ¬ ∀ r : ManageRequest, r = ManageRequest.initialize_ ∨ r = ManageRequest.writeback := by
  intro h
  cases h ManageRequest.null with
  | inl h => exact absurd h (by decide)
  | inr h => exact absurd h (by decide)

/-- C13, amended: every value of `ManageRequest` is one of the three kinds `null`, `initialize`
and `writeback`, which are pairwise different. -/
theorem manageRequest_kinds (r : ManageRequest) :
    (r = ManageRequest.null ∨ r = ManageRequest.initialize_ ∨ r = ManageRequest.writeback) ∧
    ManageRequest.null ≠ ManageRequest.initialize_ ∧
    ManageRequest.null ≠ ManageRequest.writeback ∧
    ManageRequest.initialize_ ≠ ManageRequest.writeback := by
  refine ⟨?_, by decide, by decide, by decide⟩
  cases r
  · exact Or.inl rfl
  · exact Or.inr (Or.inl rfl)
  · exact Or.inr (Or.inr rfl)

/-! ## Lemmas about the walk of the copy loops -/

theorem PageWalk_step (offset size progress o physical misalign p chunk : Nat)
    (res : FetchResult) (rest : List Event) :
    PageWalk offset size progress
        (Event.fetchRange o res :: Event.memcpy physical misalign p chunk :: rest) ↔
      (progress < size ∧ o = pageBase (viewAddr offset progress) ∧ kPageSize ∣ o ∧
        physical = res.range.physical ∧
        misalign = viewAddr offset progress % kPageSize ∧ p = progress ∧
        chunk = min (kPageSize - misalign) (size - progress) ∧ 1 ≤ chunk ∧
        PageWalk offset size (progress + chunk) rest) := by
  rw [PageWalk]

theorem copyToViewLoop_walk (view : MemoryViewVerbs) (offset : Nat) (pointer : Nat → UInt8)
    (size : Nat) (hs : size < wordLimit) (fuel p : Nat) (w : World) (hf : size - p ≤ fuel)
    (hp : p ≤ size)
    (hdone : (copyToViewLoop view offset pointer size fuel p w).status = Status.done) :
    ∃ evs, (copyToViewLoop view offset pointer size fuel p w).world.trace = w.trace ++ evs ∧
      PageWalk offset size p evs := by
  revert hp hdone
  refine copyToViewLoop_rule view offset pointer size hs
    (fun p w r => p ≤ size → r.status = Status.done →
      ∃ evs, r.world.trace = w.trace ++ evs ∧ PageWalk offset size p evs)
    ?_ ?_ ?_ fuel p w hf
  · intro p w h1 h2 _
    exact ⟨[], by simp, by simp only [PageWalk]; omega⟩
  · intro p w _ _ _ h
    simp at h
  · intro p w r h1 _ ih _ hd
    obtain ⟨evs, h2, h3⟩ := ih (chunkAt_le offset size p h1) hd
    refine ⟨stepEvents view offset size w.trace p ++ evs, ?_, ?_⟩
    · rw [h2]; simp [toStepWorld]
    · simp only [stepEvents, List.cons_append, List.nil_append]
      exact (PageWalk_step _ _ _ _ _ _ _ _ _ _).mpr
        ⟨h1, rfl, pageBase_dvd _, rfl, rfl, rfl, rfl, chunkAt_pos offset size p h1, h3⟩

theorem copyFromViewLoop_walk (view : MemoryViewVerbs) (offset size : Nat)
    (hs : size < wordLimit) (fuel p : Nat) (b : Nat → UInt8) (w : World) (hf : size - p ≤ fuel)
    (hp : p ≤ size)
    (hdone : (copyFromViewLoop view offset size fuel p b w).status = Status.done) :
    ∃ evs, (copyFromViewLoop view offset size fuel p b w).world.trace = w.trace ++ evs ∧
      PageWalk offset size p evs := by
  revert hp hdone
  refine copyFromViewLoop_rule view offset size hs
    (fun p _ w r => p ≤ size → r.status = Status.done →
      ∃ evs, r.world.trace = w.trace ++ evs ∧ PageWalk offset size p evs)
    ?_ ?_ ?_ fuel p b w hf
  · intro p _ w h1 h2 _
    exact ⟨[], by simp, by simp only [PageWalk]; omega⟩
  · intro p _ w _ _ _ h
    simp at h
  · intro p _ w r h1 _ ih _ hd
    obtain ⟨evs, h2, h3⟩ := ih (chunkAt_le offset size p h1) hd
    refine ⟨stepEvents view offset size w.trace p ++ evs, ?_, ?_⟩
    · rw [h2]; simp [fromStepWorld]
    · simp only [stepEvents, List.cons_append, List.nil_append]
      exact (PageWalk_step _ _ _ _ _ _ _ _ _ _).mpr
        ⟨h1, rfl, pageBase_dvd _, rfl, rfl, rfl, rfl, chunkAt_pos offset size p h1, h3⟩

/-- The pages of a range are the page of its first byte and the pages of what is left after
the bytes of that page. -/
theorem pagesOf_step (a n : Nat) (hn : 0 < n) :
    pagesOf a n = pageBase a ::
      pagesOf (a + min (kPageSize - a % kPageSize) n) (n - min (kPageSize - a % kPageSize) n) := by
  have hm : a % kPageSize < kPageSize := Nat.mod_lt _ (by decide)
  by_cases hc : n ≤ kPageSize - a % kPageSize
  · have e1 : min (kPageSize - a % kPageSize) n = n := by omega
    have e2 : pageCount a n = 1 := by
      unfold pageCount
      simp only [kPageSize] at *
      rw [if_neg (by omega)]
      omega
    have e3 : pageCount (a + n) (n - n) = 0 := by simp [pageCount]
    rw [e1]
    unfold pagesOf
    rw [e2, e3]
    simp [List.range_succ]
  · have e1 : min (kPageSize - a % kPageSize) n = kPageSize - a % kPageSize := by omega
    have e2 : pageCount a n
        = pageCount (a + (kPageSize - a % kPageSize)) (n - (kPageSize - a % kPageSize)) + 1 := by
      unfold pageCount
      simp only [kPageSize] at *
      rw [if_neg (by omega), if_neg (by omega)]
      omega
    have e3 : pageBase (a + (kPageSize - a % kPageSize)) = pageBase a + kPageSize := by
      unfold pageBase
      simp only [kPageSize] at *
      omega
    rw [e1]
    unfold pagesOf
    rw [e2, List.range_succ_eq_map, List.map_cons, List.map_map, e3]
    simp only [Nat.zero_mul, Nat.add_zero, List.cons.injEq, true_and]
    apply List.map_congr_left
    intro k _
    simp only [Function.comp, Nat.succ_eq_add_one]
    ring

theorem PageWalk.fetchOffsets {offset size : Nat} (hw : offset + size ≤ wordLimit) :
    ∀ (evs : List Event) (p : Nat), p ≤ size → PageWalk offset size p evs →
      fetchOffsets evs = pagesOf (offset + p) (size - p)
  | [], p, _, h => by
    simp only [PageWalk] at h
    subst h
    simp [thor.fetchOffsets, pagesOf, pageCount]
  | [e], p, _, h => by
    cases e <;> simp [PageWalk] at h
  | .fetchRange o res :: .memcpy physical misalign q chunk :: rest, p, hp, h => by
    obtain ⟨h1, h2, _, _, h3, _, h4, h5, h6⟩ := (PageWalk_step _ _ _ _ _ _ _ _ _ _).mp h
    have hv : viewAddr offset p = offset + p := by
      unfold viewAddr
      exact Nat.mod_eq_of_lt (by omega)
    rw [hv] at h2 h3
    have ih := PageWalk.fetchOffsets hw rest (p + chunk) (by omega) h6
    rw [pagesOf_step (offset + p) (size - p) (by omega)]
    simp only [thor.fetchOffsets, h2, List.cons.injEq, true_and]
    rw [ih, h4, h3]
    have e : offset + (p + min (kPageSize - (offset + p) % kPageSize) (size - p))
        = offset + p + min (kPageSize - (offset + p) % kPageSize) (size - p) := by omega
    have e' : size - (p + min (kPageSize - (offset + p) % kPageSize) (size - p))
        = size - p - min (kPageSize - (offset + p) % kPageSize) (size - p) := by omega
    rw [e, e']
  | .asyncLockRange _ _ _ :: _ :: _, _, _, h => by simp [PageWalk] at h
  | .memcpy _ _ _ _ :: _ :: _, _, _, h => by simp [PageWalk] at h
  | .markDirty _ _ :: _ :: _, _, _, h => by simp [PageWalk] at h
  | .unlockRange _ _ :: _ :: _, _, _, h => by simp [PageWalk] at h
  | .fetchRange _ _ :: .asyncLockRange _ _ _ :: _, _, _, h => by simp [PageWalk] at h
  | .fetchRange _ _ :: .fetchRange _ _ :: _, _, _, h => by simp [PageWalk] at h
  | .fetchRange _ _ :: .markDirty _ _ :: _, _, _, h => by simp [PageWalk] at h
  | .fetchRange _ _ :: .unlockRange _ _ :: _, _, _, h => by simp [PageWalk] at h

theorem pagesOf_increasing (offset size : Nat) :
    List.Pairwise (fun a b => a < b) (pagesOf offset size) := by
  unfold pagesOf
  apply List.Pairwise.map _ _ (List.pairwise_lt_range _)
  intro a b hab
  simp only [kPageSize]
  omega

theorem pagesOf_aligned (offset size o : Nat) (h : o ∈ pagesOf offset size) : kPageSize ∣ o := by
  unfold pagesOf at h
  rw [List.mem_map] at h
  obtain ⟨k, _, rfl⟩ := h
  exact Dvd.dvd.add (pageBase_dvd _) (Dvd.intro_left _ rfl)

/-- The list `pagesOf` holds exactly the pages that contain a byte of the range. -/
theorem mem_pagesOf (offset size o : Nat) :
    o ∈ pagesOf offset size ↔ ∃ i, i < size ∧ pageBase (offset + i) = o := by
  unfold pagesOf
  rw [List.mem_map]
  constructor
  · rintro ⟨k, hk, rfl⟩
    rw [List.mem_range] at hk
    unfold pageCount at hk
    by_cases h0 : size = 0
    · rw [if_pos h0] at hk
      omega
    · rw [if_neg h0] at hk
      refine ⟨pageBase offset + k * kPageSize - offset, ?_, ?_⟩
      · unfold pageBase
        simp only [kPageSize] at *
        omega
      · unfold pageBase
        simp only [kPageSize] at *
        omega
  · rintro ⟨i, hi, rfl⟩
    refine ⟨(offset + i) / kPageSize - offset / kPageSize, ?_, ?_⟩
    · rw [List.mem_range]
      unfold pageCount
      rw [if_neg (by omega)]
      simp only [kPageSize] at *
      omega
    · unfold pageBase
      simp only [kPageSize] at *
      omega

theorem copyToView_walk (view : MemoryViewVerbs) (offset : Nat) (pointer : Nat → UInt8)
    (size : Nat) (w : World) (hs : size < wordLimit)
    (hdone : (copyToView view offset pointer size w).status = Status.done) :
    ∃ body, (copyToView view offset pointer size w).world.trace =
        w.trace ++ lockEvent view offset size w :: (body ++ toViewTail offset size) ∧
      PageWalk offset size 0 body := by
  have hl := ((copyToView_trace view offset pointer size w hs).2.2.1 hdone).1
  rcases copyToView_locked view offset pointer size w hl with ⟨hd', he⟩ | ⟨hn, he⟩
  · obtain ⟨body, h1, h2⟩ := copyToViewLoop_walk view offset pointer size hs size 0
      (w.record (lockEvent view offset size w)) (by omega) (by omega) hd'
    rw [he]
    exact ⟨body, by simp only [h1]; simp [World.record, toViewTail], h2⟩
  · rw [he] at hdone
    exact absurd hdone hn

theorem copyFromView_walk (view : MemoryViewVerbs) (offset : Nat) (pointer : Nat → UInt8)
    (size : Nat) (w : World) (hs : size < wordLimit)
    (hdone : (copyFromView view offset pointer size w).status = Status.done) :
    ∃ body, (copyFromView view offset pointer size w).world.trace =
        w.trace ++ lockEvent view offset size w :: (body ++ [Event.unlockRange offset size]) ∧
      PageWalk offset size 0 body := by
  have hl := ((copyFromView_trace view offset pointer size w hs).2.2.1 hdone).1
  rcases copyFromView_locked view offset pointer size w hl with ⟨hd', he⟩ | ⟨hn, he⟩
  · obtain ⟨body, h1, h2⟩ := copyFromViewLoop_walk view offset size hs size 0 pointer
      (w.record (lockEvent view offset size w)) (by omega) (by omega) hd'
    rw [he]
    exact ⟨body, by simp only [h1]; simp [World.record], h2⟩
  · rw [he] at hdone
    exact absurd hdone hn

/-! ## The claims about the walk of the copy loops and the dirty range -/

/-- C14, counterexample: with a fetch that completes with `Error::fault` the loop stops at
progress 0 although the size is 1; and for two bytes at offset `2 ^ 64 - 1` through the identity
view the run completes with fetches at `2 ^ 64 - 4096` and then at 0, which is not increasing. -/
theorem copy_loop_walk_counterexample :
    ((copyToView fetchFaultView 0 zeroBytes 1 zeroWorld).status = Status.assertFailed ∧
      (copyToView fetchFaultView 0 zeroBytes 1 zeroWorld).progress = 0) ∧
    ((copyToView identityView (2 ^ 64 - 1) zeroBytes 2 zeroWorld).status = Status.done ∧
      fetchOffsets (copyToView identityView (2 ^ 64 - 1) zeroBytes 2 zeroWorld).world.trace
        = [2 ^ 64 - 4096, 0]) := by
  decide

/-- C14, amended: the loops of both helpers terminate; a run that completes ends with progress
equal to the size after a walk in which every step fetches the page of `offset + progress` at its
page-aligned offset and advances progress by `min(kPageSize - misalign, size - progress)`, at
least 1; when `offset + size` does not wrap, the fetches are exactly one per page that contains a
byte of `[offset, offset + size)`, in strictly increasing order. -/
theorem copy_loop_walk (view : MemoryViewVerbs) (offset size : Nat) (pointer : Nat → UInt8)
    (w : World) (hs : size < wordLimit) :
    ((copyToView view offset pointer size w).status ≠ Status.outOfFuel ∧
      ((copyToView view offset pointer size w).status = Status.done →
        (copyToView view offset pointer size w).progress = size ∧
        ∃ body, (copyToView view offset pointer size w).world.trace =
            w.trace ++ lockEvent view offset size w :: (body ++ toViewTail offset size) ∧
          PageWalk offset size 0 body ∧
          (offset + size ≤ wordLimit → fetchOffsets body = pagesOf offset size))) ∧
    ((copyFromView view offset pointer size w).status ≠ Status.outOfFuel ∧
      ((copyFromView view offset pointer size w).status = Status.done →
        (copyFromView view offset pointer size w).progress = size ∧
        ∃ body, (copyFromView view offset pointer size w).world.trace =
            w.trace ++ lockEvent view offset size w ::
              (body ++ [Event.unlockRange offset size]) ∧
          PageWalk offset size 0 body ∧
          (offset + size ≤ wordLimit → fetchOffsets body = pagesOf offset size))) ∧
    (List.Pairwise (fun a b => a < b) (pagesOf offset size) ∧
      (pagesOf offset size).length = pageCount offset size ∧
      ∀ o, o ∈ pagesOf offset size ↔
        kPageSize ∣ o ∧ ∃ i, i < size ∧ o ≤ offset + i ∧ offset + i < o + kPageSize) := by
  refine ⟨⟨(copyToView_trace view offset pointer size w hs).1, ?_⟩,
    ⟨(copyFromView_trace view offset pointer size w hs).1, ?_⟩,
    pagesOf_increasing offset size, by simp [pagesOf], ?_⟩
  · intro hd
    obtain ⟨body, h1, h2⟩ := copyToView_walk view offset pointer size w hs hd
    refine ⟨((copyToView_trace view offset pointer size w hs).2.2.1 hd).2, body, h1, h2, ?_⟩
    intro hw
    simpa using PageWalk.fetchOffsets hw body 0 (Nat.zero_le _) h2
  · intro hd
    obtain ⟨body, h1, h2⟩ := copyFromView_walk view offset pointer size w hs hd
    refine ⟨((copyFromView_trace view offset pointer size w hs).2.2.1 hd).2, body, h1, h2, ?_⟩
    intro hw
    simpa using PageWalk.fetchOffsets hw body 0 (Nat.zero_le _) h2
  · intro o
    rw [mem_pagesOf]
    constructor
    · rintro ⟨i, hi, rfl⟩
      refine ⟨pageBase_dvd _, i, hi, ?_⟩
      unfold pageBase
      simp only [kPageSize]
      omega
    · rintro ⟨⟨c, rfl⟩, i, hi, h1, h2⟩
      refine ⟨i, hi, ?_⟩
      unfold pageBase
      simp only [kPageSize] at *
      omega

set_option maxRecDepth 8000 in
/-- C14, witness of the amended statement: the walk of the copy of five bytes at offset 8190,
which fetches the pages at 4096 and 8192. -/
theorem copy_loop_walk_witness :
    5 < wordLimit ∧ pagesOf 8190 5 = [4096, 8192] ∧
    (((copyToView identityView 8190 helloBytes 5 zeroWorld).status ≠ Status.outOfFuel ∧
      ((copyToView identityView 8190 helloBytes 5 zeroWorld).status = Status.done →
        (copyToView identityView 8190 helloBytes 5 zeroWorld).progress = 5 ∧
        ∃ body, (copyToView identityView 8190 helloBytes 5 zeroWorld).world.trace =
            zeroWorld.trace ++ lockEvent identityView 8190 5 zeroWorld ::
              (body ++ toViewTail 8190 5) ∧
          PageWalk 8190 5 0 body ∧
          (8190 + 5 ≤ wordLimit → fetchOffsets body = pagesOf 8190 5))) ∧
    ((copyFromView identityView 8190 helloBytes 5 zeroWorld).status ≠ Status.outOfFuel ∧
      ((copyFromView identityView 8190 helloBytes 5 zeroWorld).status = Status.done →
        (copyFromView identityView 8190 helloBytes 5 zeroWorld).progress = 5 ∧
        ∃ body, (copyFromView identityView 8190 helloBytes 5 zeroWorld).world.trace =
            zeroWorld.trace ++ lockEvent identityView 8190 5 zeroWorld ::
              (body ++ [Event.unlockRange 8190 5]) ∧
          PageWalk 8190 5 0 body ∧
          (8190 + 5 ≤ wordLimit → fetchOffsets body = pagesOf 8190 5))) ∧
    (List.Pairwise (fun a b => a < b) (pagesOf 8190 5) ∧
      (pagesOf 8190 5).length = pageCount 8190 5 ∧
      ∀ o, o ∈ pagesOf 8190 5 ↔
        kPageSize ∣ o ∧ ∃ i, i < 5 ∧ o ≤ 8190 + i ∧ 8190 + i < o + kPageSize)) :=
  ⟨by decide, by decide, copy_loop_walk identityView 8190 5 helloBytes zeroWorld (by decide)⟩

/-- C15, counterexample: a complete `copyToView` of zero bytes at offset 1 calls
`markDirty(0, 4096)`, so it marks the page at 0, in which it wrote no byte; and a complete
`copyToView` of `2 ^ 64 - 2` bytes at offset 1 calls `markDirty(0, 0)`, a range that does not
cover the written bytes. -/
theorem copyToView_markDirty_tight_counterexample :
    ((copyToView identityView 1 zeroBytes 0 zeroWorld).status = Status.done ∧
      (copyToView identityView 1 zeroBytes 0 zeroWorld).world.trace =
        [Event.asyncLockRange 1 0 Error.success, Event.markDirty 0 4096,
          Event.unlockRange 1 0] ∧
      (kPageSize ∣ 0 ∧ 0 ≤ 0 ∧ 0 < 0 + 4096) ∧
      ¬ ∃ i, i < 0 ∧ 0 ≤ 1 + i ∧ 1 + i < 0 + kPageSize) ∧
    (1 + (2 ^ 64 - 2) < wordLimit ∧
      (copyToView identityView 1 zeroBytes (2 ^ 64 - 2) zeroWorld).status = Status.done ∧
      (∃ body, (∀ e ∈ body, e.isCopyStep = true) ∧
        (copyToView identityView 1 zeroBytes (2 ^ 64 - 2) zeroWorld).world.trace =
          Event.asyncLockRange 1 (2 ^ 64 - 2) Error.success ::
            (body ++ [Event.markDirty 0 0, Event.unlockRange 1 (2 ^ 64 - 2)])) ∧
      ¬ (1 + (2 ^ 64 - 2) ≤ 0 + 0)) := by
  have hs : 2 ^ 64 - 2 < wordLimit := by decide
  have hd := copyToView_done identityView 1 zeroBytes (2 ^ 64 - 2) zeroWorld hs rfl
    identityView_valid
  obtain ⟨_, _, _, body, h1, h2, _⟩ := copyToView_trace identityView 1 zeroBytes (2 ^ 64 - 2)
    zeroWorld hs
  refine ⟨⟨by decide, by decide, by decide, ?_⟩,
    by decide, hd, ⟨body, fun e he => (h1 e he).isCopyStep, ?_⟩, by decide⟩
  · rintro ⟨i, hi, _⟩
    exact absurd hi (Nat.not_lt_zero i)
  · rw [h2, if_pos hd]
    have e1 : markDirtyOffset 1 = 0 := by decide
    have e2 : markDirtySize 1 (2 ^ 64 - 2) = 0 := by decide
    simp only [toViewTail, e1, e2]
    rfl

/-- C15, amended: for a size of at least 1, when rounding the end of the range up to a page
boundary does not wrap, every page inside the range of the `markDirty` call of a complete
`copyToView` contains a byte of `[offset, offset + size)`, and the range is the smallest
page-aligned range that covers `[offset, offset + size)`. -/
theorem copyToView_markDirty_tight (view : MemoryViewVerbs) (offset size : Nat)
    (pointer : Nat → UInt8) (w : World) (ho : offset < wordLimit) (hpos : 0 < size)
    (hfit : size + offset % kPageSize + kPageSize - 1 < wordLimit)
    (hdone : (copyToView view offset pointer size w).status = Status.done) :
    ∃ body start len, (∀ e ∈ body, e.isCopyStep = true) ∧
      (copyToView view offset pointer size w).world.trace =
        w.trace ++ lockEvent view offset size w ::
          (body ++ [Event.markDirty start len, Event.unlockRange offset size]) ∧
      (∀ page, kPageSize ∣ page → start ≤ page → page < start + len →
        ∃ i, i < size ∧ page ≤ offset + i ∧ offset + i < page + kPageSize) ∧
      (kPageSize ∣ start ∧ kPageSize ∣ len ∧ start ≤ offset ∧ offset + size ≤ start + len) ∧
      (∀ s l, kPageSize ∣ s → kPageSize ∣ l → s ≤ offset → offset + size ≤ s + l →
        s ≤ start ∧ start + len ≤ s + l) := by
  have hs : size < wordLimit := by
    simp only [kPageSize, wordLimit] at *
    omega
  obtain ⟨_, _, _, body, h1, h2, _⟩ := copyToView_trace view offset pointer size w hs
  obtain ⟨e1, e2⟩ := markDirty_args offset size ho hfit
  refine ⟨body, markDirtyOffset offset, markDirtySize offset size,
    fun e he => (h1 e he).isCopyStep, ?_, ?_, ⟨?_, ?_, ?_, ?_⟩, ?_⟩
  · rw [h2, if_pos hdone]
    rfl
  · rintro page ⟨c, rfl⟩ h3 h4
    rw [e1] at h3 h4
    rw [e2] at h4
    refine ⟨kPageSize * c - offset, ?_, ?_, ?_⟩ <;>
    · simp only [kPageSize, wordLimit] at *
      omega
  · rw [e1]; exact Dvd.intro_left _ rfl
  · rw [e2]; exact Dvd.intro_left _ rfl
  · rw [e1]; exact Nat.div_mul_le_self _ _
  · rw [e1, e2]
    simp only [kPageSize, wordLimit] at *
    omega
  · rintro s l ⟨a, rfl⟩ ⟨b, rfl⟩ h3 h4
    rw [e1, e2]
    simp only [kPageSize, wordLimit] at *
    omega

set_option maxRecDepth 8000 in
/-- C15, witness of the amended statement: the `markDirty` call of the copy of "hello" at offset
8190. -/
theorem copyToView_markDirty_tight_witness :
    8190 < wordLimit ∧ 0 < 5 ∧
    ∃ body start len, (∀ e ∈ body, e.isCopyStep = true) ∧
      (copyToView identityView 8190 helloBytes 5 zeroWorld).world.trace =
        zeroWorld.trace ++ lockEvent identityView 8190 5 zeroWorld ::
          (body ++ [Event.markDirty start len, Event.unlockRange 8190 5]) ∧
      (∀ page, kPageSize ∣ page → start ≤ page → page < start + len →
        ∃ i, i < 5 ∧ page ≤ 8190 + i ∧ 8190 + i < page + kPageSize) ∧
      (kPageSize ∣ start ∧ kPageSize ∣ len ∧ start ≤ 8190 ∧ 8190 + 5 ≤ start + len) ∧
      (∀ s l, kPageSize ∣ s → kPageSize ∣ l → s ≤ 8190 → 8190 + 5 ≤ s + l →
        s ≤ start ∧ start + len ≤ s + l) :=
  ⟨by decide, by decide,
    copyToView_markDirty_tight identityView 8190 5 helloBytes zeroWorld (by decide) (by decide)
      (by decide) (by decide)⟩

/-! ## Lemmas about user queues -/

theorem land_not7 (x : Nat) (hx : x < wordLimit) : x &&& not64 7 = x / 8 * 8 := by
  have hx2 : x < 2 ^ 64 := hx
  have h0 : not64 7 = (2 ^ 61 - 1) <<< 3 := by decide
  have h2 : x / 8 * 8 = (x >>> 3) <<< 3 := by
    rw [Nat.shiftLeft_eq, Nat.shiftRight_eq_div_pow]
  rw [h0, h2]
  apply Nat.eq_of_testBit_eq
  intro i
  rw [Nat.testBit_and, Nat.testBit_shiftLeft, Nat.testBit_shiftLeft, Nat.testBit_shiftRight,
    Nat.testBit_two_pow_sub_one]
  by_cases hi : 3 ≤ i
  · have e : 3 + (i - 3) = i := by omega
    simp only [hi, ge_iff_le, decide_True, Bool.true_and, e]
    by_cases h61 : i - 3 < 61
    · simp [h61]
    · simp only [h61, decide_False, Bool.and_false]
      symm
      apply Nat.testBit_lt_two_pow
      calc x < 2 ^ 64 := hx2
        _ ≤ 2 ^ i := Nat.pow_le_pow_right (by norm_num) (by omega)
  · simp [hi]

theorem paddedSize_eq (chunk : QueueChunk) :
    paddedSize chunk = (chunk.size + 7) % wordLimit / 8 * 8 := by
  unfold paddedSize add64
  exact land_not7 _ (Nat.mod_lt _ (by decide))

theorem paddedSize_roundUp8 (chunk : QueueChunk) (h : chunk.size + 7 < wordLimit) :
    paddedSize chunk = roundUp8 chunk := by
  rw [paddedSize_eq, Nat.mod_eq_of_lt h]
  rfl

theorem paddedSize_dvd (chunk : QueueChunk) : 8 ∣ paddedSize chunk := by
  rw [paddedSize_eq]
  exact Dvd.intro_left _ rfl

theorem add64_dvd8 (a b : Nat) (ha : 8 ∣ a) (hb : 8 ∣ b) : 8 ∣ add64 a b := by
  unfold add64
  simp only [wordLimit]
  omega

theorem sumPadded_dvd (chunks : List QueueChunk) :
    ∀ length, 8 ∣ length → 8 ∣ sumPadded length chunks := by
  induction chunks with
  | nil => intro length h; exact h
  | cons chunk link ih =>
    intro length h
    exact ih _ (add64_dvd8 _ _ h (paddedSize_dvd chunk))

theorem sumPadded_eq (chunks : List QueueChunk) :
    ∀ length, NoWrap length chunks →
      sumPadded length chunks = length + (chunks.map roundUp8).sum := by
  induction chunks with
  | nil => intro length _; simp [sumPadded]
  | cons chunk link ih =>
    intro length h
    obtain ⟨h1, h2, h3⟩ := h
    have e : add64 length (paddedSize chunk) = length + roundUp8 chunk := by
      rw [paddedSize_roundUp8 chunk h1]
      exact Nat.mod_eq_of_lt h2
    simp only [sumPadded, e, ih _ h3, List.map_cons, List.sum_cons]
    omega

theorem roundUp8_bounds (chunk : QueueChunk) :
    chunk.size ≤ roundUp8 chunk ∧ roundUp8 chunk ≤ chunk.size + 7 ∧ 8 ∣ roundUp8 chunk := by
  unfold roundUp8
  refine ⟨by omega, by omega, Dvd.intro_left _ rfl⟩

theorem sum_roundUp8_bounds (chunks : List QueueChunk) :
    (chunks.map (fun c => c.size)).sum ≤ (chunks.map roundUp8).sum ∧
    (chunks.map roundUp8).sum ≤ (chunks.map (fun c => c.size)).sum + 7 * chunks.length := by
  induction chunks with
  | nil => simp
  | cons chunk link ih =>
    have := roundUp8_bounds chunk
    simp only [List.map_cons, List.sum_cons, List.length_cons]
    omega

theorem chunkWrites_snd (chunks : List QueueChunk) :
    ∀ disp, (chunkWrites disp chunks).map Prod.snd = chunks := by
  induction chunks with
  | nil => intro disp; rfl
  | cons chunk link ih =>
    intro disp
    simp [chunkWrites, ih]

theorem chunkWrites_dvd (chunks : List QueueChunk) :
    ∀ disp, 8 ∣ disp → ∀ dc ∈ chunkWrites disp chunks, 8 ∣ dc.1 := by
  induction chunks with
  | nil => intro disp _ dc h; simp [chunkWrites] at h
  | cons chunk link ih =>
    intro disp hd dc h
    simp only [chunkWrites, List.mem_cons] at h
    rcases h with rfl | h
    · exact hd
    · exact ih _ (add64_dvd8 _ _ hd (paddedSize_dvd chunk)) dc h

theorem chunkWrites_get (chunks : List QueueChunk) :
    ∀ disp i c, disp < wordLimit → chunks[i]? = some c →
      (chunkWrites disp chunks)[i]?
        = some ((disp + ((chunks.take i).map paddedSize).sum) % wordLimit, c) := by
  induction chunks with
  | nil => intro disp i c _ h; simp at h
  | cons chunk link ih =>
    intro disp i c hd h
    cases i with
    | zero =>
      simp only [List.getElem?_cons_zero, Option.some.injEq] at h
      subst h
      simp [chunkWrites, Nat.mod_eq_of_lt hd]
    | succ i =>
      simp only [List.getElem?_cons_succ] at h
      simp only [chunkWrites, List.getElem?_cons_succ, List.take_succ_cons, List.map_cons,
        List.sum_cons]
      rw [ih (add64 disp (paddedSize chunk)) i c (Nat.mod_lt _ (by decide)) h]
      unfold add64
      congr 2
      rw [Nat.add_mod, Nat.mod_mod, ← Nat.add_mod, Nat.add_assoc]

theorem chunkWrites_bounds (chunks : List QueueChunk) :
    ∀ disp, NoWrap disp chunks → ∀ dc ∈ chunkWrites disp chunks,
      disp ≤ dc.1 ∧ dc.1 + dc.2.size ≤ disp + (chunks.map roundUp8).sum := by
  induction chunks with
  | nil => intro disp _ dc h; simp [chunkWrites] at h
  | cons chunk link ih =>
    intro disp hn dc h
    obtain ⟨h1, h2, h3⟩ := hn
    have e : add64 disp (paddedSize chunk) = disp + roundUp8 chunk := by
      rw [paddedSize_roundUp8 chunk h1]
      exact Nat.mod_eq_of_lt h2
    have hb := roundUp8_bounds chunk
    simp only [chunkWrites, List.mem_cons, e] at h
    simp only [List.map_cons, List.sum_cons]
    rcases h with rfl | h
    · exact ⟨le_refl _, by simp only; omega⟩
    · have := ih _ h3 dc h
      omega

theorem chunkWrites_pairwise (chunks : List QueueChunk) :
    ∀ disp, NoWrap disp chunks →
      List.Pairwise (fun a b : Nat × QueueChunk => a.1 + a.2.size ≤ b.1)
        (chunkWrites disp chunks) := by
  induction chunks with
  | nil => intro disp _; simp [chunkWrites]
  | cons chunk link ih =>
    intro disp hn
    obtain ⟨h1, h2, h3⟩ := hn
    have e : add64 disp (paddedSize chunk) = disp + roundUp8 chunk := by
      rw [paddedSize_roundUp8 chunk h1]
      exact Nat.mod_eq_of_lt h2
    have hb := roundUp8_bounds chunk
    simp only [chunkWrites, e, List.pairwise_cons]
    refine ⟨?_, ih _ h3⟩
    intro dc hdc
    have := chunkWrites_bounds link _ h3 dc hdc
    omega

theorem take_map_paddedSize (chunks : List QueueChunk) :
    ∀ disp i, NoWrap disp chunks →
      ((chunks.take i).map paddedSize) = ((chunks.take i).map roundUp8) := by
  induction chunks with
  | nil => intro disp i _; simp
  | cons chunk link ih =>
    intro disp i hn
    obtain ⟨h1, _, h3⟩ := hn
    cases i with
    | zero => simp
    | succ i =>
      simp only [List.take_succ_cons, List.map_cons, paddedSize_roundUp8 chunk h1, ih _ i h3]

theorem or_wantNext (ke : Nat) (h : ke &&& kQueueWantNext = 0) :
    (ke ||| kQueueWantNext) &&& kQueueWantNext ≠ 0 ∧ (ke ||| kQueueWantNext) ≠ ke := by
  have e : (ke ||| kQueueWantNext) &&& kQueueWantNext = kQueueWantNext := by
    rw [Nat.and_comm, Nat.and_or_distrib_left, Nat.and_comm, h, Nat.and_self, Nat.zero_or]
  constructor
  · rw [e]; decide
  · intro hc
    rw [hc, h] at e
    exact absurd e (by decide)

theorem and_two_pow_of_lt (d n m : Nat) (h : d < 2 ^ n) (hm : n ≤ m) : d &&& 2 ^ m = 0 := by
  apply Nat.eq_of_testBit_eq
  intro i
  rw [Nat.testBit_and, Nat.zero_testBit, Nat.testBit_two_pow]
  by_cases hi : m = i
  · subst hi
    rw [Nat.testBit_lt_two_pow (lt_of_lt_of_le h (Nat.pow_le_pow_right (by norm_num) hm))]
    rfl
  · simp [hi]

theorem scan_fits (env : QueueEnv) (address length successor : Nat) (wait : Bool)
    (fuel ke : Nat) (w : QueueWorld)
    (h : fitsQueue ke length (w.memory address).queueLength) :
    UserQueue.scan env address length successor wait fuel ke w = ScanResult.found ke w := by
  obtain ⟨h1, h2⟩ := h
  have hc : ¬ (ke &&& kQueueWantNext ≠ 0 ∨
      add64 (add64 (ke &&& kQueueTail) sizeofElementStruct) length
        > (w.memory address).queueLength) := by
    rintro (hc | hc)
    · exact hc h1
    · exact absurd h2 (Nat.not_le.mpr hc)
  cases fuel <;> simp only [UserQueue.scan, if_neg hc]

/-- The first loop of `_progressFront` when the queue wants a successor: it waits for the
successor or moves on to it. -/
theorem scan_wantNext (env : QueueEnv) (address length successor : Nat) (wait : Bool)
    (fuel ke : Nat) (w : QueueWorld) (h : ke &&& kQueueWantNext ≠ 0) :
    UserQueue.scan env address length successor wait (fuel + 1) ke w =
      if (w.memory address).userState &&& kQueueHasNext = 0 then
        ScanResult.returned
          (!env.checkSubmitWait w.effects (add64 address offsetofUserState) true) successor
          (env.checkSubmitWait w.effects (add64 address offsetofUserState) true) w
      else ScanResult.returned true (w.memory address).nextQueue wait w := by
  simp only [UserQueue.scan, h, ne_eq, not_false_eq_true, true_or, if_true, beq_self_eq_true]

/-- The first loop of `_progressFront` when the element does not fit: it sets `kQueueWantNext`
in the kernel state word and then goes on as for a queue that wants a successor. -/
theorem scan_full (env : QueueEnv) (address length successor : Nat) (wait : Bool)
    (fuel ke : Nat) (w : QueueWorld) (h1 : ke &&& kQueueWantNext = 0)
    (h2 : ¬ add64 (add64 (ke &&& kQueueTail) sizeofElementStruct) length
      ≤ (w.memory address).queueLength)
    (h3 : (w.memory address).kernelState = ke) :
    UserQueue.scan env address length successor wait (fuel + 3) ke w =
      UserQueue.scan env address length successor wait (fuel + 1) (ke ||| kQueueWantNext)
        (markedWorld address ke w) := by
  have hq : ((markedWorld address ke w).memory address).queueLength
      = (w.memory address).queueLength := by
    unfold markedWorld
    split <;> simp [QueueWorld.storeKernelState, QueueWorld.log]
  have hk : ((markedWorld address ke w).memory address).kernelState = ke ||| kQueueWantNext := by
    unfold markedWorld
    split <;> simp [QueueWorld.storeKernelState, QueueWorld.log]
  have hc : ke &&& kQueueWantNext ≠ 0 ∨
      add64 (add64 (ke &&& kQueueTail) sizeofElementStruct) length
        > (w.memory address).queueLength := Or.inr (Nat.not_le.mp h2)
  have hc' : ke &&& kQueueWantNext ≠ 0 ∨
      add64 (add64 (ke &&& kQueueTail) sizeofElementStruct) length
        > ((markedWorld address ke w).memory address).queueLength := by
    rw [hq]; exact hc
  have hne := (or_wantNext ke h1).2
  rw [show fuel + 3 = (fuel + 2) + 1 from rfl, UserQueue.scan]
  simp only [if_pos hc, h1, ne_eq, not_true_eq_false, if_false, h3, if_true]
  have e : (if ¬ (ke &&& kQueueWaiters = 0) then
        (w.storeKernelState address (ke ||| kQueueWantNext)).log
          (QueueEffect.wake (add64 address offsetofKernelState))
      else w.storeKernelState address (ke ||| kQueueWantNext)) = markedWorld address ke w := rfl
  rw [e, show fuel + 2 = (fuel + 1) + 1 from rfl, UserQueue.scan]
  simp only [if_pos hc', h1, ne_eq, not_true_eq_false, if_false, hk, hne]
  have g1 := Nat.not_le.mp h2
  simp only [false_or, gt_iff_lt, hq, g1, if_true]

theorem markedWorld_effects (address ke : Nat) (w : QueueWorld) :
    ∃ evs, (markedWorld address ke w).effects = w.effects ++ evs ∧
      ∀ e ∈ evs, e.isWake = true := by
  unfold markedWorld
  split
  · exact ⟨[_], rfl, by simp [QueueEffect.isWake]⟩
  · exact ⟨[], by simp [QueueWorld.storeKernelState], by simp⟩

theorem completedNodes_append (a b : List QueueEffect) :
    completedNodes (a ++ b) = completedNodes a ++ completedNodes b := by
  induction a with
  | nil => rfl
  | cons e a ih => cases e <;> simp [completedNodes, ih]

theorem completedNodes_wakes (evs : List QueueEffect) (h : ∀ e ∈ evs, e.isWake = true) :
    completedNodes evs = [] := by
  induction evs with
  | nil => rfl
  | cons e evs ih =>
    have he := h e (List.mem_cons_self _ _)
    cases e <;> simp [QueueEffect.isWake] at he
    simp only [completedNodes]
    exact ih (fun e' he' => h e' (List.mem_cons_of_mem _ he'))

theorem scan_effects (env : QueueEnv) (address length successor : Nat) (wait : Bool) :
    ∀ fuel ke w, ∃ evs,
      (UserQueue.scan env address length successor wait fuel ke w).world.effects
        = w.effects ++ evs ∧ ∀ e ∈ evs, e.isWake = true := by
  intro fuel
  induction fuel with
  | zero =>
    intro ke w
    refine ⟨[], ?_, by simp⟩
    simp only [UserQueue.scan]
    split <;> simp [ScanResult.world]
  | succ fuel ih =>
    intro ke w
    simp only [UserQueue.scan]
    split
    · split
      · split
        · exact ⟨[], by simp [ScanResult.world], by simp⟩
        · exact ⟨[], by simp [ScanResult.world], by simp⟩
      · split
        · obtain ⟨evs, h1, h2⟩ := ih ke (markedWorld address ke w)
          obtain ⟨evs', h3, h4⟩ := markedWorld_effects address ke w
          refine ⟨evs' ++ evs, ?_, ?_⟩
          · have e : (if ke &&& kQueueWaiters ≠ 0 then
                (w.storeKernelState address (ke ||| kQueueWantNext)).log
                  (QueueEffect.wake (add64 address offsetofKernelState))
              else w.storeKernelState address (ke ||| kQueueWantNext))
                = markedWorld address ke w := rfl
            rw [e, h1, h3, List.append_assoc]
          · intro e he
            rw [List.mem_append] at he
            rcases he with he | he
            · exact h4 e he
            · exact h2 e he
        · exact ih _ w
    · exact ⟨[], by simp [ScanResult.world], by simp⟩

theorem publish_effects (address offset length : Nat) :
    ∀ fuel ke w, ∃ evs,
      (UserQueue.publish address offset length fuel ke w).2.effects = w.effects ++ evs ∧
        ∀ e ∈ evs, e.isWake = true := by
  intro fuel
  induction fuel with
  | zero => intro ke w; exact ⟨[], by simp [UserQueue.publish], by simp⟩
  | succ fuel ih =>
    intro ke w
    simp only [UserQueue.publish]
    split
    · exact ⟨[], by simp, by simp⟩
    · split
      · exact ⟨[], by simp, by simp⟩
      · split
        · split
          · exact ⟨[_], rfl, by simp [QueueEffect.isWake]⟩
          · exact ⟨[], by simp [QueueWorld.storeKernelState], by simp⟩
        · exact ih _ w

theorem publish_effects_of_eq (address offset length fuel ke : Nat) (w w' : QueueWorld)
    (s : Status) (h : UserQueue.publish address offset length fuel ke w = (s, w')) :
    ∃ evs, w'.effects = w.effects ++ evs ∧ ∀ e ∈ evs, e.isWake = true := by
  obtain ⟨evs, h1, h2⟩ := publish_effects address offset length fuel ke w
  rw [h] at h1
  exact ⟨evs, h1, h2⟩

theorem completedNodes_writes (payload : Nat) (l : List (Nat × QueueChunk)) :
    completedNodes (List.map (fun dc => QueueEffect.writeChunk payload dc.1
      dc.2.pointer dc.2.size) l) = [] := by
  induction l with
  | nil => rfl
  | cons a l ih => simp [completedNodes, ih]

/-- What `_progressFront` does to the list of nodes: its effects are appended to the effects so
far, and the nodes that it completed, followed by the nodes that are still queued, are the nodes
that were queued before. -/
theorem progressFront_history (env : QueueEnv) (q : UserQueue) (successor : Nat)
    (w : QueueWorld) :
    (q._progressFront env successor w).world.effects = w.effects ++
      (q._progressFront env successor w).world.effects.drop w.effects.length ∧
    completedNodes ((q._progressFront env successor w).world.effects.drop w.effects.length)
      ++ (q._progressFront env successor w).queue._nodeQueue = q._nodeQueue := by
  unfold UserQueue._progressFront
  cases hq : q._nodeQueue with
  | nil => simp [hq, completedNodes]
  | cons front rest =>
    simp only
    split
    · simp [hq, completedNodes]
    · split
      · simp [hq, completedNodes]
      · obtain ⟨evs, h1, h2⟩ := scan_effects env q._head (sumPadded 0 front._chunk) successor
          q._waitInFutex 3 (w.memory q._head).kernelState w
        have h3 := completedNodes_wakes evs h2
        cases hscan : UserQueue.scan env q._head (sumPadded 0 front._chunk) successor
            q._waitInFutex 3 (w.memory q._head).kernelState w with
        | outOfFuel w1 =>
          rw [hscan] at h1
          simp only [ScanResult.world] at h1
          simp [h1, h3, hq]
        | returned value successor1 wait w1 =>
          rw [hscan] at h1
          simp only [ScanResult.world] at h1
          simp [h1, h3, hq]
        | found ke1 w1 =>
          rw [hscan] at h1
          simp only [ScanResult.world] at h1
          simp only
          split
          · simp [h1, h3, hq]
          · split
            · simp [QueueWorld.log, h1, h3, hq, completedNodes_append, completedNodes]
            · split
              · rename_i heq
                obtain ⟨evs', h4, h5⟩ := publish_effects_of_eq _ _ _ _ _ _ _ _ heq
                simp [h4, QueueWorld.log, h1, h3, completedNodes_append, completedNodes,
                  completedNodes_writes, completedNodes_wakes evs' h5]
              · rename_i heq
                obtain ⟨evs', h4, h5⟩ := publish_effects_of_eq _ _ _ _ _ _ _ _ heq
                simp [h4, QueueWorld.log, h1, h3, completedNodes_append, completedNodes,
                  completedNodes_writes, completedNodes_wakes evs' h5]

theorem progress_history (env : QueueEnv) :
    ∀ fuel q w, ∃ evs,
      (UserQueue._progress env fuel q w).world.effects = w.effects ++ evs ∧
      completedNodes evs ++ (UserQueue._progress env fuel q w).queue._nodeQueue
        = q._nodeQueue := by
  intro fuel
  induction fuel with
  | zero =>
    intro q w
    refine ⟨[], ?_, ?_⟩ <;>
    · simp only [UserQueue._progress]
      split <;> simp [completedNodes]
  | succ fuel ih =>
    intro q w
    simp only [UserQueue._progress]
    split
    · exact ⟨[], by simp, by simp [completedNodes]⟩
    · obtain ⟨h1, h2⟩ := progressFront_history env q 0 w
      split
      · split
        · obtain ⟨evs, h3, h4⟩ := ih
            (if (q._progressFront env 0 w).successor ≠ 0 then
              { (q._progressFront env 0 w).queue with
                _head := (q._progressFront env 0 w).successor }
            else (q._progressFront env 0 w).queue) (q._progressFront env 0 w).world
          refine ⟨List.drop w.effects.length (q._progressFront env 0 w).world.effects ++ evs,
            ?_, ?_⟩
          · rw [h3, ← List.append_assoc, ← h1]
          · rw [completedNodes_append, List.append_assoc, h4]
            split <;> exact h2
        · exact ⟨_, h1, h2⟩
      · exact ⟨_, h1, h2⟩

/-- What one call does to the list of nodes: the nodes completed by the call, followed by the
nodes that are still queued, are the nodes that were queued before followed by the node of the
call, if it is a `submit`; or the kernel has stopped and the node was not taken up. -/
theorem call_history (env : QueueEnv) (fuel : Nat) (m : QueueMachine) (c : QueueCall) :
    ∃ evs, (m.call env fuel c).world.effects = m.world.effects ++ evs ∧
      (completedNodes evs ++ (m.call env fuel c).queue._nodeQueue
          = m.queue._nodeQueue ++ submittedNodes [c] ∨
        ((m.call env fuel c).status ≠ Status.done ∧
          completedNodes evs ++ (m.call env fuel c).queue._nodeQueue = m.queue._nodeQueue)) := by
  cases c with
  | submit node =>
    simp only [QueueMachine.call]
    split
    · unfold UserQueue.submit
      split
      · exact ⟨[], by simp, Or.inr ⟨by simp, by simp [completedNodes]⟩⟩
      · obtain ⟨evs, h1, h2⟩ := progress_history env fuel
          { m.queue with _nodeQueue := m.queue._nodeQueue ++ [node] } m.world
        exact ⟨evs, h1, Or.inl (by rw [h2]; rfl)⟩
    · rename_i hs
      refine ⟨[], by simp, Or.inr ⟨?_, by simp [completedNodes]⟩⟩
      intro h
      exact hs h
  | onWake =>
    simp only [QueueMachine.call]
    split
    · unfold UserQueue.onWake
      obtain ⟨evs, h1, h2⟩ := progress_history env fuel
        { m.queue with _waitInFutex := false } m.world
      exact ⟨evs, h1, Or.inl (by rw [h2]; simp [submittedNodes])⟩
    · exact ⟨[], by simp, Or.inl (by simp [completedNodes, submittedNodes])⟩

theorem run_stopped (env : QueueEnv) (fuel : Nat) (calls : List QueueCall) :
    ∀ m : QueueMachine, m.status ≠ Status.done → m.run env fuel calls = m := by
  induction calls with
  | nil => intro m _; rfl
  | cons c calls ih =>
    intro m h
    have e : m.call env fuel c = m := by
      cases hs : m.status
      · exact absurd hs h
      · cases c <;> simp [QueueMachine.call, hs]
      · cases c <;> simp [QueueMachine.call, hs]
    simp only [QueueMachine.run, List.foldl_cons, e]
    exact ih m h

theorem submittedNodes_cons (c : QueueCall) (calls : List QueueCall) :
    submittedNodes (c :: calls) = submittedNodes [c] ++ submittedNodes calls := by
  cases c <;> simp [submittedNodes]

theorem run_history (env : QueueEnv) (fuel : Nat) (calls : List QueueCall) :
    ∀ m : QueueMachine, ∃ evs,
      (m.run env fuel calls).world.effects = m.world.effects ++ evs ∧
      completedNodes evs ++ (m.run env fuel calls).queue._nodeQueue
        <+: m.queue._nodeQueue ++ submittedNodes calls := by
  induction calls with
  | nil =>
    intro m
    exact ⟨[], by simp [QueueMachine.run], by simp [QueueMachine.run, completedNodes, submittedNodes]⟩
  | cons c calls ih =>
    intro m
    obtain ⟨evs₁, h1, h2⟩ := call_history env fuel m c
    have hrun : m.run env fuel (c :: calls) = (m.call env fuel c).run env fuel calls := rfl
    rcases h2 with h2 | ⟨h2, h3⟩
    · obtain ⟨evs₂, h4, h5⟩ := ih (m.call env fuel c)
      refine ⟨evs₁ ++ evs₂, ?_, ?_⟩
      · rw [hrun, h4, h1, List.append_assoc]
      · rw [hrun, completedNodes_append, submittedNodes_cons,
          List.append_assoc (completedNodes evs₁),
          ← List.append_assoc m.queue._nodeQueue, ← h2,
          List.append_assoc (completedNodes evs₁)]
        exact (List.prefix_append_right_inj _).mpr h5
    · refine ⟨evs₁, ?_, ?_⟩
      · rw [hrun, run_stopped env fuel calls _ h2, h1]
      · rw [hrun, run_stopped env fuel calls _ h2, h3]
        exact List.prefix_append _ _

theorem sumPadded_mod (chunks : List QueueChunk) : sumPadded 0 chunks % 8 = 0 :=
  Nat.mod_eq_zero_of_dvd (sumPadded_dvd chunks 0 (Nat.dvd_zero 8))

theorem progressFront_waiting (env : QueueEnv) (q : UserQueue) (successor : Nat)
    (w : QueueWorld) (front : QueueNode) (rest : List QueueNode)
    (hq : q._nodeQueue = front :: rest) (hw : q._waitInFutex = true) :
    q._progressFront env successor w = ⟨Status.done, false, successor, q, w⟩ := by
  unfold UserQueue._progressFront
  simp only [hq, sumPadded_mod, ne_eq, not_true_eq_false, if_false, hw, if_true]

/-- A call of `_progressFront` that finds no room for the element, or a queue that wants a
successor: it returns without an assertion failure, leaves the list of nodes as it is and has no
effect but wake-ups. -/
theorem progressFront_blocked (env : QueueEnv) (q : UserQueue) (successor : Nat)
    (w : QueueWorld) (front : QueueNode) (rest : List QueueNode)
    (hq : q._nodeQueue = front :: rest) (hw : q._waitInFutex = false)
    (hfit : ¬ fitsQueue (w.memory q._head).kernelState (sumPadded 0 front._chunk)
      (w.memory q._head).queueLength) :
    (q._progressFront env successor w).status = Status.done ∧
    (q._progressFront env successor w).queue._nodeQueue = q._nodeQueue ∧
    ∃ evs, (q._progressFront env successor w).world.effects = w.effects ++ evs ∧
      ∀ e ∈ evs, e.isWake = true := by
  unfold UserQueue._progressFront
  simp only [hq, sumPadded_mod, ne_eq, not_true_eq_false, if_false, hw, Bool.false_eq_true]
  by_cases h1 : (w.memory q._head).kernelState &&& kQueueWantNext = 0
  · have h2 : ¬ add64 (add64 ((w.memory q._head).kernelState &&& kQueueTail)
        sizeofElementStruct) (sumPadded 0 front._chunk) ≤ (w.memory q._head).queueLength :=
      fun h2 => hfit ⟨h1, h2⟩
    rw [show (3 : Nat) = 0 + 3 from rfl, scan_full env _ _ _ _ 0 _ w h1 h2 rfl,
      scan_wantNext env _ _ _ _ 0 _ _ (or_wantNext _ h1).1]
    obtain ⟨evs, h3, h4⟩ := markedWorld_effects q._head (w.memory q._head).kernelState w
    by_cases hu : ((markedWorld q._head (w.memory q._head).kernelState w).memory
        q._head).userState &&& kQueueHasNext = 0
    · rw [if_pos hu]
      exact ⟨rfl, rfl, evs, h3, h4⟩
    · rw [if_neg hu]
      exact ⟨rfl, rfl, evs, h3, h4⟩
  · rw [show (3 : Nat) = 2 + 1 from rfl, scan_wantNext env _ _ _ _ 2 _ _ h1]
    by_cases hu : (w.memory q._head).userState &&& kQueueHasNext = 0
    · rw [if_pos hu]
      exact ⟨rfl, rfl, [], by simp, by simp⟩
    · rw [if_neg hu]
      exact ⟨rfl, rfl, [], by simp, by simp⟩

/-- A call of `_progressFront` that finds room for the element and in which no assertion
fails: it writes the element, pops and completes the front node and publishes the new tail. -/
theorem progressFront_written (env : QueueEnv) (q : UserQueue) (successor : Nat)
    (w : QueueWorld) (front : QueueNode) (rest : List QueueNode)
    (hq : q._nodeQueue = front :: rest) (hw : q._waitInFutex = false)
    (hfit : fitsQueue (w.memory q._head).kernelState (sumPadded 0 front._chunk)
      (w.memory q._head).queueLength)
    (hdone : (q._progressFront env successor w).status = Status.done) :
    (q._progressFront env successor w).queue = { q with _nodeQueue := rest } ∧
    (q._progressFront env successor w).value = !rest.isEmpty ∧
    ((q._progressFront env successor w).world.memory q._head).kernelState =
      add64 (add64 ((w.memory q._head).kernelState &&& kQueueTail) (sumPadded 0 front._chunk))
        sizeofElementStruct % uintLimit ∧
    ((q._progressFront env successor w).world.memory q._head).queueLength
      = (w.memory q._head).queueLength ∧
    (q._progressFront env successor w).world.effects =
      w.effects ++ elementEffects q._head (w.memory q._head).kernelState front := by
  have hwn : ¬ ((w.memory q._head).kernelState &&& kQueueWantNext ≠ 0) := by
    simp [hfit.1]
  unfold UserQueue._progressFront at hdone ⊢
  simp only [hq, sumPadded_mod, ne_eq, not_true_eq_false, if_false, hw, Bool.false_eq_true,
    scan_fits env _ _ _ _ 3 _ w hfit] at hdone ⊢
  by_cases h1 : env.writeFails w.effects
      (add64 (add64 q._head sizeofQueueStruct) ((w.memory q._head).kernelState &&& kQueueTail))
      offsetofLength = true
  · rw [if_pos h1] at hdone
    simp at hdone
  · rw [if_neg h1] at hdone ⊢
    by_cases h2 : env.writeFails (w.log (QueueEffect.writeLength
        (add64 (add64 q._head sizeofQueueStruct) ((w.memory q._head).kernelState &&& kQueueTail))
        (sumPadded 0 front._chunk % uintLimit))).effects
        (add64 (add64 q._head sizeofQueueStruct) ((w.memory q._head).kernelState &&& kQueueTail))
        offsetofContext = true
    · rw [if_pos h2] at hdone
      simp at hdone
    · rw [if_neg h2]
      simp only [UserQueue.publish, hfit.1, ne_eq, not_true_eq_false, if_false,
        QueueWorld.log, if_true]
      by_cases h3 : (w.memory q._head).kernelState &&& kQueueWaiters = 0
      · simp [h3, QueueWorld.storeKernelState, elementEffects]
      · simp [h3, QueueWorld.storeKernelState, elementEffects, QueueWorld.log]

theorem isWrite_of_isWake (e : QueueEffect) (h : e.isWake = true) : e.isWrite = false := by
  cases e <;> first | rfl | exact absurd h (by simp [QueueEffect.isWake])

/-! ## The claims about user queues -/

/-- C16, counterexample: for a node without chunks the padded length is 0, which is not below
the sum of the sizes plus eight times the number of chunks, also 0. -/
theorem paddedLength_counterexample :
    sumPadded 0 [] = 0 ∧ NoWrap 0 [] ∧
    ¬ (sumPadded 0 [] < (List.map (fun c : QueueChunk => c.size) []).sum
      + 8 * ([] : List QueueChunk).length) :=
  ⟨rfl, trivial, by decide⟩

/-- C16, amended: the padded element length that `_progressFront` computes is a multiple of 8
for every chunk list, so the assertion `length % 8 == 0` holds; when no addition wraps, it is the
sum of the sizes rounded up to multiples of 8, it is at least the sum of the sizes and at most
that sum plus 7 times the number of chunks, and so, for a chunk list that is not empty, below
that sum plus 8 times the number of chunks. -/
theorem paddedLength_bounds (chunks : List QueueChunk) :
    sumPadded 0 chunks % 8 = 0 ∧
    (NoWrap 0 chunks →
      sumPadded 0 chunks = (chunks.map roundUp8).sum ∧
      (chunks.map (fun c => c.size)).sum ≤ sumPadded 0 chunks ∧
      sumPadded 0 chunks ≤ (chunks.map (fun c => c.size)).sum + 7 * chunks.length ∧
      (chunks ≠ [] →
        sumPadded 0 chunks < (chunks.map (fun c => c.size)).sum + 8 * chunks.length)) := by
  refine ⟨Nat.mod_eq_zero_of_dvd (sumPadded_dvd chunks 0 (Nat.dvd_zero 8)), ?_⟩
  intro hn
  have e := sumPadded_eq chunks 0 hn
  rw [Nat.zero_add] at e
  have hb := sum_roundUp8_bounds chunks
  refine ⟨e, by omega, by omega, ?_⟩
  intro hne
  have hl : 0 < chunks.length := List.length_pos.mpr hne
  omega

/-- C16, witness of the amended statement: the chunks of 5 and 8 bytes have the padded length
16, between 13 and 13 + 14. -/
theorem paddedLength_bounds_witness :
    NoWrap 0 nodeA._chunk ∧ nodeA._chunk ≠ [] ∧
    sumPadded 0 nodeA._chunk % 8 = 0 ∧
    sumPadded 0 nodeA._chunk = (nodeA._chunk.map roundUp8).sum ∧
    (nodeA._chunk.map (fun c => c.size)).sum ≤ sumPadded 0 nodeA._chunk ∧
    sumPadded 0 nodeA._chunk
      < (nodeA._chunk.map (fun c => c.size)).sum + 8 * nodeA._chunk.length :=
  have nw : NoWrap 0 nodeA._chunk := ⟨by decide, by decide, by decide, by decide, trivial⟩
  ⟨nw, by decide, (paddedLength_bounds nodeA._chunk).1,
    ((paddedLength_bounds nodeA._chunk).2 nw).1,
    ((paddedLength_bounds nodeA._chunk).2 nw).2.1,
    ((paddedLength_bounds nodeA._chunk).2 nw).2.2.2 (by decide)⟩

/-- C17: `_progressFront` writes to user memory only if `kQueueWantNext` is clear in the kernel
state word `ke` of the current queue and `(ke & kQueueTail) + sizeof(ElementStruct) + length`,
as the code computes it, is at most the length of the queue; otherwise it writes nothing,
completes no node and leaves the list of nodes as it is.  When the sum does not wrap, the
condition is the inequality between natural numbers. -/
theorem progressFront_writes_only_if_fits (env : QueueEnv) (q : UserQueue) (successor : Nat)
    (w : QueueWorld) (front : QueueNode) (rest : List QueueNode)
    (hq : q._nodeQueue = front :: rest) :
    ∃ evs, (q._progressFront env successor w).world.effects = w.effects ++ evs ∧
      ((∃ e ∈ evs, e.isWrite = true) →
        fitsQueue (w.memory q._head).kernelState (sumPadded 0 front._chunk)
          (w.memory q._head).queueLength) ∧
      (¬ fitsQueue (w.memory q._head).kernelState (sumPadded 0 front._chunk)
          (w.memory q._head).queueLength →
        (∀ e ∈ evs, e.isWrite = false) ∧ completedNodes evs = [] ∧
        (q._progressFront env successor w).queue._nodeQueue = q._nodeQueue) ∧
      (fitsQueue (w.memory q._head).kernelState (sumPadded 0 front._chunk)
          (w.memory q._head).queueLength →
        ((w.memory q._head).kernelState &&& kQueueTail) + sizeofElementStruct
          + sumPadded 0 front._chunk < wordLimit →
        (w.memory q._head).kernelState &&& kQueueWantNext = 0 ∧
        ((w.memory q._head).kernelState &&& kQueueTail) + sizeofElementStruct
          + sumPadded 0 front._chunk ≤ (w.memory q._head).queueLength) := by
  have harith : fitsQueue (w.memory q._head).kernelState (sumPadded 0 front._chunk)
        (w.memory q._head).queueLength →
      ((w.memory q._head).kernelState &&& kQueueTail) + sizeofElementStruct
        + sumPadded 0 front._chunk < wordLimit →
      (w.memory q._head).kernelState &&& kQueueWantNext = 0 ∧
      ((w.memory q._head).kernelState &&& kQueueTail) + sizeofElementStruct
        + sumPadded 0 front._chunk ≤ (w.memory q._head).queueLength := by
    rintro ⟨h1, h2⟩ h3
    refine ⟨h1, ?_⟩
    unfold add64 at h2
    simp only [wordLimit, sizeofElementStruct] at *
    omega
  by_cases hfit : fitsQueue (w.memory q._head).kernelState (sumPadded 0 front._chunk)
      (w.memory q._head).queueLength
  · obtain ⟨h1, _⟩ := progressFront_history env q successor w
    exact ⟨_, h1, fun _ => hfit, fun h => absurd hfit h, harith⟩
  · by_cases hw : q._waitInFutex = true
    · rw [progressFront_waiting env q successor w front rest hq hw]
      exact ⟨[], by simp, fun ⟨e, he, _⟩ => absurd he (List.not_mem_nil e),
        fun _ => ⟨by simp, rfl, rfl⟩, harith⟩
    · have hw' : q._waitInFutex = false := by simpa using hw
      obtain ⟨_, h2, evs, h3, h4⟩ :=
        progressFront_blocked env q successor w front rest hq hw' hfit
      refine ⟨evs, h3, ?_, fun _ =>
        ⟨fun e he => isWrite_of_isWake e (h4 e he), completedNodes_wakes evs h4, h2⟩, harith⟩
      rintro ⟨e, he, hwr⟩
      rw [isWrite_of_isWake e (h4 e he)] at hwr
      exact absurd hwr (by simp)

/-- C17, witness: a node whose element of 304 bytes does not fit into a queue of 256 bytes. -/
theorem progressFront_writes_only_if_fits_witness :
    (⟨4096, false, [nodeB]⟩ : UserQueue)._nodeQueue = nodeB :: [] ∧
    ∃ evs, ((⟨4096, false, [nodeB]⟩ : UserQueue)._progressFront calmEnv 0
        emptyQueues).world.effects = emptyQueues.effects ++ evs ∧
      ((∃ e ∈ evs, e.isWrite = true) →
        fitsQueue (emptyQueues.memory 4096).kernelState (sumPadded 0 nodeB._chunk)
          (emptyQueues.memory 4096).queueLength) ∧
      (¬ fitsQueue (emptyQueues.memory 4096).kernelState (sumPadded 0 nodeB._chunk)
          (emptyQueues.memory 4096).queueLength →
        (∀ e ∈ evs, e.isWrite = false) ∧ completedNodes evs = [] ∧
        ((⟨4096, false, [nodeB]⟩ : UserQueue)._progressFront calmEnv 0
          emptyQueues).queue._nodeQueue = [nodeB]) ∧
      (fitsQueue (emptyQueues.memory 4096).kernelState (sumPadded 0 nodeB._chunk)
          (emptyQueues.memory 4096).queueLength →
        ((emptyQueues.memory 4096).kernelState &&& kQueueTail) + sizeofElementStruct
          + sumPadded 0 nodeB._chunk < wordLimit →
        (emptyQueues.memory 4096).kernelState &&& kQueueWantNext = 0 ∧
        ((emptyQueues.memory 4096).kernelState &&& kQueueTail) + sizeofElementStruct
          + sumPadded 0 nodeB._chunk ≤ (emptyQueues.memory 4096).queueLength) :=
  ⟨rfl, progressFront_writes_only_if_fits calmEnv ⟨4096, false, [nodeB]⟩ 0 emptyQueues nodeB []
    rfl⟩

/-- C18: when `_progressFront` has written an element of padded length `L` at the tail offset
`t = ke & kQueueTail`, the kernel state word of the queue is `t + L + sizeof(ElementStruct)` as
the code computes it, without loss in the conversion to `unsigned int`, and it is that sum of
natural numbers when the sum does not wrap; when the length of the queue is at most
`kQueueTail`, the new word has `kQueueWaiters` and `kQueueWantNext` clear and is its own tail
field; and it is a multiple of 8 when `t` is. -/
theorem progressFront_kernelState (env : QueueEnv) (q : UserQueue) (successor : Nat)
    (w : QueueWorld) (front : QueueNode) (rest : List QueueNode)
    (hq : q._nodeQueue = front :: rest) (hw : q._waitInFutex = false)
    (hfit : fitsQueue (w.memory q._head).kernelState (sumPadded 0 front._chunk)
      (w.memory q._head).queueLength)
    (hlen : (w.memory q._head).queueLength < uintLimit)
    (hdone : (q._progressFront env successor w).status = Status.done) :
    (q._progressFront env successor w).world.effects =
      w.effects ++ elementEffects q._head (w.memory q._head).kernelState front ∧
    ((q._progressFront env successor w).world.memory q._head).kernelState =
      (((w.memory q._head).kernelState &&& kQueueTail) + sumPadded 0 front._chunk
        + sizeofElementStruct) % wordLimit ∧
    (((w.memory q._head).kernelState &&& kQueueTail) + sumPadded 0 front._chunk
        + sizeofElementStruct < wordLimit →
      ((q._progressFront env successor w).world.memory q._head).kernelState =
        ((w.memory q._head).kernelState &&& kQueueTail) + sumPadded 0 front._chunk
          + sizeofElementStruct) ∧
    ((w.memory q._head).queueLength ≤ kQueueTail →
      ((q._progressFront env successor w).world.memory q._head).kernelState
        &&& kQueueWaiters = 0 ∧
      ((q._progressFront env successor w).world.memory q._head).kernelState
        &&& kQueueWantNext = 0 ∧
      ((q._progressFront env successor w).world.memory q._head).kernelState &&& kQueueTail =
        ((q._progressFront env successor w).world.memory q._head).kernelState) ∧
    (8 ∣ ((w.memory q._head).kernelState &&& kQueueTail) →
      8 ∣ ((q._progressFront env successor w).world.memory q._head).kernelState) := by
  obtain ⟨_, _, h1, _, h2⟩ := progressFront_written env q successor w front rest hq hw hfit hdone
  have h3 := hfit.2
  have h8 : 8 ∣ sumPadded 0 front._chunk := sumPadded_dvd _ 0 (Nat.dvd_zero 8)
  have e : ((q._progressFront env successor w).world.memory q._head).kernelState =
      (((w.memory q._head).kernelState &&& kQueueTail) + sumPadded 0 front._chunk
        + sizeofElementStruct) % wordLimit := by
    rw [h1]
    unfold add64 at h3 ⊢
    simp only [wordLimit, uintLimit, sizeofElementStruct] at *
    omega
  have hle : ((q._progressFront env successor w).world.memory q._head).kernelState
      ≤ (w.memory q._head).queueLength := by
    rw [e]
    unfold add64 at h3
    simp only [wordLimit, uintLimit, sizeofElementStruct] at *
    omega
  refine ⟨h2, e, ?_, ?_, ?_⟩
  · intro hlt
    rw [e]
    exact Nat.mod_eq_of_lt hlt
  · intro hq30
    have hlt : ((q._progressFront env successor w).world.memory q._head).kernelState
        < 2 ^ 30 := by
      have : kQueueTail = 2 ^ 30 - 1 := by decide
      omega
    refine ⟨and_two_pow_of_lt _ 30 31 hlt (by decide), and_two_pow_of_lt _ 30 30 hlt (by decide),
      ?_⟩
    have ht : kQueueTail = 2 ^ 30 - 1 := by decide
    rw [ht, Nat.and_pow_two_sub_one_eq_mod]
    exact Nat.mod_eq_of_lt hlt
  · intro ht
    rw [e]
    simp only [wordLimit, sizeofElementStruct]
    omega

set_option maxRecDepth 8000 in
/-- C18, witness: the element of a node with chunks of 5 and 8 bytes, written at the start of a
queue of 256 bytes, whose kernel state word becomes 32. -/
theorem progressFront_kernelState_witness :
    (⟨4096, false, [nodeA]⟩ : UserQueue)._nodeQueue = nodeA :: [] ∧
    ((⟨4096, false, [nodeA]⟩ : UserQueue)._progressFront calmEnv 0 emptyQueues).world.effects =
      emptyQueues.effects ++ elementEffects 4096 (emptyQueues.memory 4096).kernelState nodeA ∧
    (((⟨4096, false, [nodeA]⟩ : UserQueue)._progressFront calmEnv 0
        emptyQueues).world.memory 4096).kernelState =
      (((emptyQueues.memory 4096).kernelState &&& kQueueTail) + sumPadded 0 nodeA._chunk
        + sizeofElementStruct) % wordLimit :=
  ⟨rfl,
    (progressFront_kernelState calmEnv ⟨4096, false, [nodeA]⟩ 0 emptyQueues nodeA [] rfl rfl
      (by decide) (by decide) (by decide)).1,
    (progressFront_kernelState calmEnv ⟨4096, false, [nodeA]⟩ 0 emptyQueues nodeA [] rfl rfl
      (by decide) (by decide) (by decide)).2.1⟩

/-- C19, counterexample: a single chunk of `2 ^ 64 - 1` bytes is written at displacement 0 while
the padded length, which wraps, is 0, so the range of the chunk is not inside `[0, length)`. -/
theorem payload_layout_counterexample :
    chunkWrites 0 [⟨0, 2 ^ 64 - 1⟩] = [(0, ⟨0, 2 ^ 64 - 1⟩)] ∧
    sumPadded 0 [⟨0, 2 ^ 64 - 1⟩] = 0 ∧
    ¬ (0 + (2 ^ 64 - 1) ≤ sumPadded 0 [⟨0, 2 ^ 64 - 1⟩]) := by
  decide

/-- C19, amended: the chunks are written in chunk order, chunk `i` at the displacement that
is the sum, computed as a `size_t`, of the padded sizes of the chunks before it, and every
displacement is a multiple of 8; when no addition wraps, the displacement is the sum of the
sizes before it rounded up to multiples of 8, the byte ranges of the chunks are pairwise
disjoint and in chunk order, and all lie inside `[0, length)` for the padded length. -/
theorem payload_layout (chunks : List QueueChunk) :
    (chunkWrites 0 chunks).map Prod.snd = chunks ∧
    (∀ i c, chunks[i]? = some c →
      (chunkWrites 0 chunks)[i]?
        = some (((chunks.take i).map paddedSize).sum % wordLimit, c)) ∧
    (∀ dc ∈ chunkWrites 0 chunks, 8 ∣ dc.1) ∧
    (NoWrap 0 chunks →
      (∀ i c, chunks[i]? = some c →
        (chunkWrites 0 chunks)[i]? = some (((chunks.take i).map roundUp8).sum, c)) ∧
      List.Pairwise (fun a b : Nat × QueueChunk => a.1 + a.2.size ≤ b.1)
        (chunkWrites 0 chunks) ∧
      ∀ dc ∈ chunkWrites 0 chunks, dc.1 + dc.2.size ≤ sumPadded 0 chunks) := by
  have hget : ∀ i c, chunks[i]? = some c →
      (chunkWrites 0 chunks)[i]?
        = some (((chunks.take i).map paddedSize).sum % wordLimit, c) := by
    intro i c h
    have := chunkWrites_get chunks 0 i c (by decide) h
    rwa [Nat.zero_add] at this
  refine ⟨chunkWrites_snd chunks 0, hget, chunkWrites_dvd chunks 0 (Nat.dvd_zero 8), ?_⟩
  intro hn
  refine ⟨?_, chunkWrites_pairwise chunks 0 hn, ?_⟩
  · intro i c h
    have hb := chunkWrites_bounds chunks 0 hn
    have h1 := hget i c h
    rw [take_map_paddedSize chunks 0 i hn] at h1
    rw [h1]
    congr 2
    apply Nat.mod_eq_of_lt
    have hmem : (((chunks.take i).map roundUp8).sum % wordLimit, c) ∈ chunkWrites 0 chunks :=
      List.getElem?_mem h1
    have hsum : ((chunks.take i).map roundUp8).sum ≤ (chunks.map roundUp8).sum := by
      conv_rhs => rw [← List.take_append_drop i chunks]
      rw [List.map_append, List.sum_append]
      exact Nat.le_add_right _ _
    have hlt : (chunks.map roundUp8).sum < wordLimit ∨ chunks = [] := by
      cases chunks with
      | nil => exact Or.inr rfl
      | cons chunk link =>
        left
        have e := sumPadded_eq (chunk :: link) 0 hn
        rw [Nat.zero_add] at e
        rw [← e]
        simp only [sumPadded]
        have : ∀ l a, a < wordLimit → sumPadded a l < wordLimit := by
          intro l
          induction l with
          | nil => intro a ha; exact ha
          | cons c l ih => intro a _; exact ih _ (Nat.mod_lt _ (by decide))
        exact this _ _ (Nat.mod_lt _ (by decide))
    rcases hlt with hlt | rfl
    · omega
    · simp at h
  · intro dc hdc
    have := chunkWrites_bounds chunks 0 hn dc hdc
    rw [sumPadded_eq chunks 0 hn]
    exact this.2

/-- C19, witness of the amended statement: the chunks of 5 and 8 bytes are written at the
displacements 0 and 8, inside the padded length 16. -/
theorem payload_layout_witness :
    NoWrap 0 nodeA._chunk ∧
    chunkWrites 0 nodeA._chunk = [(0, ⟨1000, 5⟩), (8, ⟨2000, 8⟩)] ∧
    sumPadded 0 nodeA._chunk = 16 ∧
    List.Pairwise (fun a b : Nat × QueueChunk => a.1 + a.2.size ≤ b.1)
      (chunkWrites 0 nodeA._chunk) ∧
    ∀ dc ∈ chunkWrites 0 nodeA._chunk, dc.1 + dc.2.size ≤ sumPadded 0 nodeA._chunk :=
  have nw : NoWrap 0 nodeA._chunk := ⟨by decide, by decide, by decide, by decide, trivial⟩
  ⟨nw, by decide, by decide, ((payload_layout nodeA._chunk).2.2.2 nw).2.1,
    ((payload_layout nodeA._chunk).2.2.2 nw).2.2⟩

/-- C20: after any sequence of `submit` and `onWake` calls, the nodes that were completed,
in the order of their completion and followed by the nodes that are still queued, are an initial
part of the nodes that were queued at the start followed by the submitted nodes in the order of
their submission: nodes are completed in the order in which they were submitted, and no
submission is completed twice. -/
theorem userQueue_fifo (env : QueueEnv) (fuel : Nat) (q : UserQueue) (w : QueueWorld)
    (calls : List QueueCall) :
    ∃ evs,
      ((⟨Status.done, q, w⟩ : QueueMachine).run env fuel calls).world.effects
        = w.effects ++ evs ∧
      completedNodes evs ++
          ((⟨Status.done, q, w⟩ : QueueMachine).run env fuel calls).queue._nodeQueue
        <+: q._nodeQueue ++ submittedNodes calls ∧
      completedNodes evs <+: q._nodeQueue ++ submittedNodes calls := by
  obtain ⟨evs, h1, h2⟩ := run_history env fuel calls ⟨Status.done, q, w⟩
  exact ⟨evs, h1, h2, (List.prefix_append _ _).trans h2⟩

set_option maxRecDepth 8000 in
/-- C20, example: the nodes submitted in the order `nodeA`, `nodeC` to an empty queue are
completed in this order, and the theorem holds of this run. -/
theorem userQueue_fifo_witness :
    completedNodes ((⟨Status.done, ⟨4096, false, []⟩, emptyQueues⟩ : QueueMachine).run calmEnv 4
      [QueueCall.submit nodeA, QueueCall.submit nodeC]).world.effects = [nodeA, nodeC] ∧
    ∃ evs,
      ((⟨Status.done, ⟨4096, false, []⟩, emptyQueues⟩ : QueueMachine).run calmEnv 4
        [QueueCall.submit nodeA, QueueCall.submit nodeC]).world.effects
        = emptyQueues.effects ++ evs ∧
      completedNodes evs ++
        ((⟨Status.done, ⟨4096, false, []⟩, emptyQueues⟩ : QueueMachine).run calmEnv 4
          [QueueCall.submit nodeA, QueueCall.submit nodeC]).queue._nodeQueue
        <+: (⟨4096, false, []⟩ : UserQueue)._nodeQueue
          ++ submittedNodes [QueueCall.submit nodeA, QueueCall.submit nodeC] ∧
      completedNodes evs <+: (⟨4096, false, []⟩ : UserQueue)._nodeQueue
          ++ submittedNodes [QueueCall.submit nodeA, QueueCall.submit nodeC] :=
  ⟨by decide, userQueue_fifo calmEnv 4 ⟨4096, false, []⟩ emptyQueues
    [QueueCall.submit nodeA, QueueCall.submit nodeC]⟩

/-! ## Lemmas about user queues that wait in a futex -/

/-- While the queue waits in a futex, `_progress` returns at once: the first call of
`_progressFront` returns false without an effect. -/
theorem progress_waiting (env : QueueEnv) (fuel : Nat) (q : UserQueue) (w : QueueWorld)
    (hw : q._waitInFutex = true) :
    UserQueue._progress env (fuel + 1) q w = ⟨Status.done, q, w⟩ := by
  cases hq : q._nodeQueue with
  | nil => simp [UserQueue._progress, hq]
  | cons front rest =>
    simp [UserQueue._progress, hq, progressFront_waiting env q 0 w front rest hq hw]

/-- While the queue waits in a futex, `submit` appends the node and does nothing else; when the
node is in the list already, the assertion of `submit` fails and nothing is changed. -/
theorem submit_waiting (env : QueueEnv) (fuel : Nat) (q : UserQueue) (w : QueueWorld)
    (node : QueueNode) (hw : q._waitInFutex = true) :
    q.submit env (fuel + 1) node w =
      if node ∈ q._nodeQueue then ⟨Status.assertFailed, q, w⟩
      else ⟨Status.done, { q with _nodeQueue := q._nodeQueue ++ [node] }, w⟩ := by
  unfold UserQueue.submit
  split
  · rfl
  · exact progress_waiting env fuel _ w hw

/-- A sequence of `submit` calls on a queue that waits in a futex: the world, the head and the
flag stay as they are, and the list of nodes grows by the nodes that were taken up. -/
theorem run_submits_waiting (env : QueueEnv) (fuel : Nat) :
    ∀ (nodes : List QueueNode) (s : Status) (q : UserQueue) (w : QueueWorld),
      q._waitInFutex = true →
      ((⟨s, q, w⟩ : QueueMachine).run env (fuel + 1) (nodes.map QueueCall.submit)).world = w ∧
      ((⟨s, q, w⟩ : QueueMachine).run env (fuel + 1)
        (nodes.map QueueCall.submit)).queue._head = q._head ∧
      ((⟨s, q, w⟩ : QueueMachine).run env (fuel + 1)
        (nodes.map QueueCall.submit)).queue._waitInFutex = true ∧
      (∃ taken, taken <+: nodes ∧
        ((⟨s, q, w⟩ : QueueMachine).run env (fuel + 1)
          (nodes.map QueueCall.submit)).queue._nodeQueue = q._nodeQueue ++ taken) ∧
      (s = Status.done → nodes.Nodup → (∀ n ∈ nodes, n ∉ q._nodeQueue) →
        ((⟨s, q, w⟩ : QueueMachine).run env (fuel + 1)
          (nodes.map QueueCall.submit)).status = Status.done ∧
        ((⟨s, q, w⟩ : QueueMachine).run env (fuel + 1)
          (nodes.map QueueCall.submit)).queue._nodeQueue = q._nodeQueue ++ nodes) := by
  intro nodes
  induction nodes with
  | nil =>
    intro s q w hw
    exact ⟨rfl, rfl, hw, ⟨[], List.prefix_refl _, by simp [QueueMachine.run]⟩,
      fun hs _ _ => ⟨hs, by simp [QueueMachine.run]⟩⟩
  | cons node nodes ih =>
    intro s q w hw
    by_cases hs : s = Status.done
    · subst hs
      have e : (⟨Status.done, q, w⟩ : QueueMachine).run env (fuel + 1)
            ((node :: nodes).map QueueCall.submit)
          = (q.submit env (fuel + 1) node w).run env (fuel + 1)
            (nodes.map QueueCall.submit) := by
        simp [QueueMachine.run, QueueMachine.call]
      rw [e, submit_waiting env fuel q w node hw]
      by_cases hin : node ∈ q._nodeQueue
      · rw [if_pos hin, run_stopped env (fuel + 1) _ _ (by simp)]
        refine ⟨rfl, rfl, hw, ⟨[], List.nil_prefix, by simp⟩, ?_⟩
        intro _ _ hdis
        exact absurd hin (hdis node (List.mem_cons_self _ _))
      · rw [if_neg hin]
        obtain ⟨h1, h2, h3, ⟨taken, h4, h5⟩, h6⟩ :=
          ih Status.done { q with _nodeQueue := q._nodeQueue ++ [node] } w hw
        refine ⟨h1, h2, h3, ⟨node :: taken, ?_, ?_⟩, ?_⟩
        · exact (List.prefix_cons_inj node).mpr h4
        · rw [h5]; simp
        · intro _ hnd hdis
          have hnd' := List.nodup_cons.mp hnd
          obtain ⟨h7, h8⟩ := h6 rfl hnd'.2 (by
            intro n hn hmem
            rcases List.mem_append.mp hmem with hm | hm
            · exact hdis n (List.mem_cons_of_mem _ hn) hm
            · have : n = node := by simpa using hm
              subst this
              exact hnd'.1 hn)
          refine ⟨h7, ?_⟩
          rw [h8]; simp
    · rw [run_stopped env (fuel + 1) _ _ hs]
      exact ⟨rfl, rfl, hw, ⟨[], List.nil_prefix, by simp⟩, fun h => absurd h hs⟩

/-- A call of `_progress` on a queue that does not wait: a front node that fits into the queue
is written and completed when no assertion of the first call of `_progressFront` fails. -/
theorem progress_resumes (env : QueueEnv) (fuel : Nat) (q : UserQueue) (w : QueueWorld)
    (front : QueueNode) (rest : List QueueNode) (hq : q._nodeQueue = front :: rest)
    (hw : q._waitInFutex = false)
    (hfit : fitsQueue (w.memory q._head).kernelState (sumPadded 0 front._chunk)
      (w.memory q._head).queueLength)
    (hdone : (q._progressFront env 0 w).status = Status.done) :
    ∃ evs, (UserQueue._progress env (fuel + 1) q w).world.effects =
      w.effects ++ elementEffects q._head (w.memory q._head).kernelState front ++ evs := by
  obtain ⟨_, _, _, _, h5⟩ := progressFront_written env q 0 w front rest hq hw hfit hdone
  have hne : q._nodeQueue.isEmpty = false := by rw [hq]; rfl
  simp only [UserQueue._progress, hne, Bool.false_eq_true, if_false]
  generalize q._progressFront env 0 w = r at hdone h5
  rw [hdone]
  simp only
  split
  · obtain ⟨evs, h6, _⟩ := progress_history env fuel
      (if r.successor ≠ 0 then { r.queue with _head := r.successor } else r.queue) r.world
    exact ⟨evs, by rw [h6, h5]⟩
  · exact ⟨[], by rw [List.append_nil]; exact h5⟩

/-! ## The claim about user queues that wait in a futex -/

/-- C21: while a user queue waits in a futex, any sequence of `submit` calls leaves user memory
(the kernel state word with it) and the effects as they are, so that no element is written and no
node completed, leaves `_head` as it is and the flag set, and only appends the submitted nodes
to the list of nodes, all of them when no assertion of `submit` fails; `onWake` clears the flag
and runs `_progress`, which writes and completes a front node that fits. -/
theorem submit_while_waiting (env : QueueEnv) (fuel : Nat) (q : UserQueue) (w : QueueWorld)
    (nodes : List QueueNode) (hw : q._waitInFutex = true) :
    ((⟨Status.done, q, w⟩ : QueueMachine).run env (fuel + 1)
      (nodes.map QueueCall.submit)).world = w ∧
    ((⟨Status.done, q, w⟩ : QueueMachine).run env (fuel + 1)
      (nodes.map QueueCall.submit)).queue._head = q._head ∧
    ((⟨Status.done, q, w⟩ : QueueMachine).run env (fuel + 1)
      (nodes.map QueueCall.submit)).queue._waitInFutex = true ∧
    (∃ taken, taken <+: nodes ∧
      ((⟨Status.done, q, w⟩ : QueueMachine).run env (fuel + 1)
        (nodes.map QueueCall.submit)).queue._nodeQueue = q._nodeQueue ++ taken) ∧
    (nodes.Nodup → (∀ n ∈ nodes, n ∉ q._nodeQueue) →
      ((⟨Status.done, q, w⟩ : QueueMachine).run env (fuel + 1)
        (nodes.map QueueCall.submit)).status = Status.done ∧
      ((⟨Status.done, q, w⟩ : QueueMachine).run env (fuel + 1)
        (nodes.map QueueCall.submit)).queue._nodeQueue = q._nodeQueue ++ nodes) ∧
    q.onWake env fuel w = UserQueue._progress env fuel { q with _waitInFutex := false } w ∧
    (∀ front rest, q._nodeQueue = front :: rest →
      fitsQueue (w.memory q._head).kernelState (sumPadded 0 front._chunk)
        (w.memory q._head).queueLength →
      (({ q with _waitInFutex := false } : UserQueue)._progressFront env 0 w).status
        = Status.done →
      ∃ evs, (q.onWake env (fuel + 1) w).world.effects =
        w.effects ++ elementEffects q._head (w.memory q._head).kernelState front ++ evs) := by
  obtain ⟨h1, h2, h3, h4, h5⟩ := run_submits_waiting env fuel nodes Status.done q w hw
  refine ⟨h1, h2, h3, h4, h5 rfl, rfl, ?_⟩
  intro front rest hq hfit hdone
  exact progress_resumes env fuel { q with _waitInFutex := false } w front rest hq rfl hfit hdone

set_option maxRecDepth 8000 in
/-- C21, witness: a queue that waits with `nodeA` pending takes up `nodeC` without an effect, and
`onWake` then writes and completes `nodeA`. -/
theorem submit_while_waiting_witness :
    (⟨4096, true, [nodeA]⟩ : UserQueue)._waitInFutex = true ∧
    ((⟨Status.done, ⟨4096, true, [nodeA]⟩, emptyQueues⟩ : QueueMachine).run calmEnv (3 + 1)
      ([nodeC].map QueueCall.submit)).world = emptyQueues ∧
    ((⟨Status.done, ⟨4096, true, [nodeA]⟩, emptyQueues⟩ : QueueMachine).run calmEnv (3 + 1)
      ([nodeC].map QueueCall.submit)).queue._head = 4096 ∧
    ((⟨Status.done, ⟨4096, true, [nodeA]⟩, emptyQueues⟩ : QueueMachine).run calmEnv (3 + 1)
      ([nodeC].map QueueCall.submit)).queue._waitInFutex = true ∧
    ((⟨Status.done, ⟨4096, true, [nodeA]⟩, emptyQueues⟩ : QueueMachine).run calmEnv (3 + 1)
      ([nodeC].map QueueCall.submit)).queue._nodeQueue = [nodeA] ++ [nodeC] ∧
    ∃ evs, ((⟨4096, true, [nodeA]⟩ : UserQueue).onWake calmEnv (3 + 1) emptyQueues).world.effects =
      emptyQueues.effects ++ elementEffects 4096 (emptyQueues.memory 4096).kernelState nodeA
        ++ evs :=
  ⟨rfl,
    (submit_while_waiting calmEnv 3 ⟨4096, true, [nodeA]⟩ emptyQueues [nodeC] rfl).1,
    (submit_while_waiting calmEnv 3 ⟨4096, true, [nodeA]⟩ emptyQueues [nodeC] rfl).2.1,
    (submit_while_waiting calmEnv 3 ⟨4096, true, [nodeA]⟩ emptyQueues [nodeC] rfl).2.2.1,
    ((submit_while_waiting calmEnv 3 ⟨4096, true, [nodeA]⟩ emptyQueues [nodeC] rfl).2.2.2.2.1
      (by decide) (by decide)).2,
    (submit_while_waiting calmEnv 3 ⟨4096, true, [nodeA]⟩ emptyQueues [nodeC] rfl).2.2.2.2.2.2
      nodeA [] rfl (by decide) (by decide)⟩

/-! ## Lemmas about the observers of an eviction queue -/

theorem counted_step (q : EvictionQueue) (op : QueueOp) (h : q.Counted)
    (hr : RemovesAttached q [op]) : (q.step op).Counted := by
  unfold EvictionQueue.Counted at h ⊢
  cases op with
  | addObserver o =>
    simp only [EvictionQueue.step, EvictionQueue.addObserver, List.length_append,
      List.length_singleton, h, add64]
    simp only [wordLimit]
    omega
  | removeObserver o =>
    have hm : o ∈ q.observers_ := hr.1
    have hl : 0 < q.observers_.length := List.length_pos_of_mem hm
    simp only [EvictionQueue.step, EvictionQueue.removeObserver, List.length_erase_of_mem hm,
      h, sub64]
    simp only [wordLimit]
    omega
  | evictRange offset size => exact h
  | done e => exact h

theorem counted_run (ops : List QueueOp) :
    ∀ q : EvictionQueue, q.Counted → RemovesAttached q ops → (q.run ops).Counted := by
  induction ops with
  | nil => intro q h _; exact h
  | cons op ops ih =>
    intro q h hr
    have e : q.run (op :: ops) = (q.step op).run ops := rfl
    rw [e]
    cases op with
    | addObserver o => exact ih _ (counted_step q _ h trivial) hr
    | removeObserver o => exact ih _ (counted_step q _ h ⟨hr.1, trivial⟩) hr.2
    | evictRange offset size => exact ih _ (counted_step q _ h trivial) hr
    | done e => exact ih _ (counted_step q _ h trivial) hr

theorem distinct_run (ops : List QueueOp) :
    ∀ q : EvictionQueue, q.Distinct → AddsDetached q ops → (q.run ops).Distinct := by
  induction ops with
  | nil => intro q h _; exact h
  | cons op ops ih =>
    intro q h ha
    have e : q.run (op :: ops) = (q.step op).run ops := rfl
    rw [e]
    cases op with
    | addObserver o =>
      refine ih _ ?_ ha.2
      obtain ⟨⟨h1, h2, h3⟩, _⟩ := ha
      constructor
      · simp only [EvictionQueue.step, EvictionQueue.addObserver]
        exact List.Nodup.append h.1 (List.nodup_singleton o) (by simpa using h3)
      · intro x hx
        simp only [EvictionQueue.step, EvictionQueue.addObserver, List.mem_append,
          List.mem_singleton] at hx
        rcases hx with hx | rfl
        · exact h.2 x hx
        · exact ⟨h1, h2⟩
    | removeObserver o =>
      refine ih _ ?_ ha
      constructor
      · exact h.1.erase o
      · intro x hx
        exact h.2 x (List.mem_of_mem_erase hx)
    | evictRange offset size => exact ih _ h ha
    | done e => exact ih _ h ha

/-- A list of different words other than null is shorter than the number of words. -/
theorem distinct_length (l : List Nat) (hn : l.Nodup) (hb : ∀ o ∈ l, 0 < o ∧ o < wordLimit) :
    l.length < wordLimit := by
  have hsub : l.toFinset ⊆ Finset.Ico 1 wordLimit := by
    intro x hx
    have := hb x (List.mem_toFinset.mp hx)
    exact Finset.mem_Ico.mpr ⟨this.1, this.2⟩
  have hc := Finset.card_le_card hsub
  rw [List.toFinset_card_of_nodup hn, Nat.card_Ico] at hc
  have : 0 < wordLimit := by decide
  omega

theorem add_remove_count (n : Nat) (h : n < wordLimit) : sub64 (add64 n 1) 1 = n := by
  unfold sub64 add64
  simp only [wordLimit] at *
  omega

theorem add_remove_list (l : List Nat) (o : Nat) (h : o ∉ l) : (l ++ [o]).erase o = l := by
  rw [List.erase_append_right _ h]
  simp

/-! ## The claim about the observers of an eviction queue -/

/-- C22: starting from an empty queue, after any sequence of calls in which `removeObserver` is
only applied to an observer that is in the list, `numObservers_` is the length of `observers_`
as a `size_t`, hence the length itself for every list of fewer than `2 ^ 64` observers, and so
whenever every `addObserver` was applied to an observer object that was not in the list; and
`addObserver(o)` followed by `removeObserver(o)` restores the count, and restores the list for
an observer `o` that was not in it. -/
theorem numObservers_counts (ops : List QueueOp)
    (hr : RemovesAttached ({} : EvictionQueue) ops) :
    (({} : EvictionQueue).run ops).numObservers_
      = (({} : EvictionQueue).run ops).observers_.length % wordLimit ∧
    ((({} : EvictionQueue).run ops).observers_.length < wordLimit →
      (({} : EvictionQueue).run ops).numObservers_
        = (({} : EvictionQueue).run ops).observers_.length) ∧
    (AddsDetached ({} : EvictionQueue) ops →
      (({} : EvictionQueue).run ops).observers_.Nodup ∧
      (({} : EvictionQueue).run ops).numObservers_
        = (({} : EvictionQueue).run ops).observers_.length) ∧
    (∀ o : Nat,
      (((({} : EvictionQueue).run ops).addObserver o).removeObserver o).numObservers_
        = (({} : EvictionQueue).run ops).numObservers_ ∧
      (o ∉ (({} : EvictionQueue).run ops).observers_ →
        (((({} : EvictionQueue).run ops).addObserver o).removeObserver o).observers_
          = (({} : EvictionQueue).run ops).observers_)) := by
  have hc : (({} : EvictionQueue).run ops).numObservers_
      = (({} : EvictionQueue).run ops).observers_.length % wordLimit :=
    counted_run ops {} rfl hr
  have hlt : (({} : EvictionQueue).run ops).numObservers_ < wordLimit := by
    rw [hc]
    exact Nat.mod_lt _ (by decide)
  refine ⟨hc, ?_, ?_, ?_⟩
  · intro h
    rw [hc]
    exact Nat.mod_eq_of_lt h
  · intro ha
    have hd := distinct_run ops {} ⟨List.nodup_nil, fun o ho => absurd ho (List.not_mem_nil o)⟩ ha
    refine ⟨hd.1, ?_⟩
    rw [hc]
    exact Nat.mod_eq_of_lt (distinct_length _ hd.1 hd.2)
  · intro o
    exact ⟨add_remove_count _ hlt, fun h => add_remove_list _ o h⟩

/-- C22, witness: after attaching the observers 1 and 2, detaching 1 and attaching 3, the list
is `[2, 3]` and the counter is 2; attaching and detaching 4 restores both. -/
theorem numObservers_counts_witness :
    RemovesAttached ({} : EvictionQueue)
      [QueueOp.addObserver 1, QueueOp.addObserver 2, QueueOp.removeObserver 1,
        QueueOp.addObserver 3] ∧
    (({} : EvictionQueue).run [QueueOp.addObserver 1, QueueOp.addObserver 2,
      QueueOp.removeObserver 1, QueueOp.addObserver 3]).observers_ = [2, 3] ∧
    (({} : EvictionQueue).run [QueueOp.addObserver 1, QueueOp.addObserver 2,
      QueueOp.removeObserver 1, QueueOp.addObserver 3]).numObservers_
      = (({} : EvictionQueue).run [QueueOp.addObserver 1, QueueOp.addObserver 2,
        QueueOp.removeObserver 1, QueueOp.addObserver 3]).observers_.length ∧
    (((({} : EvictionQueue).run [QueueOp.addObserver 1, QueueOp.addObserver 2,
      QueueOp.removeObserver 1, QueueOp.addObserver 3]).addObserver 4).removeObserver
        4).observers_
      = (({} : EvictionQueue).run [QueueOp.addObserver 1, QueueOp.addObserver 2,
        QueueOp.removeObserver 1, QueueOp.addObserver 3]).observers_ :=
  have hr : RemovesAttached ({} : EvictionQueue)
      [QueueOp.addObserver 1, QueueOp.addObserver 2, QueueOp.removeObserver 1,
        QueueOp.addObserver 3] := ⟨by decide, trivial⟩
  have ha : AddsDetached ({} : EvictionQueue)
      [QueueOp.addObserver 1, QueueOp.addObserver 2, QueueOp.removeObserver 1,
        QueueOp.addObserver 3] :=
    ⟨⟨by decide, by decide, by decide⟩, ⟨by decide, by decide, by decide⟩,
      ⟨by decide, by decide, by decide⟩, trivial⟩
  ⟨hr, by decide,
    ((numObservers_counts _ hr).2.2.1 ha).2,
    ((numObservers_counts _ hr).2.2.2 4).2 (by decide)⟩

/-! ## The claim about fetch nodes -/

theorem completions_flags (l : List FetchCompletion) :
    ∀ node : FetchNode, (l.foldl FetchCompletion.apply node)._flags = node._flags ∧
      (l.foldl FetchCompletion.apply node)._fetched = node._fetched := by
  induction l with
  | nil => intro node; exact ⟨rfl, rfl⟩
  | cons c l ih =>
    intro node
    rw [List.foldl_cons]
    obtain ⟨h1, h2⟩ := ih (FetchCompletion.apply node c)
    rw [h1, h2]
    cases c <;> exact ⟨rfl, rfl⟩

/-- C23: `start_inline` hands its node to the view with flags 0, so `disallowBacking` is not
set; when the `fetchRange` of the view returns true, the operation completes inline with the
error and the range that the node holds after the `completeFetch` calls of the view, those of
the last call, and with flags 0; and `completeFetch(node, error)` changes the error of the node
and nothing else. -/
theorem fetchRange_inline (fetchRange : FetchRangeVerb) (op : FetchRangeOperation)
    (node : FetchNode) (error : Error) :
    (op.issued.flags = 0 ∧ op.issued.flags &&& FetchNode.disallowBacking = 0) ∧
    (op.start_inline fetchRange).returned = (fetchRange op.offset op.issued).returned ∧
    (op.start_inline fetchRange).operation.node_ =
      (fetchRange op.offset op.issued).completions.foldl FetchCompletion.apply op.issued ∧
    ((fetchRange op.offset op.issued).returned = true →
      (op.start_inline fetchRange).value =
        some ⟨(op.start_inline fetchRange).operation.node_._error,
          (op.start_inline fetchRange).operation.node_._range, 0⟩) ∧
    (∀ before e physical size cm, (fetchRange op.offset op.issued).returned = true →
      (fetchRange op.offset op.issued).completions
        = before ++ [FetchCompletion.withRange e physical size cm] →
      (op.start_inline fetchRange).value = some ⟨e, ⟨physical, size, cm⟩, 0⟩) ∧
    (∀ before e, (fetchRange op.offset op.issued).returned = true →
      (fetchRange op.offset op.issued).completions = before ++ [FetchCompletion.withError e] →
      (op.start_inline fetchRange).value =
        some ⟨e, (before.foldl FetchCompletion.apply op.issued)._range, 0⟩) ∧
    ((fetchRange op.offset op.issued).returned = false →
      (op.start_inline fetchRange).value = none) ∧
    ((MemoryView.completeFetch node error)._error = error ∧
      (MemoryView.completeFetch node error)._range = node._range ∧
      (MemoryView.completeFetch node error)._flags = node._flags ∧
      (MemoryView.completeFetch node error)._fetched = node._fetched) := by
  have hflags := fun l => (completions_flags l op.issued).1
  have h0 : op.issued._flags = 0 := rfl
  refine ⟨⟨rfl, Nat.zero_and _⟩, ?_, ?_, ?_, ?_, ?_, ?_, ⟨rfl, rfl, rfl, rfl⟩⟩
  · unfold FetchRangeOperation.start_inline
    simp only
    split <;> simp_all
  · unfold FetchRangeOperation.start_inline
    simp only
    split <;> rfl
  · intro h
    unfold FetchRangeOperation.start_inline
    simp only [h, if_true, FetchNode.error, FetchNode.range, FetchNode.flags, hflags, h0]
  · intro before e physical size cm h hc
    unfold FetchRangeOperation.start_inline
    simp only [h, if_true, FetchNode.error, FetchNode.range, FetchNode.flags, hflags, h0]
    rw [hc, List.foldl_append]
    rfl
  · intro before e h hc
    unfold FetchRangeOperation.start_inline
    simp only [h, if_true, FetchNode.error, FetchNode.range, FetchNode.flags, hflags, h0]
    rw [hc, List.foldl_append]
    rfl
  · intro h
    unfold FetchRangeOperation.start_inline
    simp only [h, Bool.false_eq_true, if_false]

/-- C23, example: a fetch at offset 8192 of a window of 16 pages at 1 MiB, from an operation
whose node held flags 1 before: the view gets the node with flags 0 and the operation completes
inline with the range at `0x102000`; with a view that fails, the range is what the node held. -/
theorem fetchRange_inline_witness :
    staleOperation.node_._flags = 1 ∧
    staleOperation.issued.flags = 0 ∧
    (staleOperation.start_inline (windowFetch 0x100000 0x10000)).returned = true ∧
    (staleOperation.start_inline (windowFetch 0x100000 0x10000)).value =
      some ⟨Error.success, ⟨0x102000, 0xe000, CachingMode.writeBack⟩, 0⟩ ∧
    (staleOperation.start_inline faultFetch).value =
      some ⟨Error.fault, ⟨5, 6, CachingMode.uncached⟩, 0⟩ :=
  ⟨rfl, (fetchRange_inline (windowFetch 0x100000 0x10000) staleOperation staleOperation.node_
      Error.fault).1.1,
    by decide,
    (fetchRange_inline (windowFetch 0x100000 0x10000) staleOperation staleOperation.node_
      Error.fault).2.2.2.2.1 [] Error.success 0x102000 0xe000 CachingMode.writeBack
      (by decide) (by decide),
    (fetchRange_inline faultFetch staleOperation staleOperation.node_
      Error.fault).2.2.2.2.2.1 [] Error.fault (by decide) (by decide)⟩

end thor
